import Mathlib

/-!
# Tsuki: chunk lifecycle plane

A shallow embedding of the file server's token/expectation engine
(`FileServer.go`) and heart (`heart.go`), and of the namenode's liveness ring
(`cmd/tsukinsd/fs.go`), replica confirmation (`cmd/tsukinsd/privateserver.go`) and
directory tree (`cmd/tsukinsd/filetree.go`).

Go maps are association lists with unique keys (insertion order), `go f(x)`
calls are queued in the state and run by `runScheduled`, and a run-time panic
of a handler is the result `none`.
-/

namespace Tsuki

/-! ## Go maps keyed by strings -/

/-- Lookup in a Go map: `v, ok := m[k]`. -/
def mapGet {β : Type} : List (String × β) → String → Option β
  | [], _ => none
  | (k, v) :: m, key => if k = key then some v else mapGet m key

/-- Assignment in a Go map: `m[k] = v`. -/
def mapSet {β : Type} : List (String × β) → String → β → List (String × β)
  | [], key, val => [(key, val)]
  | (k, v) :: m, key, val => if k = key then (k, val) :: m else (k, v) :: mapSet m key val

/-- Deletion from a Go map: `delete(m, k)`. -/
def mapDelete {β : Type} : List (String × β) → String → List (String × β)
  | [], _ => []
  | (k, v) :: m, key => if k = key then mapDelete m key else (k, v) :: mapDelete m key

/-- The keys of a Go map. -/
def mapKeys {β : Type} (m : List (String × β)) : List String := m.map Prod.fst

/-! ## Data model of the file server -/

/-- The permitted operation of an expectation (`ExpectAction`). -/
inductive ExpectAction where
  | Nothing
  | Read
  | Write
deriving DecidableEq, Repr

/-- Modelled from the spec: the record `TokenExpectation` (its declaration is not
among the sources): the action, the map chunk id to consumed flag, and the
counter of pending chunks, a Go `int`. -/
structure TokenExpectation where
  action : ExpectAction
  processedChunks : List (String × Bool)
  pendingCount : Int
deriving DecidableEq, Repr

/-- Modelled from the spec: the state of `ExpectationDB`: the map token to
expectation and the set of obsolete chunk ids. -/
structure ExpectationDB where
  tokens : List (String × TokenExpectation)
  obsolete : List String
deriving DecidableEq, Repr

/-- Modelled from the spec: `NewExpectationDB`, the empty database. -/
def NewExpectationDB : ExpectationDB := { tokens := [], obsolete := [] }

/-- Modelled from the spec: `ExpectationDB.Get(token)`, the expectation or absent. -/
def ExpectationDB.Get (db : ExpectationDB) (token : String) : Option TokenExpectation :=
  mapGet db.tokens token

/-- Modelled from the spec: `ExpectationDB.Set(token, exp)`, inserts the expectation. -/
def ExpectationDB.Set (db : ExpectationDB) (token : String) (exp : TokenExpectation) :
    ExpectationDB :=
  { db with tokens := mapSet db.tokens token exp }

/-- A chunk id is named by some expectation of the token map. -/
def namedIn (tokens : List (String × TokenExpectation)) (id : String) : Bool :=
  tokens.any (fun p => (mapKeys p.2.processedChunks).contains id)

/-- Modelled from the spec: `ExpectationDB.Remove(token)`: removes the token and
returns the chunk ids that are in the obsolete set and whose sole remaining
reference was this token. -/
def ExpectationDB.Remove (db : ExpectationDB) (token : String) :
    List String × ExpectationDB :=
  match mapGet db.tokens token with
  | none => ([], db)
  | some exp =>
    let rest := mapDelete db.tokens token
    ((mapKeys exp.processedChunks).filter
        (fun id => db.obsolete.contains id && !namedIn rest id),
      { db with tokens := rest })

/-- Modelled from the spec: `ExpectationDB.MakeObsolete(ids...)`: adds every id to
the obsolete set and returns the ids that no live expectation names. -/
def ExpectationDB.MakeObsolete (db : ExpectationDB) (ids : List String) :
    List String × ExpectationDB :=
  (ids.filter (fun id => !namedIn db.tokens id),
    { db with obsolete := ids.foldl (fun o id => if o.contains id then o else o ++ [id])
                            db.obsolete })

/-- Modelled from the spec: the chunk store (`ChunkDB`), a container from chunk id
to bytes, here the in-memory store of the tests. -/
structure ChunkDB where
  index : List (String × String)
deriving DecidableEq, Repr

/-- Modelled from the spec: `ChunkDB.Exists(id)`. -/
def ChunkDB.Exists (c : ChunkDB) (id : String) : Bool := (mapGet c.index id).isSome

/-- Modelled from the spec: `ChunkDB.Get(id)`, the bytes of the chunk or
`ErrChunkNotFound` (`none`). -/
def ChunkDB.Get (c : ChunkDB) (id : String) : Option String := mapGet c.index id

/-- Modelled from the spec: `ChunkDB.Create(id)` followed by writing `body` and
finishing the chunk; `none` is `ErrChunkExists`, the only error of the in-memory
store (the answer 500 of `ReceiveChunk` to another error does not arise). -/
def ChunkDB.Create (c : ChunkDB) (id : String) (body : String) : Option ChunkDB :=
  if c.Exists id then none else some { index := mapSet c.index id body }

/-- Modelled from the spec: `ChunkDB.Remove(id)`. -/
def ChunkDB.Remove (c : ChunkDB) (id : String) : ChunkDB :=
  { index := mapDelete c.index id }

/-- The file server: store, expectation database, the calls made to
`NSConnector.ReceivedChunk` (oldest first), and the chunk ids whose removal
was started with `go s.chunks.Remove(id)` and has not run yet. -/
structure FileServer where
  chunks : ChunkDB
  expectations : ExpectationDB
  nsConn : List String
  scheduled : List String
deriving DecidableEq, Repr

/-- The constructor `NewFileServer(store, nsConn)`. -/
def NewFileServer (store : ChunkDB) : FileServer :=
  { chunks := store, expectations := NewExpectationDB, nsConn := [], scheduled := [] }

/-- What a handler writes: the status code and the body. -/
structure Response where
  code : Nat
  body : String
deriving DecidableEq, Repr

/-- The errors of `Expect`. -/
inductive ExpectError where
  | TokenExists
  | ErrChunkNotFound
deriving DecidableEq, Repr

/-! ## Operations of the file server (`FileServer.go`) -/

/-- The loop of `Expect` over the chunk ids: fills `processedChunks`, and stops with
`ErrChunkNotFound` at the first id of a read expectation that is not in the store. -/
def expectLoop (chunks : ChunkDB) (action : ExpectAction) :
    List String → List (String × Bool) → Except ExpectError (List (String × Bool))
  | [], processed => .ok processed
  | id :: ids, processed =>
    if action = ExpectAction.Read ∧ ¬ chunks.Exists id = true then
      .error ExpectError.ErrChunkNotFound
    else expectLoop chunks action ids (mapSet processed id false)

/-- The method `FileServer.Expect(token, action, chunks...)`. -/
def FileServer.Expect (s : FileServer) (token : String) (action : ExpectAction)
    (chunks : List String) : Except ExpectError FileServer :=
  match s.expectations.Get token with
  | some _ => .error ExpectError.TokenExists
  | none =>
    match expectLoop s.chunks action chunks [] with
    | .error e => .error e
    | .ok processed =>
      let exp : TokenExpectation :=
        { action := action, processedChunks := processed,
          pendingCount := (chunks.length : Int) }
      .ok { s with expectations := s.expectations.Set token exp }

/-- The method `FileServer.fulfillExpectation(token, id)`; `none` is the nil
dereference of an unregistered token. -/
def FileServer.fulfillExpectation (s : FileServer) (token id : String) : Option FileServer :=
  match s.expectations.Get token with
  | none => none
  | some exp =>
    match mapGet exp.processedChunks id with
    | none => some s
    | some _ =>
      let exp1 : TokenExpectation :=
        { exp with processedChunks := mapSet exp.processedChunks id true,
                   pendingCount := exp.pendingCount - 1 }
      let db1 := s.expectations.Set token exp1
      if exp1.pendingCount = 0 then
        let r := db1.Remove token
        some { s with expectations := r.2, scheduled := s.scheduled ++ r.1 }
      else some { s with expectations := db1 }

/-- The method `FileServer.GetTokenExpectationForChunk(token, id)`. -/
def FileServer.GetTokenExpectationForChunk (s : FileServer) (token id : String) :
    ExpectAction :=
  match s.expectations.Get token with
  | none => ExpectAction.Nothing
  | some e =>
    match mapGet e.processedChunks id with
    | none => ExpectAction.Nothing
    | some processed => if processed then ExpectAction.Nothing else e.action

/-- The method `FileServer.SendChunk` (client GET): the response and the next state. -/
def FileServer.SendChunk (s : FileServer) (id token : String) :
    Option (Response × FileServer) :=
  if s.GetTokenExpectationForChunk token id = ExpectAction.Nothing then
    some ({ code := 401, body := "" }, s)
  else
    match s.chunks.Get id with
    | none => (s.fulfillExpectation token id).map (fun s1 => ({ code := 404, body := "" }, s1))
    | some content =>
      (s.fulfillExpectation token id).map (fun s1 => ({ code := 200, body := content }, s1))

/-- The method `FileServer.ReceiveChunk` (client POST with body `body`). -/
def FileServer.ReceiveChunk (s : FileServer) (id token body : String) :
    Option (Response × FileServer) :=
  if s.GetTokenExpectationForChunk token id = ExpectAction.Nothing then
    some ({ code := 401, body := "" }, s)
  else
    match s.chunks.Create id body with
    | none => (s.fulfillExpectation token id).map (fun s1 => ({ code := 403, body := "" }, s1))
    | some store =>
      ({ s with chunks := store, nsConn := s.nsConn ++ [id] }.fulfillExpectation token id).map
        (fun s1 => ({ code := 200, body := "" }, s1))

/-- Modelled from the spec: the table `strToExpectAction` of the query values
`read` and `write`. -/
def strToExpectAction (str : String) : Option ExpectAction :=
  if str = "read" then some ExpectAction.Read
  else if str = "write" then some ExpectAction.Write
  else none

/-- The handler `FileServer.ExpectHandler`: `actionStr` is the query value `action`,
`token` the path after `/expect/`, `chunks` the decoded JSON body (`none` when it
does not decode) and `mock` tells whether the header `mock: mock` is set. The
diagnostic text of an error response is not modelled. -/
def FileServer.ExpectHandler (s : FileServer) (actionStr token : String)
    (chunks : Option (List String)) (mock : Bool) : Response × FileServer :=
  match strToExpectAction actionStr with
  | none => ({ code := 400, body := "" }, s)
  | some action =>
    if token = "" then ({ code := 400, body := "" }, s)
    else
      match chunks with
      | none => ({ code := 400, body := "" }, s)
      | some ids =>
        let s1 : FileServer := if mock then { s with nsConn := s.nsConn ++ ids } else s
        match s1.Expect token action ids with
        | .error _ => ({ code := 403, body := "" }, s1)
        | .ok s2 => ({ code := 200, body := "" }, s2)

/-- The chunk ids that `CancelTokenHandler` collects in `toUndo`: the keys of
`processedChunks` whose value is true. -/
def toUndoOf (exp : TokenExpectation) : List String :=
  (exp.processedChunks.filter (fun p => p.2)).map Prod.fst

/-- The handler `FileServer.CancelTokenHandler`; `none` is the panic of `make` on a
negative capacity. -/
def FileServer.CancelTokenHandler (s : FileServer) (token : String) :
    Option (Response × FileServer) :=
  if token = "" then some ({ code := 400, body := "" }, s)
  else
    match s.expectations.Get token with
    | none => some ({ code := 200, body := "" }, s)
    | some exp =>
      if (exp.processedChunks.length : Int) - exp.pendingCount < 0 then none
      else
        let toUndo := toUndoOf exp
        let r1 : List String × ExpectationDB :=
          if exp.action = ExpectAction.Write ∧ toUndo.length ≠ 0 then
            s.expectations.MakeObsolete toUndo
          else ([], s.expectations)
        let db2 := r1.2.Set token { exp with action := ExpectAction.Nothing }
        let r2 := db2.Remove token
        some ({ code := 200, body := "" },
          { s with expectations := r2.2, scheduled := s.scheduled ++ (r1.1 ++ r2.1) })

/-- The handler `FileServer.PurgeHandler`; `chunks` is the decoded JSON body. -/
def FileServer.PurgeHandler (s : FileServer) (chunks : Option (List String)) :
    Response × FileServer :=
  match chunks with
  | none => ({ code := 400, body := "" }, s)
  | some ids =>
    let r := s.expectations.MakeObsolete ids
    ({ code := 200, body := "" },
      { s with expectations := r.2, scheduled := s.scheduled ++ r.1 })

/-- What the loop of `ReplicateHandler` leaves behind: the status written so far
(`none` when the loop ran to its end), the state, the chunk ids of the deferred
`fulfillExpectation` calls (last deferred first) and the POSTs made to the
destination (address and body, oldest first). -/
structure ReplicateRun where
  early : Option Nat
  state : FileServer
  deferred : List String
  posts : List (String × String)
deriving DecidableEq, Repr

/-- The loop of `ReplicateHandler` over the chunk ids. What the destination
answers only changes the log. -/
def replicateLoop (token destIP : String) : List String → ReplicateRun → ReplicateRun
  | [], run => run
  | id :: ids, run =>
    match run.state.Expect token ExpectAction.Read [id] with
    | .error _ => replicateLoop token destIP ids run
    | .ok s1 =>
      match s1.chunks.Get id with
      | none => { run with early := some 400, state := s1, deferred := id :: run.deferred }
      | some content =>
        replicateLoop token destIP ids
          { run with state := s1, deferred := id :: run.deferred,
                     posts := run.posts ++
                       [("http://" ++ destIP ++ "/chunks/" ++ id ++ "?token=" ++ token, content)] }

/-- Runs the deferred `fulfillExpectation(token, id)` calls, last deferred first. -/
def runDeferred (token : String) : List String → FileServer → Option FileServer
  | [], s => some s
  | id :: ids, s =>
    match s.fulfillExpectation token id with
    | none => none
    | some s1 => runDeferred token ids s1

/-- The handler `FileServer.ReplicateHandler`: the response, the next state and the
POSTs made to the destination. -/
def FileServer.ReplicateHandler (s : FileServer) (token destIP : String)
    (chunks : Option (List String)) : Option (Response × FileServer × List (String × String)) :=
  match chunks with
  | none => some ({ code := 400, body := "" }, s, [])
  | some ids =>
    let run := replicateLoop token destIP ids
      { early := none, state := s, deferred := [], posts := [] }
    (runDeferred token run.deferred run.state).map
      (fun s1 => ({ code := run.early.getD 200, body := "" }, s1, run.posts))

/-- The methods of a client request that the model distinguishes. -/
inductive Method where
  | GET
  | POST
  | OTHER
deriving DecidableEq, Repr

/-- The handler `FileServer.ServeClient` on `/chunks/chunkId?token=token`. -/
def FileServer.ServeClient (s : FileServer) (method : Method) (chunkId token body : String) :
    Option (Response × FileServer) :=
  match method with
  | Method.GET => s.SendChunk chunkId token
  | Method.POST => s.ReceiveChunk chunkId token body
  | Method.OTHER => some ({ code := 405, body := "" }, s)

/-- Runs the removals started with `go s.chunks.Remove(id)`. -/
def FileServer.runScheduled (s : FileServer) : FileServer :=
  { s with chunks := s.scheduled.foldl (fun c id => c.Remove id) s.chunks, scheduled := [] }

/-! ## Request sequences -/

/-- The requests a file server receives, and the point where the scheduled
removals run. -/
inductive Op where
  | expect (token : String) (action : ExpectAction) (chunks : List String)
  | expectHandler (actionStr token : String) (chunks : Option (List String)) (mock : Bool)
  | get (id token : String)
  | post (id token body : String)
  | cancel (token : String)
  | purge (chunks : Option (List String))
  | replicate (token destIP : String) (chunks : Option (List String))
  | runRemovals
deriving DecidableEq, Repr

/-- The next state of a handler that may panic: the HTTP server recovers the panic,
and the state stays as it was (`CancelTokenHandler` panics before it writes). -/
def orStay {α : Type} (s : FileServer) (f : α → FileServer) : Option α → FileServer
  | none => s
  | some a => f a

/-- The state after one request. -/
def FileServer.step (s : FileServer) : Op → FileServer
  | Op.expect token action chunks =>
    match s.Expect token action chunks with
    | .error _ => s
    | .ok s1 => s1
  | Op.expectHandler actionStr token chunks mock =>
    (s.ExpectHandler actionStr token chunks mock).2
  | Op.get id token => orStay s Prod.snd (s.SendChunk id token)
  | Op.post id token body => orStay s Prod.snd (s.ReceiveChunk id token body)
  | Op.cancel token => orStay s Prod.snd (s.CancelTokenHandler token)
  | Op.purge chunks => (s.PurgeHandler chunks).2
  | Op.replicate token destIP chunks =>
    orStay s (fun r => r.2.1) (s.ReplicateHandler token destIP chunks)
  | Op.runRemovals => s.runScheduled

/-- The state after a sequence of requests. -/
def FileServer.run (s : FileServer) (ops : List Op) : FileServer :=
  ops.foldl FileServer.step s

/-- The request names the token in an `Expect` or a `Replicate`. -/
def Op.registers (t : String) : Op → Bool
  | Op.expect token _ _ => token = t
  | Op.expectHandler _ token _ _ => token = t
  | Op.replicate token _ _ => token = t
  | _ => false

/-- The expectation registered under a token. -/
def FileServer.look (s : FileServer) (t : String) : Option TokenExpectation :=
  s.expectations.Get t

/-- The action that an expectation, or its absence, grants for a chunk. -/
def grant (o : Option TokenExpectation) (c : String) : ExpectAction :=
  match o with
  | none => ExpectAction.Nothing
  | some e =>
    match mapGet e.processedChunks c with
    | none => ExpectAction.Nothing
    | some processed => if processed then ExpectAction.Nothing else e.action

/-- The request registers the token `t`: the token has no expectation before the
request and has one after it. -/
def FileServer.freshlyRegisters (s : FileServer) (t : String) (op : Op) : Bool :=
  (s.look t).isNone && ((s.step op).look t).isSome

/-- No request of the sequence, run from the state `s`, registers the token `t`. -/
def FileServer.neverRegisters (s : FileServer) (t : String) : List Op → Bool
  | [] => true
  | op :: ops => !s.freshlyRegisters t op && (s.step op).neverRegisters t ops

/-- The map that the loop of `Expect` builds from the chunk ids. -/
def fillFalse (ids : List String) (acc : List (String × Bool)) : List (String × Bool) :=
  ids.foldl (fun m id => mapSet m id false) acc

/-- The expectation `e1` is `e` with some more chunks consumed: same action, and
each entry is the same or went from pending to consumed. -/
def Advanced (e e1 : TokenExpectation) : Prop :=
  e1.action = e.action ∧
  ∀ c, mapGet e1.processedChunks c = mapGet e.processedChunks c ∨
    (mapGet e.processedChunks c = some false ∧ mapGet e1.processedChunks c = some true)

/-- The entry `o1` of a token is what is left of its entry `o`: released, or
advanced. -/
def lookLE (o o1 : Option TokenExpectation) : Prop :=
  o1 = none ∨ ∃ e e1, o = some e ∧ o1 = some e1 ∧ Advanced e e1

/-! ## Example states -/

/-- The store of the test `TestFS_ChunkSend`. -/
def exampleStore : ChunkDB := { index := [("0", "Hello"), ("1", "world")] }

/-- A server with the read expectation `("1", Read, "1")`. -/
def exampleReadServer : FileServer :=
  (NewFileServer exampleStore).step (Op.expect "1" ExpectAction.Read ["1"])

/-- A server with the write expectation `("w", Write, "0")` on a chunk of the store. -/
def exampleWriteServer : FileServer :=
  (NewFileServer exampleStore).step (Op.expect "w" ExpectAction.Write ["0"])

/-- The state of the test `TestFS_CancelExpect` after the write token `w` received
chunk `1`, with a read expectation `r` registered on that chunk afterwards. -/
def exampleSharedChunk : FileServer :=
  (NewFileServer { index := [] }).run
    [Op.expect "w" ExpectAction.Write ["1", "2"], Op.post "1" "w" "chunk1",
     Op.expect "r" ExpectAction.Read ["1"]]

/-- A read expectation on chunk `0`, which a purge then marks obsolete. -/
def examplePurgedRead : FileServer :=
  (NewFileServer exampleStore).run
    [Op.expect "r" ExpectAction.Read ["0"], Op.purge (some ["0"])]

/-- The state of the test `TestFS_CancelExpect` before the cancellation: the write
token `history` received the chunks `1` and `3` of its four chunks. -/
def exampleHistory : FileServer :=
  (NewFileServer { index := [] }).step
    (Op.expectHandler "write" "history" (some ["1", "2", "3", "4"]) false)

/-- The number of entries of `processedChunks` whose value is false. -/
def countPending (e : TokenExpectation) : Nat :=
  (e.processedChunks.filter (fun p => !p.2)).length

/-- A server on which the write token `t` was registered with the chunk id `a`
listed twice. -/
def exampleDuplicate : FileServer :=
  (NewFileServer exampleStore).step (Op.expect "t" ExpectAction.Write ["a", "a"])

/-- No token is registered twice: the keys of the token map are distinct, as the
keys of a Go map are. -/
def TokensUnique (s : FileServer) : Prop := (mapKeys s.expectations.tokens).Nodup

/-- What a request does to the expectation database `db` and the removals `sched`
that are scheduled. The obsolete set only grows; a removal that is newly scheduled is
of a chunk that no expectation names afterwards; and the token map stays as it is, or
gets a new token, or has the expectation of a token replaced by one that lists the
same chunks, or loses a token, and then the obsolete chunks that only this token
named are scheduled for removal. -/
def ExpEffect (db : ExpectationDB) (sched : List String) (db1 : ExpectationDB)
    (sched1 : List String) : Prop :=
  (∀ x, x ∈ db.obsolete → x ∈ db1.obsolete) ∧
  (∀ x, x ∈ sched1 → x ∈ sched ∨ namedIn db1.tokens x = false) ∧
  (db1.tokens = db.tokens ∨
   (∃ t e, mapGet db.tokens t = none ∧ db1.tokens = db.tokens ++ [(t, e)]) ∨
   (∃ t e e1, mapGet db.tokens t = some e ∧
      mapKeys e1.processedChunks = mapKeys e.processedChunks ∧
      db1.tokens = mapSet db.tokens t e1) ∨
   (∃ t e, mapGet db.tokens t = some e ∧ db1.tokens = mapDelete db.tokens t ∧
      ∀ x ∈ mapKeys e.processedChunks, x ∈ db.obsolete →
        namedIn (mapDelete db.tokens t) x = false → x ∈ sched1))

/-- The chunk is named by an expectation after each request of the sequence, run
from the state `s`. -/
def FileServer.staysNamed (s : FileServer) (id : String) : List Op → Bool
  | [] => true
  | op :: ops =>
    namedIn (s.step op).expectations.tokens id && (s.step op).staysNamed id ops

/-- The counter of every registered expectation is the number of its pending
chunks. -/
def CountInv (s : FileServer) : Prop :=
  ∀ t e, s.look t = some e → e.pendingCount = (countPending e : Int)

/-- The chunk list that the request registers names no chunk id twice. -/
def Op.distinctIds : Op → Bool
  | Op.expect _ _ chunks => decide chunks.Nodup
  | Op.expectHandler _ _ (some chunks) _ => decide chunks.Nodup
  | _ => true


/-! ## The liveness ring of the namenode (`cmd/tsukinsd/fs.go`) -/

/-- The status of a file server (`FSStatus`, a Go `int`). -/
abbrev FSStatus := Int

/-- The constant `LIVE`. -/
def LIVE : FSStatus := 2

/-- The constant `PARTIALLY_DEAD`. -/
def PARTIALLY_DEAD : FSStatus := 1

/-- The constant `DEAD`. -/
def DEAD : FSStatus := 0

/-- The record `FileServerInfo` of a pool entry, without its lock and the time of
the last pulse. -/
structure FileServerInfo where
  Host : String
  Port : Int
  Alive : Bool
  Status : FSStatus
  NextAlive : Nat
  ID : Nat
deriving DecidableEq, Repr

/-- The record `PoolInfo`, without its lock and its pulse queues. -/
structure PoolInfo where
  StorageNodes : List FileServerInfo
  Next : Nat
  Alive : Int
deriving DecidableEq, Repr

/-- The entry that `InitFServers` appends for the storage node at index `i` of
`len` nodes: not alive, status zero, linked to the next index. -/
def initNode (len i : Nat) (storageNode : String × Int) : FileServerInfo :=
  { Host := storageNode.1, Port := storageNode.2, Alive := false, Status := 0,
    NextAlive := (i + 1) % len, ID := i }

/-- The function `InitFServers` on the storage entries (host and port) of the
configuration. -/
def InitFServers (conf : List (String × Int)) : PoolInfo :=
  { StorageNodes := conf.enum.map (fun p => initNode conf.length p.1 p.2),
    Next := 0, Alive := 0 }

/-- The assignment `node.NextAlive = newAliveID`. -/
def FileServerInfo.relink (node : FileServerInfo) (newAliveID : Nat) : FileServerInfo :=
  { node with NextAlive := newAliveID }

/-- The loop of `setNewAlive`: from index `i` down to `0`, sets `NextAlive` and
stops after the first live node; the flag is `setOne`. The result is `none` when
an index is out of range. -/
def setNewAliveLoop (newAliveID : Nat) :
    Nat → List FileServerInfo → Option (List FileServerInfo × Bool)
  | 0, nodes =>
    match nodes[0]? with
    | none => none
    | some node => some (nodes.set 0 (node.relink newAliveID), node.Alive)
  | i + 1, nodes =>
    match nodes[i + 1]? with
    | none => none
    | some node =>
      if node.Alive then some (nodes.set (i + 1) (node.relink newAliveID), true)
      else setNewAliveLoop newAliveID i (nodes.set (i + 1) (node.relink newAliveID))

/-- The method `PoolInfo.setNewAlive(newAliveID, cur)`, with the depth of its
recursion as fuel: the recursive call has `cur == len - 1` and does not recurse
again, so two levels are all that run. -/
def setNewAliveFuel : Nat → PoolInfo → Nat → Nat → Option PoolInfo
  | 0, _, _, _ => none
  | fuel + 1, s, newAliveID, cur =>
    match setNewAliveLoop newAliveID cur s.StorageNodes with
    | none => none
    | some (nodes, setOne) =>
      if !setOne then
        if cur ≠ s.StorageNodes.length - 1 then
          setNewAliveFuel fuel { s with StorageNodes := nodes } newAliveID
            (s.StorageNodes.length - 1)
        else some { s with StorageNodes := nodes }
      else some { s with StorageNodes := nodes }

/-- The method `PoolInfo.setNewAlive(newAliveID, cur)`. -/
def PoolInfo.setNewAlive (s : PoolInfo) (newAliveID cur : Nat) : Option PoolInfo :=
  setNewAliveFuel 2 s newAliveID cur

/-- The method `PoolInfo.setNewAliveDead(nowDeadID)`. -/
def PoolInfo.setNewAliveDead (s : PoolInfo) (nowDeadID : Nat) : Option PoolInfo :=
  match s.StorageNodes[nowDeadID]? with
  | none => none
  | some node => s.setNewAlive node.NextAlive nowDeadID

/-- The assignments `node.Status = status` and `node.Alive = status == LIVE`. -/
def FileServerInfo.setStatus (node : FileServerInfo) (status : FSStatus) : FileServerInfo :=
  { node with Status := status, Alive := decide (status = LIVE) }

/-- The method `PoolInfo.ChangeStatus(id, status)`; `none` is the panic of an index
out of range. The index `((id - 1) % num + num) % num` is computed with Go's
truncated remainder. -/
def PoolInfo.ChangeStatus (s : PoolInfo) (id : Nat) (status : FSStatus) : Option PoolInfo :=
  match s.StorageNodes[id]? with
  | none => none
  | some node =>
    let node1 : FileServerInfo := node.setStatus status
    let s1 : PoolInfo := { s with StorageNodes := s.StorageNodes.set id node1 }
    if node1.Alive then
      let num : Int := (s1.StorageNodes.length : Int)
      s1.setNewAlive id (Int.toNat (Int.tmod (Int.tmod ((id : Int) - 1) num + num) num))
    else s1.setNewAliveDead id

/-- The pool after a sequence of `ChangeStatus(id, status)` calls. -/
def PoolInfo.changeAll : PoolInfo → List (Nat × FSStatus) → Option PoolInfo
  | s, [] => some s
  | s, (id, status) :: calls =>
    match s.ChangeStatus id status with
    | none => none
    | some s1 => s1.changeAll calls

/-- The node `m` is the first live node after index `i` in cyclic index order among
`n` nodes with liveness `alive`: it is live, and every index strictly between `i`
and `m` on the way round is dead (the way round from `i` to `i` is all the others). -/
def FirstAliveAfter (alive : Nat → Bool) (n i m : Nat) : Prop :=
  m < n ∧ alive m = true ∧
  ((i < m ∧ ∀ k, i < k → k < m → alive k = false) ∨
   (m ≤ i ∧ (∀ k, i < k → k < n → alive k = false) ∧ ∀ k, k < m → alive k = false))

/-- The liveness of the node at an index of a node list; an index out of range
counts as dead. -/
def aliveL (nodes : List FileServerInfo) (i : Nat) : Bool :=
  match nodes[i]? with
  | none => false
  | some node => node.Alive

/-- The field `NextAlive` of the node at an index of a node list. -/
def nextL (nodes : List FileServerInfo) (i : Nat) : Nat :=
  match nodes[i]? with
  | none => 0
  | some node => node.NextAlive

/-- The liveness of the node at an index of the pool. -/
def PoolInfo.aliveAt (s : PoolInfo) (i : Nat) : Bool := aliveL s.StorageNodes i

/-- The field `NextAlive` of the node at an index of the pool. -/
def PoolInfo.nextAt (s : PoolInfo) (i : Nat) : Nat := nextL s.StorageNodes i

/-- The indices that the loop of `setNewAlive` started at `cur` writes: those
from `cur` down to the first live one. -/
def Pwalk (alive : Nat → Bool) (cur j : Nat) : Prop :=
  j ≤ cur ∧ ∀ k, j < k → k ≤ cur → alive k = false

/-- The indices that `setNewAlive(newAliveID, cur)` writes among `n` nodes: those
of the loop from `cur` and, when that loop meets no live node and `cur` is not the
last index, those of the loop from the last index. -/
def Qwalk (alive : Nat → Bool) (n cur j : Nat) : Prop :=
  Pwalk alive cur j ∨
  ((∀ k, k ≤ cur → alive k = false) ∧ cur ≠ n - 1 ∧ Pwalk alive (n - 1) j)

/-- The node list `nodes1` is `nodes` with `NextAlive` set to `v` at the indices
of `P` and nothing else changed. -/
def Relinked (P : Nat → Prop) (v : Nat) (nodes nodes1 : List FileServerInfo) : Prop :=
  nodes1.length = nodes.length ∧
  ∀ (j : Nat) (nd : FileServerInfo), nodes[j]? = some nd →
    (P j → nodes1[j]? = some (nd.relink v)) ∧ (¬ P j → nodes1[j]? = some nd)

/-- The ring invariant of a pool: every node carries its index as `ID`, and when
some node is live the link `NextAlive` of every node, live or not, is the first
live node after it in cyclic index order. -/
def RingInv (s : PoolInfo) : Prop :=
  (∀ (j : Nat) (nd : FileServerInfo), s.StorageNodes[j]? = some nd → nd.ID = j) ∧
  ((∃ k, k < s.StorageNodes.length ∧ s.aliveAt k = true) →
    ∀ i, i < s.StorageNodes.length →
      FirstAliveAfter s.aliveAt s.StorageNodes.length i (s.nextAt i))

/-- A configuration with three storage nodes. -/
def exampleConf : List (String × Int) := [("a", 7070), ("b", 7070), ("c", 7070)]

/-! ## Selection of storage nodes (`cmd/tsukinsd/fs.go`) -/

/-- The method `PoolInfo.Select()`: the node returned and the pool with the cursor
advanced; `none` is the panic of an index out of range. -/
def PoolInfo.Select (s : PoolInfo) : Option (FileServerInfo × PoolInfo) :=
  match s.StorageNodes[s.Next]? with
  | none => none
  | some next0 =>
    if !next0.Alive then
      match s.StorageNodes[next0.NextAlive]? with
      | none => none
      | some next => some (next, { s with Next := next.NextAlive })
    else some (next0, { s with Next := next0.NextAlive })

/-- The nodes returned by `count` consecutive `Select()` calls, oldest first, and
the pool after them. -/
def PoolInfo.selectMany : Nat → PoolInfo → Option (List FileServerInfo × PoolInfo)
  | 0, s => some ([], s)
  | count + 1, s =>
    match s.Select with
    | none => none
    | some (node, s1) =>
      match PoolInfo.selectMany count s1 with
      | none => none
      | some (nodes, s2) => some (node :: nodes, s2)

/-- How a loop that need not end comes out: with a result, with a run-time panic,
or still running when the fuel is used up. -/
inductive Outcome (α : Type) where
  | done (a : α)
  | panic
  | timeout
deriving DecidableEq, Repr

/-- The map `exceptMap` of `SelectSeveralExcept`: every host of `except` gets 1. -/
def exceptMapOf (except : List String) : List (String × Int) :=
  except.foldl (fun m host => mapSet m host 1) []

/-- The read `exceptMap[host]` of a Go map: 0 for a missing key. -/
def exceptCount (exceptMap : List (String × Int)) (host : String) : Int :=
  (mapGet exceptMap host).getD 0

/-- The loop of `SelectSeveralExcept`, one iteration for each unit of fuel: `i` is
the loop counter, `next` the node looked at and `selected` the result so far. -/
def selectSeveralLoop (nodes : List FileServerInfo) (exceptMap : List (String × Int))
    (num : Int) : Nat → Int → FileServerInfo → List FileServerInfo →
    Outcome (List FileServerInfo)
  | 0, i, _, selected => if i < num then Outcome.timeout else Outcome.done selected
  | fuel + 1, i, next, selected =>
    if i < num then
      match nodes[next.NextAlive]? with
      | none => Outcome.panic
      | some next1 =>
        if !next.Alive || exceptCount exceptMap next.Host == 0 then
          selectSeveralLoop nodes exceptMap num fuel i next1 selected
        else selectSeveralLoop nodes exceptMap num fuel (i + 1) next1 (selected ++ [next])
    else Outcome.done selected

/-- The method `PoolInfo.SelectSeveralExcept(except, num)`, with the number of loop
iterations it may take as fuel. -/
def PoolInfo.SelectSeveralExcept (s : PoolInfo) (except : List String) (num : Int)
    (fuel : Nat) : Outcome (List FileServerInfo) :=
  let num1 : Int := if s.Alive - (except.length : Int) < num then s.Alive - (except.length : Int)
    else num
  match s.StorageNodes[s.Next]? with
  | none => Outcome.panic
  | some next => selectSeveralLoop s.StorageNodes (exceptMapOf except) num1 fuel 0 next []

/-- The calls on a pool: `ChangeStatus(id, status)` and `Select()`. -/
inductive PoolOp where
  | change (id : Nat) (status : FSStatus)
  | select
deriving DecidableEq, Repr

/-- The call is made with a valid id: `ChangeStatus` with an index of the `n` nodes. -/
def PoolOp.validFor (n : Nat) : PoolOp → Bool
  | PoolOp.change id _ => decide (id < n)
  | PoolOp.select => true

/-- The pool after a sequence of calls; `none` when one of them panics. -/
def PoolInfo.runOps : PoolInfo → List PoolOp → Option PoolInfo
  | s, [] => some s
  | s, PoolOp.change id status :: ops =>
    match s.ChangeStatus id status with
    | none => none
    | some s1 => s1.runOps ops
  | s, PoolOp.select :: ops =>
    match s.Select with
    | none => none
    | some (_, s1) => s1.runOps ops

/-- The indices of the live nodes of the pool, in increasing order. -/
def PoolInfo.liveList (s : PoolInfo) : List Nat :=
  (List.range s.StorageNodes.length).filter (fun i => s.aliveAt i)

/-- A pool of three live nodes `a`, `b`, `c`, linked in a ring, with the
field `Alive` equal to their number. -/
def examplePool3 : PoolInfo :=
  { StorageNodes :=
      [⟨"a", 7070, true, 2, 1, 0⟩, ⟨"b", 7070, true, 2, 2, 1⟩, ⟨"c", 7070, true, 2, 0, 2⟩],
    Next := 0, Alive := 3 }

/-- The links of the pool are indices of the pool: the cursor `Next` and the field
`NextAlive` of every node. -/
def BoundInv (s : PoolInfo) : Prop :=
  s.Next < s.StorageNodes.length ∧
  ∀ (j : Nat) (nd : FileServerInfo), s.StorageNodes[j]? = some nd →
    nd.NextAlive < s.StorageNodes.length

/-- The number of nodes of the pool whose `Status` is `LIVE`. -/
def PoolInfo.statusLiveCount (s : PoolInfo) : Nat :=
  (s.StorageNodes.filter (fun nd => decide (nd.Status = LIVE))).length

/-- The flag `Alive` of every node tells whether its `Status` is `LIVE`. -/
def FlagInv (nodes : List FileServerInfo) : Prop :=
  ∀ (j : Nat) (nd : FileServerInfo), nodes[j]? = some nd → nd.Alive = decide (nd.Status = LIVE)

/-! ## The heart of a file server (`heart.go`) -/

/-- A call that the heart makes: `Poller.Poll()` or `Sleeper.Sleep()`. -/
inductive Beat where
  | poll
  | sleep
deriving DecidableEq, Repr

/-- The method `Heart.Contract`: a poll, then a sleep. The log lists the calls made,
oldest first. -/
def Heart.Contract (log : List Beat) : List Beat := log ++ [Beat.poll, Beat.sleep]

/-- The loop `for i := 0; i < count; i++ { h.Contract() }` of `Heart.Poll`, one
iteration for each unit of fuel. -/
def pollLoop (count : Int) : Nat → Int → List Beat → Outcome (List Beat)
  | 0, i, log => if i < count then Outcome.timeout else Outcome.done log
  | fuel + 1, i, log =>
    if i < count then pollLoop count fuel (i + 1) (Heart.Contract log) else Outcome.done log

/-- The loop `for { h.Contract() }` of `Heart.Poll`, which has no exit. -/
def pollForever : Nat → List Beat → Outcome (List Beat)
  | 0, _ => Outcome.timeout
  | fuel + 1, log => pollForever fuel (Heart.Contract log)

/-- The method `Heart.Poll(count)`, with the number of loop iterations it may take as
fuel: the log of the calls made when it returns. -/
def Heart.Poll (count : Int) (fuel : Nat) (log : List Beat) : Outcome (List Beat) :=
  if count ≠ -1 then pollLoop count fuel 0 log else pollForever fuel log

/-- The log of `n` contractions: poll, sleep, poll, sleep, and so on. -/
def beats : Nat → List Beat
  | 0 => []
  | n + 1 => Beat.poll :: Beat.sleep :: beats n

/-! ## Chunk records of the namenode (`cmd/tsukinsd/privateserver.go`) -/

/-- Modelled from the spec: the status of a replica, *Pending* or *OK* (the type is
not among the sources). -/
inductive ReplicaStatus where
  | Pending
  | OK
deriving DecidableEq, Repr

/-- Modelled from the spec: the record `ChunkRecord` with the fields that
`confirmChunk` reads and writes (its declaration is not among the sources). -/
structure Chunk where
  File : String
  Status : ReplicaStatus
  Statuses : List (String × ReplicaStatus)
  AllReplicas : Int
  ReadyReplicas : Int
deriving DecidableEq, Repr

/-- Modelled from the spec: `Chunk.AddFSToChunk(receiver)`, step 6 of section 4.4:
records the receiver as *Pending* in `Statuses` and increments `AllReplicas`. -/
def Chunk.AddFSToChunk (chunk : Chunk) (receiver : String) : Chunk :=
  { chunk with Statuses := mapSet chunk.Statuses receiver ReplicaStatus.Pending,
               AllReplicas := chunk.AllReplicas + 1 }

/-- The loop of `confirmChunk` that collects the senders: the hosts whose status is
`OK`, until their number is `remainingReplicas`. -/
def sendersLoop (remainingReplicas : Int) :
    List (String × ReplicaStatus) → List String → List String
  | [], senders => senders
  | (fs, status) :: rest, senders =>
    if status = ReplicaStatus.OK then
      if ((senders ++ [fs]).length : Int) = remainingReplicas then senders ++ [fs]
      else sendersLoop remainingReplicas rest (senders ++ [fs])
    else sendersLoop remainingReplicas rest senders

/-- The handler `confirmChunk` on a chunk record of the table, for a confirmation
from `remoteAddr`. `fileFound` tells whether the owning file is in the tree,
`replicas` is `conf.Namenode.Replicas`, and `receivers` are the hosts of the nodes
that `SelectSeveralExceptArr` returns (the function is not among the sources).
The result `none` is the panic of `senders[i]` out of range. -/
def confirmChunk (chunk : Chunk) (remoteAddr : String) (fileFound : Bool) (replicas : Int)
    (receivers : List String) : Option Chunk :=
  let chunk1 : Chunk := { chunk with Status := ReplicaStatus.OK }
  match mapGet chunk1.Statuses remoteAddr with
  | none => some chunk1
  | some _ =>
    let chunk2 : Chunk :=
      { chunk1 with Statuses := mapSet chunk1.Statuses remoteAddr ReplicaStatus.OK }
    if !fileFound then some chunk2
    else
      let chunk3 : Chunk := { chunk2 with ReadyReplicas := chunk2.ReadyReplicas + 1 }
      let senders := sendersLoop (replicas - chunk3.AllReplicas) chunk3.Statuses []
      if senders.length < receivers.length then none
      else some (receivers.foldl Chunk.AddFSToChunk chunk3)

/-- The number of file servers whose entry in `Statuses` is `OK`. -/
def Chunk.okCount (chunk : Chunk) : Nat :=
  (chunk.Statuses.filter (fun p => decide (p.2 = ReplicaStatus.OK))).length

/-- A chunk record with one replica, on `fs1`, that is not confirmed yet. -/
def exampleChunk : Chunk :=
  { File := "f", Status := ReplicaStatus.Pending,
    Statuses := [("fs1", ReplicaStatus.Pending)], AllReplicas := 1, ReadyReplicas := 0 }

/-! ## The directory tree of the namenode (`cmd/tsukinsd/filetree.go`) -/

/-- The character `/`. -/
def slash : Char := Char.ofNat 47

/-- The character `.`. -/
def dot : Char := Char.ofNat 46

/-- The elements of a path: the pieces between its slashes. -/
def splitSlash : List Char → List Char → List (List Char)
  | [], cur => [cur.reverse]
  | c :: cs, cur =>
    if c = slash then cur.reverse :: splitSlash cs [] else splitSlash cs (c :: cur)

/-- One element of the path as the library function `path.Clean` treats it; `stack`
holds the elements kept so far, last first. Empty elements and `.` are dropped, `..`
removes the element before it, is dropped at the root, and is kept otherwise. -/
def cleanStep (rooted : Bool) (stack : List (List Char)) (el : List Char) :
    List (List Char) :=
  if el = [] ∨ el = [dot] then stack
  else if el = [dot, dot] then
    match stack with
    | [] => if rooted then [] else [el]
    | top :: rest => if top = [dot, dot] then el :: stack else rest
  else el :: stack

/-- The elements joined with slashes. -/
def joinSlash : List (List Char) → List Char
  | [] => []
  | [el] => el
  | el :: rest => el ++ slash :: joinSlash rest

/-- The library function `path.Clean`, by its documented rules: the shortest path
name equivalent to the path by purely lexical processing, `.` for the empty result. -/
def pathClean (p : String) : String :=
  let rooted : Bool := p.data.head? = some slash
  let els := ((splitSlash p.data []).foldl (cleanStep rooted) []).reverse
  let out := (if rooted then [slash] else []) ++ joinSlash els
  if out = [] then "." else String.mk out

/-- The library function `path.Dir`: the path up to its last slash, cleaned. -/
def pathDir (p : String) : String :=
  pathClean (String.mk (p.data.reverse.dropWhile (fun c => !decide (c = slash))).reverse)

/-- A character of the class `[a-zA-Z_\-.0-9/]`. -/
def addressChar (c : Char) : Bool :=
  c.isAlphanum || c = Char.ofNat 95 || c = Char.ofNat 45 || c = dot || c = slash

/-- The function `CleanAddress`: the cleaned address without a leading slash, and
whether the pattern `[a-zA-Z_\-.0-9/]+` matches somewhere in the address. -/
def CleanAddress (address : String) : String × Bool :=
  let cleaned := pathClean address
  (if cleaned.data.head? = some slash then String.mk cleaned.data.tail else cleaned,
   address.data.any addressChar)

/-- The record `Node`. A pointer `*Node` is an index of the heap of the tree, so the
children are indices. -/
structure Node where
  Address : String
  IsDirectory : Bool
  Childs : List Nat
  Parent : String
  Removed : Bool
deriving DecidableEq, Repr

/-- The record `Tree`: the nodes allocated so far, where a node stays when it is
deleted from the map, and the map `Nodes` from address to `*Node`. -/
structure Tree where
  heap : List Node
  Nodes : List (String × Nat)
deriving DecidableEq, Repr

/-- The errors of the tree operations. -/
inductive TreeError where
  | wrongFormat
  | alreadyExists
  | noDirectory
  | notFound
deriving DecidableEq, Repr

/-- The function `InitTree`: the root directory `.`. -/
def InitTree : Tree :=
  { heap := [{ Address := ".", IsDirectory := true, Childs := [], Parent := "",
               Removed := false }],
    Nodes := [(".", 0)] }

/-- The assignment `node.Removed = true`. -/
def Node.markRemoved (node : Node) : Node := { node with Removed := true }

/-- The assignment `dir.Childs = append(dir.Childs, child)`. -/
def Node.addChild (node : Node) (child : Nat) : Node :=
  { node with Childs := node.Childs ++ [child] }

/-- The write `node.Removed = true` through a pointer. -/
def Tree.setRemoved (t : Tree) (node : Nat) : Tree :=
  match t.heap[node]? with
  | none => t
  | some nd => { t with heap := t.heap.set node nd.markRemoved }

/-- The method `Tree.GetNodeByAddress`: the pointer of the map, `none` for nil. -/
def Tree.GetNodeByAddress (t : Tree) (address : String) : Option Nat :=
  mapGet t.Nodes (CleanAddress address).1

/-- The method `Tree.ParentsExist(node)`, with the depth of its recursion as fuel:
the result and the tree, in which nodes below a removed directory are marked. The
outcome `panic` is the read `parent.Removed` through a nil pointer. -/
def Tree.ParentsExist : Nat → Tree → Nat → Outcome (Bool × Tree)
  | 0, _, _ => Outcome.timeout
  | fuel + 1, t, node =>
    match t.heap[node]? with
    | none => Outcome.panic
    | some nd =>
      if nd.Address = "." then Outcome.done (true, t)
      else
        match t.GetNodeByAddress nd.Parent with
        | none => Outcome.panic
        | some parent =>
          match t.heap[parent]? with
          | none => Outcome.panic
          | some pnd =>
            if pnd.Removed then Outcome.done (false, t)
            else
              match Tree.ParentsExist fuel t parent with
              | Outcome.done (result, t1) =>
                if result = false then Outcome.done (false, t1.setRemoved node)
                else Outcome.done (true, t1)
              | Outcome.panic => Outcome.panic
              | Outcome.timeout => Outcome.timeout

/-- The method `Tree.PathExists(address)`: the pair `(exists, isDirectory)` and the
tree. -/
def Tree.PathExists (t : Tree) (address : String) (fuel : Nat) :
    Outcome ((Bool × Bool) × Tree) :=
  match mapGet t.Nodes (CleanAddress address).1 with
  | none => Outcome.done ((false, false), t)
  | some node =>
    match t.heap[node]? with
    | none => Outcome.panic
    | some nd =>
      if nd.Removed then Outcome.done ((false, nd.IsDirectory), t)
      else
        match t.ParentsExist fuel node with
        | Outcome.done (result, t1) => Outcome.done ((result, nd.IsDirectory), t1)
        | Outcome.panic => Outcome.panic
        | Outcome.timeout => Outcome.timeout

/-- The method `Tree.FileExists(address)`. -/
def Tree.FileExists (t : Tree) (address : String) (fuel : Nat) : Outcome (Bool × Tree) :=
  match t.PathExists address fuel with
  | Outcome.done ((pathExists, isDirectory), t1) =>
    Outcome.done (pathExists && !isDirectory, t1)
  | Outcome.panic => Outcome.panic
  | Outcome.timeout => Outcome.timeout

/-- The method `Tree.DirectoryExists(address)`. -/
def Tree.DirectoryExists (t : Tree) (address : String) (fuel : Nat) :
    Outcome (Bool × Tree) :=
  match t.PathExists address fuel with
  | Outcome.done ((pathExists, isDirectory), t1) =>
    Outcome.done (pathExists && isDirectory, t1)
  | Outcome.panic => Outcome.panic
  | Outcome.timeout => Outcome.timeout

/-- The tree with a new node under the directory at `dir`: the node is allocated,
appended to the children of the directory and entered in the map. -/
def Tree.insertNode (t : Tree) (dir : Nat) (dirNode : Node) (address : String)
    (isDirectory : Bool) : Tree :=
  { heap := (t.heap.set dir (dirNode.addChild t.heap.length)) ++
      [{ Address := address, IsDirectory := isDirectory, Childs := [],
         Parent := dirNode.Address, Removed := false }],
    Nodes := mapSet t.Nodes address t.heap.length }

/-- The method `Tree.CreateFile(fileName)`: the error, if any, and the tree. -/
def Tree.CreateFile (t : Tree) (fileName : String) : Option TreeError × Tree :=
  let cleaned := CleanAddress fileName
  if !cleaned.2 then (some TreeError.wrongFormat, t)
  else
    match mapGet t.Nodes cleaned.1 with
    | some _ => (some TreeError.alreadyExists, t)
    | none =>
      match (mapGet t.Nodes (pathDir cleaned.1)).bind
          (fun dir => (t.heap[dir]?).map (fun nd => (dir, nd))) with
      | none => (some TreeError.noDirectory, t)
      | some (dir, dirNode) => (none, t.insertNode dir dirNode cleaned.1 false)

/-- The method `Tree.CreateDirectory(address)`; the outcome `panic` also stands for
the read `dir.Address` through a nil pointer. -/
def Tree.CreateDirectory (t : Tree) (address : String) (fuel : Nat) :
    Outcome (Option TreeError × Tree) :=
  let cleaned := CleanAddress address
  if !cleaned.2 then Outcome.done (some TreeError.wrongFormat, t)
  else
    match t.PathExists cleaned.1 fuel with
    | Outcome.panic => Outcome.panic
    | Outcome.timeout => Outcome.timeout
    | Outcome.done ((pathExists, _), t1) =>
      if pathExists then Outcome.done (some TreeError.alreadyExists, t1)
      else
        match t1.DirectoryExists (pathDir cleaned.1) fuel with
        | Outcome.panic => Outcome.panic
        | Outcome.timeout => Outcome.timeout
        | Outcome.done (dirExists, t2) =>
          if !dirExists then Outcome.done (some TreeError.noDirectory, t2)
          else
            match (mapGet t2.Nodes (pathDir cleaned.1)).bind
                (fun dir => (t2.heap[dir]?).map (fun nd => (dir, nd))) with
            | none => Outcome.panic
            | some (dir, dirNode) =>
              Outcome.done (none, t2.insertNode dir dirNode cleaned.1 true)

/-- The method `Tree.RemoveDirectory(address)`: marks the node removed and deletes
its entry of the map; the nodes below it keep their entries. -/
def Tree.RemoveDirectory (t : Tree) (address : String) (fuel : Nat) :
    Outcome (Option TreeError × Tree) :=
  let cleaned := CleanAddress address
  if !cleaned.2 then Outcome.done (some TreeError.wrongFormat, t)
  else
    match t.DirectoryExists cleaned.1 fuel with
    | Outcome.panic => Outcome.panic
    | Outcome.timeout => Outcome.timeout
    | Outcome.done (dirExists, t1) =>
      if !dirExists then Outcome.done (some TreeError.notFound, t1)
      else
        match t1.GetNodeByAddress cleaned.1 with
        | none => Outcome.panic
        | some node =>
          Outcome.done (none,
            { (t1.setRemoved node) with Nodes := mapDelete t1.Nodes cleaned.1 })

/-- The outcome of an operation after an operation: the second runs on the tree that
the first returns without an error. -/
def andThen (r : Outcome (Option TreeError × Tree))
    (f : Tree → Outcome (Option TreeError × Tree)) : Outcome (Option TreeError × Tree) :=
  match r with
  | Outcome.done (none, t) => f t
  | other => other

/-- The operations `CreateDirectory("d")`, `CreateFile("d/f")`,
`CreateDirectory("d/sub")`, `CreateFile("d/sub/g")` and `RemoveDirectory("d")` on the
initial tree. -/
def exampleRemoval : Outcome (Option TreeError × Tree) :=
  andThen (andThen (andThen (andThen (InitTree.CreateDirectory "d" 4)
    (fun t => Outcome.done (t.CreateFile "d/f")))
    (fun t => t.CreateDirectory "d/sub" 4))
    (fun t => Outcome.done (t.CreateFile "d/sub/g")))
    (fun t => t.RemoveDirectory "d" 4)

/-- The tree that `exampleRemoval` returns: the node of `d` is marked removed and has
no entry in the map, the nodes below it have theirs. -/
def exampleRemovedTree : Tree :=
  { heap :=
      [⟨".", true, [1], "", false⟩, ⟨"d", true, [2, 3], ".", true⟩,
       ⟨"d/f", false, [], "d", false⟩, ⟨"d/sub", true, [4], "d", false⟩,
       ⟨"d/sub/g", false, [], "d/sub", false⟩],
    Nodes := [(".", 0), ("d/f", 2), ("d/sub", 3), ("d/sub/g", 4)] }


/-! ## Lemmas on maps and on the expectation database -/

theorem mapGet_mapSet {β : Type} (m : List (String × β)) (k k2 : String) (v : β) :
    mapGet (mapSet m k v) k2 = if k = k2 then some v else mapGet m k2 := by
  induction m with
  | nil => simp [mapSet, mapGet]
  | cons p m ih =>
    obtain ⟨a, b⟩ := p
    by_cases h : a = k
    · subst h
      by_cases h2 : a = k2 <;> simp [mapSet, mapGet, h2]
    · by_cases h2 : a = k2
      · subst h2
        have : ¬ k = a := fun e => h e.symm
        simp [mapSet, mapGet, h, this]
      · simp [mapSet, mapGet, h, h2, ih]

theorem mapGet_mapDelete {β : Type} (m : List (String × β)) (k k2 : String) :
    mapGet (mapDelete m k) k2 = if k = k2 then none else mapGet m k2 := by
  induction m with
  | nil => simp [mapDelete, mapGet]
  | cons p m ih =>
    obtain ⟨a, b⟩ := p
    by_cases h : a = k
    · subst h
      by_cases h2 : a = k2
      · subst h2
        simpa [mapDelete, mapGet] using ih
      · simpa [mapDelete, mapGet, h2] using ih
    · by_cases h2 : a = k2
      · subst h2
        have : ¬ k = a := fun e => h e.symm
        simp [mapDelete, mapGet, h, this]
      · simp [mapDelete, mapGet, h, h2, ih]

theorem mapGet_isSome_iff {β : Type} (m : List (String × β)) (k : String) :
    (mapGet m k).isSome = true ↔ k ∈ mapKeys m := by
  induction m with
  | nil => simp [mapGet, mapKeys]
  | cons p m ih =>
    obtain ⟨a, b⟩ := p
    by_cases h : a = k
    · simp [mapGet, mapKeys, h]
    · have : ¬ k = a := fun e => h e.symm
      simp only [mapKeys] at ih
      simp [mapGet, mapKeys, h, this, ih]

theorem mapGet_eq_none_iff {β : Type} (m : List (String × β)) (k : String) :
    mapGet m k = none ↔ k ∉ mapKeys m := by
  rw [← mapGet_isSome_iff]
  cases mapGet m k <;> simp

theorem getTok_eq_grant (s : FileServer) (t c : String) :
    s.GetTokenExpectationForChunk t c = grant (s.look t) c := by
  unfold FileServer.GetTokenExpectationForChunk grant FileServer.look
  rfl

theorem get_set (db : ExpectationDB) (t t2 : String) (e : TokenExpectation) :
    (db.Set t e).Get t2 = if t = t2 then some e else db.Get t2 := by
  simp [ExpectationDB.Set, ExpectationDB.Get, mapGet_mapSet]

theorem get_remove (db : ExpectationDB) (t t2 : String) :
    (db.Remove t).2.Get t2 = if t = t2 then none else db.Get t2 := by
  unfold ExpectationDB.Remove
  cases h : mapGet db.tokens t with
  | none =>
    by_cases h2 : t = t2
    · subst h2; simp [ExpectationDB.Get, h]
    · simp [h2]
  | some e => simp [ExpectationDB.Get, mapGet_mapDelete]

theorem makeObsolete_tokens (db : ExpectationDB) (ids : List String) :
    (db.MakeObsolete ids).2.tokens = db.tokens := rfl

/-! ## Lemmas on `Expect` -/

theorem mapGet_fillFalse (ids : List String) (acc : List (String × Bool)) (c : String) :
    mapGet (fillFalse ids acc) c = if c ∈ ids then some false else mapGet acc c := by
  induction ids generalizing acc with
  | nil => simp [fillFalse]
  | cons id ids ih =>
    have h := ih (mapSet acc id false)
    simp only [fillFalse, List.foldl_cons] at h ⊢
    rw [h, mapGet_mapSet]
    by_cases h1 : c ∈ ids
    · simp [h1]
    · by_cases h2 : id = c
      · subst h2; simp
      · have : ¬ c = id := fun e => h2 e.symm
        simp [h1, h2, this]

theorem expectLoop_eq (chunks : ChunkDB) (a : ExpectAction) (ids : List String)
    (acc : List (String × Bool)) :
    expectLoop chunks a ids acc =
      if a = ExpectAction.Read ∧ ∃ id ∈ ids, chunks.Exists id = false then
        .error ExpectError.ErrChunkNotFound
      else .ok (fillFalse ids acc) := by
  induction ids generalizing acc with
  | nil => simp [expectLoop, fillFalse]
  | cons id ids ih =>
    unfold expectLoop
    by_cases ha : a = ExpectAction.Read
    · subst ha
      by_cases hid : chunks.Exists id = true
      · simp only [hid, not_true_eq_false, and_false, if_false, true_and]
        rw [ih]
        simp [hid, fillFalse]
      · simp [hid]
    · simp only [ha, false_and, if_false]
      rw [ih]
      simp [ha, fillFalse]

/-- The expectation that a successful `Expect` registers. -/
theorem expect_eq (s : FileServer) (t : String) (a : ExpectAction) (cs : List String) :
    s.Expect t a cs =
      match s.look t with
      | some _ => .error ExpectError.TokenExists
      | none =>
        if a = ExpectAction.Read ∧ ∃ id ∈ cs, s.chunks.Exists id = false then
          .error ExpectError.ErrChunkNotFound
        else .ok { s with expectations := (s.expectations.Set t
                    (TokenExpectation.mk a (fillFalse cs []) (cs.length : Int))) } := by
  unfold FileServer.Expect FileServer.look
  cases h : s.expectations.Get t with
  | some e => rfl
  | none =>
    simp only [expectLoop_eq]
    split_ifs <;> rfl

theorem expect_ok_look (s s1 : FileServer) (t t2 : String) (a : ExpectAction)
    (cs : List String) (h : s.Expect t a cs = .ok s1) :
    s1.look t2 = (if t = t2 then some (TokenExpectation.mk a (fillFalse cs []) (cs.length : Int))
      else s.look t2) ∧
    s1.chunks = s.chunks ∧ s1.nsConn = s.nsConn ∧ s1.scheduled = s.scheduled ∧
    s1.expectations.obsolete = s.expectations.obsolete ∧ s.look t = none := by
  rw [expect_eq] at h
  cases hl : s.look t with
  | some e => simp [hl] at h
  | none =>
    simp only [hl] at h
    split_ifs at h
    injection h with h
    subst h
    refine ⟨?_, rfl, rfl, rfl, rfl, rfl⟩
    simp only [FileServer.look]
    exact get_set _ _ _ _

theorem expect_registered (s : FileServer) (t : String) (e : TokenExpectation)
    (a : ExpectAction) (cs : List String) (h : s.expectations.Get t = some e) :
    s.Expect t a cs = .error ExpectError.TokenExists := by
  have h0 : s.look t = some e := h
  rw [expect_eq, h0]

/-- On a token that is not registered, `Expect` fails only on a missing read source. -/
theorem expect_unregistered (s : FileServer) (t : String) (cs : List String)
    (h : s.expectations.Get t = none) :
    (s.Expect t ExpectAction.Read cs = .error ExpectError.ErrChunkNotFound ↔
      ∃ id ∈ cs, s.chunks.Exists id = false) ∧
    ((∃ s1, s.Expect t ExpectAction.Read cs = .ok s1) ↔
      ∀ id ∈ cs, s.chunks.Exists id = true) ∧
    (∃ s1, s.Expect t ExpectAction.Write cs = .ok s1) := by
  have h0 : s.look t = none := h
  refine ⟨?_, ?_, ?_⟩
  · rw [expect_eq, h0]
    simp only [true_and]
    split_ifs with hx
    · simp [hx]
    · simp only [reduceCtorEq, false_iff]
      exact hx
  · rw [expect_eq, h0]
    simp only [true_and]
    split_ifs with hx
    · simp only [reduceCtorEq, exists_false, false_iff]
      obtain ⟨id, hid, hf⟩ := hx
      intro hall
      rw [hall id hid] at hf
      cases hf
    · refine ⟨fun _ id hid => ?_, fun _ => ⟨_, rfl⟩⟩
      cases hb : s.chunks.Exists id with
      | true => rfl
      | false => exact absurd ⟨id, hid, hb⟩ hx
  · rw [expect_eq, h0]
    simp only [reduceCtorEq, false_and, if_false]
    exact ⟨_, rfl⟩

/-! ## Lemmas on the order of expectations -/

theorem advanced_refl (e : TokenExpectation) : Advanced e e :=
  ⟨rfl, fun _ => Or.inl rfl⟩

theorem advanced_trans {e e1 e2 : TokenExpectation} (h1 : Advanced e e1) (h2 : Advanced e1 e2) :
    Advanced e e2 := by
  refine ⟨h2.1.trans h1.1, fun c => ?_⟩
  rcases h1.2 c with a | ⟨a, b⟩ <;> rcases h2.2 c with a2 | ⟨a2, b2⟩
  · exact Or.inl (a2.trans a)
  · exact Or.inr ⟨a ▸ a2, b2⟩
  · exact Or.inr ⟨a, a2.trans b⟩
  · rw [b] at a2; cases a2

theorem lookLE.refl (o : Option TokenExpectation) : lookLE o o := by
  cases o with
  | none => exact Or.inl rfl
  | some e => exact Or.inr ⟨e, e, rfl, rfl, advanced_refl e⟩

theorem lookLE.of_eq {o o1 : Option TokenExpectation} (h : o1 = o) : lookLE o o1 :=
  h ▸ lookLE.refl o1

theorem lookLE.trans {o o1 o2 : Option TokenExpectation} (h1 : lookLE o o1) (h2 : lookLE o1 o2) :
    lookLE o o2 := by
  rcases h2 with h2 | ⟨e1, e2, a, b, c⟩
  · exact Or.inl h2
  · rcases h1 with h1 | ⟨e, e1', a', b', c'⟩
    · rw [h1] at a; cases a
    · rw [a] at b'; cases b'
      exact Or.inr ⟨e, e2, a', b, advanced_trans c' c⟩

/-- A chunk that is denied stays denied while the entry only advances. -/
theorem lookLE.grant_nothing {o o1 : Option TokenExpectation} (h : lookLE o o1) (c : String)
    (hg : grant o c = ExpectAction.Nothing) : grant o1 c = ExpectAction.Nothing := by
  rcases h with h | ⟨e, e1, a, b, adv⟩
  · subst h; rfl
  · subst a; subst b
    simp only [grant] at hg ⊢
    rcases adv.2 c with q | ⟨q1, q2⟩
    · rw [q, adv.1]; exact hg
    · rw [q2]; rfl

/-- A chunk that is consumed stays consumed while the entry only advances. -/
theorem lookLE.processed {o o1 : Option TokenExpectation} (h : lookLE o o1) (c : String)
    (e e1 : TokenExpectation) (ho : o = some e) (ho1 : o1 = some e1)
    (hc : mapGet e.processedChunks c = some true) :
    mapGet e1.processedChunks c = some true ∧ e1.action = e.action := by
  rcases h with h | ⟨e', e1', a, b, adv⟩
  · rw [h] at ho1; cases ho1
  · rw [ho] at a; cases a
    rw [ho1] at b; cases b
    refine ⟨?_, adv.1⟩
    rcases adv.2 c with q | ⟨q1, q2⟩
    · rw [q]; exact hc
    · exact q2

/-! ## Lemmas on `fulfillExpectation` -/

/-- What `fulfillExpectation` does on a registered token: it returns, touches neither
the store nor the namenode nor another token, advances or releases the token, and
leaves the chunk denied. -/
theorem fulfill_spec (s : FileServer) (t id : String) (e : TokenExpectation)
    (h : s.look t = some e) :
    ∃ s1, s.fulfillExpectation t id = some s1 ∧ s1.chunks = s.chunks ∧ s1.nsConn = s.nsConn ∧
      s1.expectations.obsolete = s.expectations.obsolete ∧
      (∀ t2, t2 ≠ t → s1.look t2 = s.look t2) ∧
      lookLE (s.look t) (s1.look t) ∧
      grant (s1.look t) id = ExpectAction.Nothing := by
  have h0 : s.expectations.Get t = some e := h
  unfold FileServer.fulfillExpectation
  simp only [h0]
  cases hc : mapGet e.processedChunks id with
  | none =>
    refine ⟨s, rfl, rfl, rfl, rfl, fun _ _ => rfl, lookLE.refl _, ?_⟩
    simp [grant, h, hc]
  | some b =>
    simp only
    have hadv : Advanced e { e with processedChunks := mapSet e.processedChunks id true,
                                    pendingCount := e.pendingCount - 1 } := by
      refine ⟨rfl, fun c => ?_⟩
      simp only [mapGet_mapSet]
      by_cases hic : id = c
      · subst hic
        simp only [if_true, hc]
        cases b
        · exact Or.inr ⟨rfl, trivial⟩
        · exact Or.inl rfl
      · simp [hic]
    split_ifs with hp
    · refine ⟨_, rfl, rfl, rfl, ?_, ?_, ?_, ?_⟩
      · simp [ExpectationDB.Remove, ExpectationDB.Set, mapGet_mapSet]
      · intro t2 ht2
        have : ¬ t = t2 := fun e => ht2 e.symm
        simp [FileServer.look, get_remove, get_set, this]
      · exact Or.inl (by simp [FileServer.look, get_remove])
      · simp [FileServer.look, get_remove, grant]
    · refine ⟨_, rfl, rfl, rfl, rfl, ?_, ?_, ?_⟩
      · intro t2 ht2
        have : ¬ t = t2 := fun e => ht2 e.symm
        simp [FileServer.look, get_set, this]
      · right
        exact ⟨e, _, h, by simp [FileServer.look, get_set], hadv⟩
      · simp [FileServer.look, get_set, grant, mapGet_mapSet]

theorem fulfill_scheduled (s s1 : FileServer) (t id : String)
    (h : s.fulfillExpectation t id = some s1) :
    ∀ c, c ∈ s1.scheduled → c ∈ s.scheduled ∨
      (c ∈ s.expectations.obsolete ∧ ∃ e, s.look t = some e ∧ c ∈ mapKeys e.processedChunks) := by
  unfold FileServer.fulfillExpectation at h
  cases hl : s.expectations.Get t with
  | none => simp [hl] at h
  | some e =>
    simp only [hl] at h
    cases hc : mapGet e.processedChunks id with
    | none =>
      simp only [hc] at h
      cases h
      exact fun c hc => Or.inl hc
    | some b =>
      simp only [hc] at h
      split_ifs at h with hp
      · cases h
        intro c hc2
        simp only [List.mem_append] at hc2
        rcases hc2 with hc2 | hc2
        · exact Or.inl hc2
        · right
          simp only [ExpectationDB.Remove, ExpectationDB.Set, mapGet_mapSet, if_true,
            List.mem_filter, Bool.and_eq_true, List.contains_eq_any_beq, List.any_eq_true, beq_iff_eq,
            decide_eq_true_eq] at hc2
          obtain ⟨x, hx, rfl⟩ := hc2.2.1
          refine ⟨hx, e, hl, ?_⟩
          have hk := hc2.1
          rw [← mapGet_isSome_iff] at hk ⊢
          rw [mapGet_mapSet] at hk
          by_cases hic : id = c
          · subst hic; simp [hc]
          · simpa [hic] using hk
      · cases h
        exact fun c hc => Or.inl hc

theorem fulfill_none (s : FileServer) (t id : String) (h : s.look t = none) :
    s.fulfillExpectation t id = none := by
  have h0 : s.expectations.Get t = none := h
  unfold FileServer.fulfillExpectation
  simp only [h0]

/-- The facts of `fulfill_spec` for a call that is known to have returned. -/
theorem fulfill_inv (s s1 : FileServer) (t id : String)
    (h : s.fulfillExpectation t id = some s1) :
    s1.chunks = s.chunks ∧ s1.nsConn = s.nsConn ∧
      s1.expectations.obsolete = s.expectations.obsolete ∧
      (∀ t2, t2 ≠ t → s1.look t2 = s.look t2) ∧
      lookLE (s.look t) (s1.look t) ∧
      grant (s1.look t) id = ExpectAction.Nothing := by
  cases hl : s.look t with
  | none => rw [fulfill_none s t id hl] at h; cases h
  | some e =>
    obtain ⟨s2, h2, rest⟩ := fulfill_spec s t id e hl
    rw [h2] at h
    cases h
    rw [← hl]
    exact rest

theorem fulfill_lookLE (s s1 : FileServer) (t id t2 : String)
    (h : s.fulfillExpectation t id = some s1) : lookLE (s.look t2) (s1.look t2) := by
  obtain ⟨_, _, _, hne, hle, _⟩ := fulfill_inv s s1 t id h
  by_cases h2 : t2 = t
  · subst h2; exact hle
  · exact lookLE.of_eq (hne t2 h2)

/-! ## Lemmas on the client handlers -/

theorem grant_ne_nothing {o : Option TokenExpectation} {c : String}
    (h : grant o c ≠ ExpectAction.Nothing) : ∃ e, o = some e := by
  cases o with
  | none => exact absurd rfl h
  | some e => exact ⟨e, rfl⟩

theorem sendChunk_denied (s : FileServer) (id t : String)
    (h : s.GetTokenExpectationForChunk t id = ExpectAction.Nothing) :
    s.SendChunk id t = some ({ code := 401, body := "" }, s) := by
  simp [FileServer.SendChunk, h]

theorem receiveChunk_denied (s : FileServer) (id t body : String)
    (h : s.GetTokenExpectationForChunk t id = ExpectAction.Nothing) :
    s.ReceiveChunk id t body = some ({ code := 401, body := "" }, s) := by
  simp [FileServer.ReceiveChunk, h]

/-- A GET that passes the check is answered 200 with the stored bytes, or 404 when
the chunk is not in the store, and the expectation is fulfilled. -/
theorem sendChunk_granted (s : FileServer) (id t : String)
    (h : s.GetTokenExpectationForChunk t id ≠ ExpectAction.Nothing) :
    ∃ s1, s.fulfillExpectation t id = some s1 ∧
      s.SendChunk id t = some ((match s.chunks.Get id with
        | none => { code := 404, body := "" }
        | some content => { code := 200, body := content }), s1) := by
  rw [getTok_eq_grant] at h
  obtain ⟨e, he⟩ := grant_ne_nothing h
  obtain ⟨s1, h1, _⟩ := fulfill_spec s t id e he
  refine ⟨s1, h1, ?_⟩
  have h' : ¬ s.GetTokenExpectationForChunk t id = ExpectAction.Nothing := by
    rw [getTok_eq_grant]; exact h
  unfold FileServer.SendChunk
  rw [if_neg h', h1]
  cases s.chunks.Get id <;> rfl

/-- A POST that passes the check is answered 403 when the chunk exists, else the
body is stored, the namenode is notified and the answer is 200; in both cases the
expectation is fulfilled. -/
theorem receiveChunk_granted (s : FileServer) (id t body : String)
    (h : s.GetTokenExpectationForChunk t id ≠ ExpectAction.Nothing) :
    (s.chunks.Exists id = true ∧ ∃ s1, s.fulfillExpectation t id = some s1 ∧
      s.ReceiveChunk id t body = some ({ code := 403, body := "" }, s1)) ∨
    (s.chunks.Exists id = false ∧ ∃ s1,
      { s with chunks := { index := mapSet s.chunks.index id body },
               nsConn := s.nsConn ++ [id] }.fulfillExpectation t id = some s1 ∧
      s.ReceiveChunk id t body = some ({ code := 200, body := "" }, s1)) := by
  have h' : ¬ s.GetTokenExpectationForChunk t id = ExpectAction.Nothing := h
  rw [getTok_eq_grant] at h
  obtain ⟨e, he⟩ := grant_ne_nothing h
  unfold FileServer.ReceiveChunk
  rw [if_neg h']
  cases hex : s.chunks.Exists id with
  | true =>
    left
    obtain ⟨s1, h1, _⟩ := fulfill_spec s t id e he
    refine ⟨rfl, s1, h1, ?_⟩
    simp [ChunkDB.Create, hex, h1]
  | false =>
    right
    obtain ⟨s1, h1, _⟩ := fulfill_spec
      { s with chunks := { index := mapSet s.chunks.index id body },
               nsConn := s.nsConn ++ [id] } t id e he
    refine ⟨rfl, s1, h1, ?_⟩
    simp [ChunkDB.Create, hex, h1]

/-- A GET that passes the check is answered with a status other than 401 and leaves
the chunk denied. -/
theorem sendChunk_consumes (s : FileServer) (c t : String)
    (h : s.GetTokenExpectationForChunk t c ≠ ExpectAction.Nothing) :
    ∃ r s1, s.SendChunk c t = some (r, s1) ∧ r.code ≠ 401 ∧
      s1.GetTokenExpectationForChunk t c = ExpectAction.Nothing := by
  obtain ⟨s1, hf, hS⟩ := sendChunk_granted s c t h
  refine ⟨_, s1, hS, ?_, ?_⟩
  · cases s.chunks.Get c <;> simp
  · rw [getTok_eq_grant]
    exact (fulfill_inv s s1 t c hf).2.2.2.2.2

/-- A POST that passes the check is answered with a status other than 401 and leaves
the chunk denied. -/
theorem receiveChunk_consumes (s : FileServer) (c t body : String)
    (h : s.GetTokenExpectationForChunk t c ≠ ExpectAction.Nothing) :
    ∃ r s1, s.ReceiveChunk c t body = some (r, s1) ∧ r.code ≠ 401 ∧
      s1.GetTokenExpectationForChunk t c = ExpectAction.Nothing := by
  rcases receiveChunk_granted s c t body h with ⟨_, s1, hf, hS⟩ | ⟨_, s1, hf, hS⟩
  · refine ⟨_, s1, hS, by decide, ?_⟩
    rw [getTok_eq_grant]
    exact (fulfill_inv s s1 t c hf).2.2.2.2.2
  · refine ⟨_, s1, hS, by decide, ?_⟩
    rw [getTok_eq_grant]
    exact (fulfill_inv _ s1 t c hf).2.2.2.2.2

theorem sendChunk_lookLE (s s1 : FileServer) (r : Response) (id t t2 : String)
    (h : s.SendChunk id t = some (r, s1)) : lookLE (s.look t2) (s1.look t2) := by
  by_cases hg : s.GetTokenExpectationForChunk t id = ExpectAction.Nothing
  · rw [sendChunk_denied s id t hg] at h
    cases h
    exact lookLE.refl _
  · obtain ⟨s2, h2, h3⟩ := sendChunk_granted s id t hg
    rw [h3] at h
    cases h
    exact fulfill_lookLE s s1 t id t2 h2

theorem receiveChunk_lookLE (s s1 : FileServer) (r : Response) (id t body t2 : String)
    (h : s.ReceiveChunk id t body = some (r, s1)) : lookLE (s.look t2) (s1.look t2) := by
  by_cases hg : s.GetTokenExpectationForChunk t id = ExpectAction.Nothing
  · rw [receiveChunk_denied s id t body hg] at h
    cases h
    exact lookLE.refl _
  · rcases receiveChunk_granted s id t body hg with ⟨_, s2, h2, h3⟩ | ⟨_, s2, h2, h3⟩
    · rw [h3] at h
      cases h
      exact fulfill_lookLE s s1 t id t2 h2
    · rw [h3] at h
      cases h
      exact fulfill_lookLE { s with chunks := { index := mapSet s.chunks.index id body },
                                    nsConn := s.nsConn ++ [id] } s1 t id t2 h2

/-! ## Lemmas on the namenode handlers -/

/-- What `CancelTokenHandler` does to a registered token, when `make` does not
panic: the token is released and nothing else of the token map changes. -/
theorem cancel_registered (s : FileServer) (t : String) (e : TokenExpectation)
    (ht : t ≠ "") (h : s.look t = some e)
    (hcap : 0 ≤ (e.processedChunks.length : Int) - e.pendingCount) :
    ∃ s1, s.CancelTokenHandler t = some ({ code := 200, body := "" }, s1) ∧
      s1.chunks = s.chunks ∧ s1.nsConn = s.nsConn ∧
      (∀ t2, s1.look t2 = if t = t2 then none else s.look t2) ∧
      s1.expectations.tokens = mapDelete s.expectations.tokens t ∧
      s1.scheduled = s.scheduled ++
        ((if e.action = ExpectAction.Write ∧ (toUndoOf e).length ≠ 0 then
            s.expectations.MakeObsolete (toUndoOf e) else ([], s.expectations)).1 ++
         (mapKeys e.processedChunks).filter (fun id =>
            (if e.action = ExpectAction.Write ∧ (toUndoOf e).length ≠ 0 then
              s.expectations.MakeObsolete (toUndoOf e)
              else ([], s.expectations)).2.obsolete.contains id &&
            !namedIn (mapDelete s.expectations.tokens t) id)) := by
  have h0 : s.expectations.Get t = some e := h
  have hcap' : ¬ (e.processedChunks.length : Int) - e.pendingCount < 0 := not_lt.mpr hcap
  unfold FileServer.CancelTokenHandler
  simp only [if_neg ht, h0, if_neg hcap']
  have htok : (if e.action = ExpectAction.Write ∧ (toUndoOf e).length ≠ 0 then
      s.expectations.MakeObsolete (toUndoOf e) else ([], s.expectations)).2.tokens
        = s.expectations.tokens := by
    split_ifs <;> rfl
  have hdel : ∀ (m : List (String × TokenExpectation)) (x : TokenExpectation),
      mapDelete (mapSet m t x) t = mapDelete m t := by
    intro m x
    induction m with
    | nil => simp [mapSet, mapDelete]
    | cons p m ih =>
      obtain ⟨a, b⟩ := p
      by_cases hat : a = t
      · simp [mapSet, mapDelete, hat]
      · simp [mapSet, mapDelete, hat, ih]
  refine ⟨_, rfl, rfl, rfl, ?_, ?_, ?_⟩
  · intro t2
    simp only [FileServer.look, get_remove, get_set]
    by_cases h2 : t = t2
    · simp [h2]
    · simp only [h2, if_false, ExpectationDB.Get, htok]
  · simp only [ExpectationDB.Remove, ExpectationDB.Set, mapGet_mapSet, if_true, hdel, htok]
  · simp only [ExpectationDB.Remove, ExpectationDB.Set, mapGet_mapSet, if_true, hdel, htok]

theorem cancel_lookLE (s s1 : FileServer) (r : Response) (t t2 : String)
    (h : s.CancelTokenHandler t = some (r, s1)) :
    lookLE (s.look t2) (s1.look t2) ∧ s1.chunks = s.chunks ∧ s1.nsConn = s.nsConn := by
  by_cases ht : t = ""
  · simp only [FileServer.CancelTokenHandler, ht, if_true] at h
    cases h
    exact ⟨lookLE.refl _, rfl, rfl⟩
  · cases hl : s.look t with
    | none =>
      have h0 : s.expectations.Get t = none := hl
      simp only [FileServer.CancelTokenHandler, if_neg ht, h0] at h
      cases h
      exact ⟨lookLE.refl _, rfl, rfl⟩
    | some e =>
      by_cases hcap : 0 ≤ (e.processedChunks.length : Int) - e.pendingCount
      · obtain ⟨s2, h2, hc, hn, hlook, _⟩ := cancel_registered s t e ht hl hcap
        rw [h2] at h
        cases h
        refine ⟨?_, hc, hn⟩
        rw [hlook t2]
        by_cases h3 : t = t2
        · simp only [h3, if_true]; exact Or.inl rfl
        · simp only [h3, if_false]; exact lookLE.refl _
      · have h0 : s.expectations.Get t = some e := hl
        have hcap' : (e.processedChunks.length : Int) - e.pendingCount < 0 := not_le.mp hcap
        simp [FileServer.CancelTokenHandler, ht, h0, hcap'] at h

theorem expectHandler_look (s : FileServer) (actionStr t : String) (chunks : Option (List String))
    (mock : Bool) (t2 : String) (h : t ≠ t2) :
    (s.ExpectHandler actionStr t chunks mock).2.look t2 = s.look t2 := by
  have key : ∀ (a : ExpectAction) (ids : List String) (s0 : FileServer),
      s0.look t2 = s.look t2 →
      (match s0.Expect t a ids with
        | .error _ => (({ code := 403, body := "" } : Response), s0)
        | .ok s2 => ({ code := 200, body := "" }, s2)).2.look t2 = s.look t2 := by
    intro a ids s0 h0
    cases hE : s0.Expect t a ids with
    | error e => exact h0
    | ok s2 =>
      have := (expect_ok_look _ s2 t t2 a ids hE).1
      simp only [h, if_false] at this
      exact this.trans h0
  unfold FileServer.ExpectHandler
  cases strToExpectAction actionStr with
  | none => rfl
  | some a =>
    simp only
    by_cases ht : t = ""
    · simp only [if_pos ht]
    · simp only [if_neg ht]
      cases chunks with
      | none => rfl
      | some ids =>
        cases mock with
        | false => exact key a ids s rfl
        | true => exact key a ids { s with nsConn := s.nsConn ++ ids } rfl

theorem replicateLoop_look (tk destIP t : String) (h : tk ≠ t) (ids : List String)
    (run : ReplicateRun) :
    (replicateLoop tk destIP ids run).state.look t = run.state.look t := by
  induction ids generalizing run with
  | nil => rfl
  | cons id ids ih =>
    unfold replicateLoop
    cases hE : run.state.Expect tk ExpectAction.Read [id] with
    | error e => exact ih run
    | ok s1 =>
      have h1 := (expect_ok_look _ s1 tk t _ _ hE).1
      simp only [h, if_false] at h1
      simp only
      cases s1.chunks.Get id with
      | none => exact h1
      | some content =>
        simp only
        rw [ih]
        exact h1

theorem runDeferred_look (tk t : String) (h : tk ≠ t) (ids : List String) (s s1 : FileServer)
    (hr : runDeferred tk ids s = some s1) : s1.look t = s.look t := by
  induction ids generalizing s with
  | nil =>
    simp only [runDeferred] at hr
    cases hr; rfl
  | cons id ids ih =>
    unfold runDeferred at hr
    cases hf : s.fulfillExpectation tk id with
    | none => simp [hf] at hr
    | some s2 =>
      simp only [hf] at hr
      rw [ih s2 hr]
      exact (fulfill_inv s s2 tk id hf).2.2.2.1 t (fun e => h e.symm)

/-- A request that does not name the token `t` in an `Expect` or a `Replicate`
releases or advances its entry. -/
theorem step_lookLE_of_not_named (s : FileServer) (op : Op) (t : String)
    (h : op.registers t = false) :
    lookLE (s.look t) ((s.step op).look t) := by
  cases op with
  | expect tk a cs =>
    have hne : tk ≠ t := by simpa [Op.registers] using h
    simp only [FileServer.step]
    cases hE : s.Expect tk a cs with
    | error e => exact lookLE.refl _
    | ok s1 =>
      have h1 := (expect_ok_look _ s1 tk t _ _ hE).1
      simp only [hne, if_false] at h1
      exact lookLE.of_eq h1
  | expectHandler actionStr tk chunks mock =>
    have hne : tk ≠ t := by simpa [Op.registers] using h
    exact lookLE.of_eq (expectHandler_look s actionStr tk chunks mock t hne)
  | get id tk =>
    simp only [FileServer.step]
    cases hS : s.SendChunk id tk with
    | none => exact lookLE.refl _
    | some p => exact sendChunk_lookLE s p.2 p.1 id tk t hS
  | post id tk body =>
    simp only [FileServer.step]
    cases hS : s.ReceiveChunk id tk body with
    | none => exact lookLE.refl _
    | some p => exact receiveChunk_lookLE s p.2 p.1 id tk body t hS
  | cancel tk =>
    simp only [FileServer.step]
    cases hS : s.CancelTokenHandler tk with
    | none => exact lookLE.refl _
    | some p => exact (cancel_lookLE s p.2 p.1 tk t hS).1
  | purge chunks =>
    cases chunks with
    | none => exact lookLE.refl _
    | some ids => exact lookLE.refl _
  | replicate tk destIP chunks =>
    have hne : tk ≠ t := by simpa [Op.registers] using h
    simp only [FileServer.step]
    cases chunks with
    | none => exact lookLE.refl _
    | some ids =>
      simp only [FileServer.ReplicateHandler]
      cases hr : runDeferred tk
          (replicateLoop tk destIP ids
            { early := none, state := s, deferred := [], posts := [] }).deferred
          (replicateLoop tk destIP ids
            { early := none, state := s, deferred := [], posts := [] }).state with
      | none => exact lookLE.refl _
      | some s1 =>
        simp only [Option.map_some', orStay]
        rw [runDeferred_look tk t hne _ _ s1 hr, replicateLoop_look tk destIP t hne]
        exact lookLE.refl _
  | runRemovals => exact lookLE.refl _

theorem expectHandler_registered (s : FileServer) (actionStr t : String)
    (chunks : Option (List String)) (mock : Bool) (e : TokenExpectation)
    (h : s.look t = some e) : (s.ExpectHandler actionStr t chunks mock).2.look t = some e := by
  have key : ∀ (a : ExpectAction) (ids : List String) (s0 : FileServer), s0.look t = some e →
      (match s0.Expect t a ids with
        | .error _ => (({ code := 403, body := "" } : Response), s0)
        | .ok s2 => ({ code := 200, body := "" }, s2)).2.look t = some e := by
    intro a ids s0 h0
    rw [expect_registered s0 t e a ids h0]
    exact h0
  unfold FileServer.ExpectHandler
  cases strToExpectAction actionStr with
  | none => exact h
  | some a =>
    simp only
    by_cases ht : t = ""
    · simp only [if_pos ht]; exact h
    · simp only [if_neg ht]
      cases chunks with
      | none => exact h
      | some ids =>
        cases mock with
        | false => exact key a ids s h
        | true => exact key a ids { s with nsConn := s.nsConn ++ ids } h

theorem replicateLoop_registered (t destIP : String) (e : TokenExpectation) (ids : List String)
    (run : ReplicateRun) (h : run.state.look t = some e) :
    replicateLoop t destIP ids run = run := by
  induction ids with
  | nil => rfl
  | cons id ids ih =>
    unfold replicateLoop
    rw [expect_registered run.state t e _ _ h]
    exact ih

/-- A request that names a registered token in an `Expect` or a `Replicate` leaves
its entry as it is. -/
theorem step_look_of_registered (s : FileServer) (op : Op) (t : String) (e : TokenExpectation)
    (hl : s.look t = some e) (hr : op.registers t = true) : (s.step op).look t = some e := by
  cases op with
  | expect tk a cs =>
    have htk : tk = t := by simpa [Op.registers] using hr
    subst htk
    simp only [FileServer.step, expect_registered s tk e a cs hl]
    exact hl
  | expectHandler actionStr tk chunks mock =>
    have htk : tk = t := by simpa [Op.registers] using hr
    subst htk
    exact expectHandler_registered s actionStr tk chunks mock e hl
  | replicate tk destIP chunks =>
    have htk : tk = t := by simpa [Op.registers] using hr
    subst htk
    cases chunks with
    | none => exact hl
    | some ids =>
      simp only [FileServer.step, FileServer.ReplicateHandler]
      rw [replicateLoop_registered tk destIP e ids _ hl]
      exact hl
  | get id tk => simp [Op.registers] at hr
  | post id tk body => simp [Op.registers] at hr
  | cancel tk => simp [Op.registers] at hr
  | purge chunks => simp [Op.registers] at hr
  | runRemovals => simp [Op.registers] at hr

/-- A request that does not register the token `t` releases or advances its entry. -/
theorem step_lookLE (s : FileServer) (op : Op) (t : String)
    (h : s.freshlyRegisters t op = false) : lookLE (s.look t) ((s.step op).look t) := by
  cases hl : s.look t with
  | none =>
    left
    simp only [FileServer.freshlyRegisters, hl, Option.isNone_none, Bool.true_and] at h
    cases hs : (s.step op).look t with
    | none => rfl
    | some e => rw [hs] at h; cases h
  | some e =>
    cases hr : op.registers t with
    | false => rw [← hl]; exact step_lookLE_of_not_named s op t hr
    | true => exact lookLE.of_eq (step_look_of_registered s op t e hl hr)

theorem run_lookLE (ops : List Op) (s : FileServer) (t : String)
    (h : s.neverRegisters t ops = true) : lookLE (s.look t) ((s.run ops).look t) := by
  induction ops generalizing s with
  | nil => exact lookLE.refl _
  | cons op ops ih =>
    simp only [FileServer.neverRegisters, Bool.and_eq_true, Bool.not_eq_true'] at h
    exact (step_lookLE s op t h.1).trans (ih (s.step op) h.2)

/-! ## Lemmas on cancellation and removal -/

theorem mem_toUndoOf (e : TokenExpectation) (c : String)
    (h : mapGet e.processedChunks c = some true) : c ∈ toUndoOf e := by
  unfold toUndoOf
  generalize e.processedChunks = m at h
  induction m with
  | nil => simp [mapGet] at h
  | cons p m ih =>
    obtain ⟨a, b⟩ := p
    by_cases hac : a = c
    · subst hac
      simp only [mapGet, if_true, Option.some.injEq] at h
      subst h
      simp
    · simp only [mapGet, hac, if_false] at h
      have := ih h
      simp only [List.mem_map, List.mem_filter] at this ⊢
      obtain ⟨x, ⟨hx1, hx2⟩, hx3⟩ := this
      exact ⟨x, ⟨List.mem_cons_of_mem _ hx1, hx2⟩, hx3⟩

theorem toUndoOf_subset (e : TokenExpectation) (c : String) (h : c ∈ toUndoOf e) :
    c ∈ mapKeys e.processedChunks := by
  simp only [toUndoOf, mapKeys, List.mem_map, List.mem_filter] at h ⊢
  obtain ⟨x, ⟨hx1, _⟩, hx3⟩ := h
  exact ⟨x, hx1, hx3⟩

theorem mem_addObsolete (ids o : List String) (c : String) :
    c ∈ ids.foldl (fun o id => if o.contains id then o else o ++ [id]) o ↔ c ∈ o ∨ c ∈ ids := by
  induction ids generalizing o with
  | nil => simp
  | cons id ids ih =>
    simp only [List.foldl_cons, ih, List.mem_cons]
    by_cases hid : o.contains id = true
    · simp only [hid, if_true]
      have hmem : id ∈ o := by simpa using hid
      constructor
      · rintro (h | h)
        · exact Or.inl h
        · exact Or.inr (Or.inr h)
      · rintro (h | h | h)
        · exact Or.inl h
        · exact Or.inl (h ▸ hmem)
        · exact Or.inr h
    · simp only [hid, Bool.false_eq_true, if_false, List.mem_append, List.mem_singleton]
      tauto

theorem makeObsolete_fst_subset (db : ExpectationDB) (ids : List String) (c : String)
    (h : c ∈ (db.MakeObsolete ids).1) : c ∈ ids := by
  simp only [ExpectationDB.MakeObsolete, List.mem_filter] at h
  exact h.1

theorem makeObsolete_obsolete (db : ExpectationDB) (ids : List String) (c : String) :
    c ∈ (db.MakeObsolete ids).2.obsolete ↔ c ∈ db.obsolete ∨ c ∈ ids := by
  simp only [ExpectationDB.MakeObsolete]
  exact mem_addObsolete ids db.obsolete c

theorem removeAll_get_of_not_mem (l : List String) (store : ChunkDB) (c : String)
    (h : c ∉ l) :
    (l.foldl (fun c id => c.Remove id) store).Get c = store.Get c := by
  induction l generalizing store with
  | nil => rfl
  | cons id l ih =>
    simp only [List.mem_cons, not_or] at h
    simp only [List.foldl_cons]
    rw [ih _ h.2]
    have : ¬ id = c := fun e => h.1 e.symm
    simp [ChunkDB.Remove, ChunkDB.Get, mapGet_mapDelete, this]

theorem removeAll_get_none (l : List String) (store : ChunkDB) (c : String)
    (h : store.Get c = none) :
    (l.foldl (fun c id => c.Remove id) store).Get c = none := by
  induction l generalizing store with
  | nil => exact h
  | cons id l ih =>
    simp only [List.foldl_cons]
    apply ih
    simp only [ChunkDB.Remove, ChunkDB.Get, mapGet_mapDelete]
    split_ifs
    · rfl
    · exact h

theorem removeAll_get_of_mem (l : List String) (store : ChunkDB) (c : String)
    (h : c ∈ l) :
    (l.foldl (fun c id => c.Remove id) store).Get c = none := by
  induction l generalizing store with
  | nil => cases h
  | cons id l ih =>
    simp only [List.foldl_cons]
    by_cases hid : id = c
    · apply removeAll_get_none
      simp [ChunkDB.Remove, ChunkDB.Get, mapGet_mapDelete, hid]
    · apply ih
      rcases List.mem_cons.mp h with h | h
      · exact absurd h.symm hid
      · exact h

/-- What a cancellation schedules for removal is listed in the cancelled
expectation, and is obsolete already or a processed chunk of a write expectation. -/
theorem cancel_scheduled (s s1 : FileServer) (r : Response) (t c : String)
    (h : s.CancelTokenHandler t = some (r, s1)) (hc : c ∈ s1.scheduled) :
    c ∈ s.scheduled ∨ ∃ e, s.expectations.Get t = some e ∧ c ∈ mapKeys e.processedChunks ∧
      (c ∈ s.expectations.obsolete ∨ (e.action = ExpectAction.Write ∧ c ∈ toUndoOf e)) := by
  by_cases ht : t = ""
  · simp only [FileServer.CancelTokenHandler, ht, if_true] at h
    cases h
    exact Or.inl hc
  · cases hl : s.look t with
    | none =>
      have h0 : s.expectations.Get t = none := hl
      simp only [FileServer.CancelTokenHandler, if_neg ht, h0] at h
      cases h
      exact Or.inl hc
    | some e =>
      have h0 : s.expectations.Get t = some e := hl
      by_cases hcap : 0 ≤ (e.processedChunks.length : Int) - e.pendingCount
      · obtain ⟨s2, h2, _, _, _, _, hsched⟩ := cancel_registered s t e ht hl hcap
        rw [h2] at h
        cases h
        rw [hsched] at hc
        simp only [List.mem_append, List.mem_filter, Bool.and_eq_true] at hc
        rcases hc with hc | hc | ⟨hk, hobs, _⟩
        · exact Or.inl hc
        · right
          refine ⟨e, h0, ?_⟩
          split_ifs at hc with hw
          · have := makeObsolete_fst_subset _ _ _ hc
            exact ⟨toUndoOf_subset e c this, Or.inr ⟨hw.1, this⟩⟩
          · cases hc
        · right
          refine ⟨e, h0, hk, ?_⟩
          have hobs' : c ∈ (if e.action = ExpectAction.Write ∧ (toUndoOf e).length ≠ 0 then
              s.expectations.MakeObsolete (toUndoOf e)
              else ([], s.expectations)).2.obsolete := by simpa using hobs
          split_ifs at hobs' with hw
          · rcases (makeObsolete_obsolete _ _ _).mp hobs' with h3 | h3
            · exact Or.inl h3
            · exact Or.inr ⟨hw.1, h3⟩
          · exact Or.inl hobs'
      · have hcap' : (e.processedChunks.length : Int) - e.pendingCount < 0 := not_le.mp hcap
        simp [FileServer.CancelTokenHandler, ht, h0, hcap'] at h

/-! ## Release of a token and replication: what the code does -/

/-- A fulfilment that brings `pendingCount` to 0 releases the token: no other token
changes, and the obsolete chunks that only this token named are scheduled. -/
theorem fulfill_releases (s : FileServer) (t c : String) (e : TokenExpectation) (b : Bool)
    (h : s.look t = some e) (hc : mapGet e.processedChunks c = some b)
    (hp : e.pendingCount = 1) :
    ∃ s1, s.fulfillExpectation t c = some s1 ∧ s1.look t = none ∧
      s1.chunks = s.chunks ∧ s1.nsConn = s.nsConn ∧
      (∀ t2, t2 ≠ t → s1.look t2 = s.look t2) ∧
      ∀ c2, s1.GetTokenExpectationForChunk t c2 = ExpectAction.Nothing := by
  have h0 : s.expectations.Get t = some e := h
  have hzero : e.pendingCount - 1 = 0 := by rw [hp]; rfl
  obtain ⟨s1, h1, hchunks, hns, _, hne, _, _⟩ := fulfill_spec s t c e h
  have hnone : s1.look t = none := by
    have h2 := h1
    unfold FileServer.fulfillExpectation at h2
    simp only [h0, hc, hzero, if_true] at h2
    cases h2
    simp [FileServer.look, get_remove]
  refine ⟨s1, h1, hnone, hchunks, hns, hne, fun c2 => ?_⟩
  rw [getTok_eq_grant, hnone]
  rfl

/-- A `Replicate` with a token that is not registered makes one POST, of the first
chunk id when it is in the store, whatever chunk ids follow it; it answers 200 and
leaves the token released and the store as it was. -/
theorem replicate_first_only (s : FileServer) (t destIP c content : String) (rest : List String)
    (hfree : s.expectations.Get t = none) (hc : s.chunks.Get c = some content) :
    ∃ s1, s.ReplicateHandler t destIP (some (c :: rest))
        = some ({ code := 200, body := "" }, s1,
            [("http://" ++ destIP ++ "/chunks/" ++ c ++ "?token=" ++ t, content)]) ∧
      s1.look t = none ∧ s1.chunks = s.chunks := by
  have hex : ∀ id ∈ [c], s.chunks.Exists id = true := by
    intro id hid
    have : id = c := by simpa using hid
    rw [this]
    simp [ChunkDB.Exists, show mapGet s.chunks.index c = some content from hc]
  obtain ⟨s1, h1⟩ := (expect_unregistered s t [c] hfree).2.1.mpr hex
  obtain ⟨hlook, hchunks, _⟩ := expect_ok_look s s1 t t _ _ h1
  rw [if_pos rfl] at hlook
  have hget : s1.chunks.Get c = some content := by rw [hchunks]; exact hc
  obtain ⟨s2, hf, hnone, hch2, _⟩ := fulfill_releases s1 t c _ false hlook
    (by simp [mapGet_fillFalse, mapGet]) rfl
  refine ⟨s2, ?_, hnone, by rw [hch2, hchunks]⟩
  simp only [FileServer.ReplicateHandler, replicateLoop, h1, hget]
  rw [replicateLoop_registered t destIP _ rest _ hlook]
  simp [runDeferred, hf]

/-! ## Lemmas on the token map -/

theorem namedIn_iff (m : List (String × TokenExpectation)) (id : String) :
    namedIn m id = true ↔ ∃ p ∈ m, id ∈ mapKeys p.2.processedChunks := by
  simp [namedIn, List.any_eq_true]

theorem mem_mapDelete {β : Type} (m : List (String × β)) (t : String) (p : String × β) :
    p ∈ mapDelete m t ↔ p ∈ m ∧ p.1 ≠ t := by
  induction m with
  | nil => simp [mapDelete]
  | cons q m ih =>
    obtain ⟨a, b⟩ := q
    by_cases hat : a = t
    · subst hat
      simp only [mapDelete, if_true, ih, List.mem_cons]
      constructor
      · rintro ⟨h1, h2⟩
        exact ⟨Or.inr h1, h2⟩
      · rintro ⟨h1 | h1, h2⟩
        · rw [h1] at h2; exact absurd rfl h2
        · exact ⟨h1, h2⟩
    · simp only [mapDelete, hat, if_false, List.mem_cons, ih]
      constructor
      · rintro (h1 | ⟨h1, h2⟩)
        · rw [h1]; exact ⟨Or.inl rfl, hat⟩
        · exact ⟨Or.inr h1, h2⟩
      · rintro ⟨h1 | h1, h2⟩
        · exact Or.inl h1
        · exact Or.inr ⟨h1, h2⟩

theorem mapDelete_mapSet_self {β : Type} (m : List (String × β)) (t : String) (x : β) :
    mapDelete (mapSet m t x) t = mapDelete m t := by
  induction m with
  | nil => simp [mapSet, mapDelete]
  | cons p m ih =>
    obtain ⟨a, b⟩ := p
    by_cases hat : a = t
    · simp [mapSet, mapDelete, hat]
    · simp [mapSet, mapDelete, hat, ih]

theorem mapSet_of_none {β : Type} (m : List (String × β)) (t : String) (x : β)
    (h : mapGet m t = none) : mapSet m t x = m ++ [(t, x)] := by
  induction m with
  | nil => rfl
  | cons p m ih =>
    obtain ⟨a, b⟩ := p
    by_cases hat : a = t
    · simp [mapGet, hat] at h
    · simp only [mapGet, hat, if_false] at h
      simp [mapSet, hat, ih h]

theorem mapDelete_of_none {β : Type} (m : List (String × β)) (t : String)
    (h : mapGet m t = none) : mapDelete m t = m := by
  induction m with
  | nil => rfl
  | cons p m ih =>
    obtain ⟨a, b⟩ := p
    by_cases hat : a = t
    · simp [mapGet, hat] at h
    · simp only [mapGet, hat, if_false] at h
      simp [mapDelete, hat, ih h]

theorem mapKeys_mapSet_some {β : Type} (m : List (String × β)) (t : String) (x y : β)
    (h : mapGet m t = some y) : mapKeys (mapSet m t x) = mapKeys m := by
  induction m with
  | nil => simp [mapGet] at h
  | cons p m ih =>
    obtain ⟨a, b⟩ := p
    by_cases hat : a = t
    · simp [mapSet, mapKeys, hat]
    · simp only [mapGet, hat, if_false] at h
      have := ih h
      simp only [mapKeys] at this
      simp [mapSet, mapKeys, hat, this]

theorem namedIn_mapSet_same (m : List (String × TokenExpectation)) (t id : String)
    (e e1 : TokenExpectation) (h : mapGet m t = some e)
    (hk : mapKeys e1.processedChunks = mapKeys e.processedChunks) :
    namedIn (mapSet m t e1) id = namedIn m id := by
  induction m with
  | nil => simp [mapGet] at h
  | cons p m ih =>
    obtain ⟨a, b⟩ := p
    by_cases hat : a = t
    · simp only [mapGet, hat, if_true, Option.some.injEq] at h
      subst h
      simp [mapSet, hat, namedIn, hk]
    · simp only [mapGet, hat, if_false] at h
      have := ih h
      simp only [namedIn] at this
      simp only [mapSet, hat, if_false, namedIn, List.any_cons, this]

theorem mapGet_of_mem_nodup {β : Type} (m : List (String × β)) (t : String) (x : β)
    (hn : (mapKeys m).Nodup) (h : (t, x) ∈ m) : mapGet m t = some x := by
  induction m with
  | nil => cases h
  | cons p m ih =>
    obtain ⟨a, b⟩ := p
    simp only [mapKeys, List.map_cons, List.nodup_cons] at hn
    rcases List.mem_cons.mp h with h | h
    · cases h
      simp [mapGet]
    · have hne : ¬ a = t := by
        intro hat
        apply hn.1
        rw [hat]
        exact List.mem_map.mpr ⟨(t, x), h, rfl⟩
      simp only [mapGet, hne, if_false]
      exact ih hn.2 h

theorem mapKeys_mapDelete_nodup {β : Type} (m : List (String × β)) (t : String)
    (hn : (mapKeys m).Nodup) : (mapKeys (mapDelete m t)).Nodup := by
  induction m with
  | nil => simp [mapDelete, mapKeys]
  | cons p m ih =>
    obtain ⟨a, b⟩ := p
    simp only [mapKeys, List.map_cons, List.nodup_cons] at hn
    by_cases hat : a = t
    · simp only [mapDelete, hat, if_true]
      exact ih hn.2
    · simp only [mapDelete, hat, if_false, mapKeys, List.map_cons, List.nodup_cons]
      refine ⟨fun hmem => hn.1 ?_, ih hn.2⟩
      obtain ⟨q, hq, hqa⟩ := List.mem_map.mp hmem
      exact List.mem_map.mpr ⟨q, ((mem_mapDelete m t q).mp hq).1, hqa⟩

/-- The shapes of `ExpEffect` keep the tokens distinct. -/
theorem expEffect_unique (db db1 : ExpectationDB) (sched sched1 : List String)
    (h : ExpEffect db sched db1 sched1) (hn : (mapKeys db.tokens).Nodup) :
    (mapKeys db1.tokens).Nodup := by
  rcases h.2.2 with h1 | ⟨t, e, hnone, h1⟩ | ⟨t, e, e1, hsome, _, h1⟩ | ⟨t, e, _, h1, _⟩
  · rw [h1]; exact hn
  · rw [h1]
    simp only [mapKeys, List.map_append, List.map_cons, List.map_nil]
    rw [List.nodup_append]
    refine ⟨hn, by simp, ?_⟩
    intro a ha hb
    have hat : a = t := by simpa using hb
    rw [hat] at ha
    exact (mapGet_eq_none_iff _ _).mp hnone ha
  · rw [h1, mapKeys_mapSet_some _ _ _ _ hsome]; exact hn
  · rw [h1]; exact mapKeys_mapDelete_nodup _ _ hn

/-- When a chunk is named before a request and not after it, the request released
the last token that named it, and an obsolete chunk is then scheduled for removal. -/
theorem expEffect_release (db db1 : ExpectationDB) (sched sched1 : List String)
    (h : ExpEffect db sched db1 sched1) (hn : (mapKeys db.tokens).Nodup) (id : String)
    (hobs : id ∈ db.obsolete) (hnamed : namedIn db.tokens id = true)
    (hnot : namedIn db1.tokens id = false) : id ∈ sched1 := by
  obtain ⟨p, hp, hid⟩ := (namedIn_iff _ _).mp hnamed
  have hnot' : ¬ ∃ q ∈ db1.tokens, id ∈ mapKeys q.2.processedChunks := by
    rw [← namedIn_iff, hnot]; simp
  rcases h.2.2 with h1 | ⟨t, e, _, h1⟩ | ⟨t, e, e1, hsome, hk, h1⟩ | ⟨t, e, hsome, h1, hsched⟩
  · rw [h1] at hnot'
    exact absurd ⟨p, hp, hid⟩ hnot'
  · rw [h1] at hnot'
    exact absurd ⟨p, List.mem_append_left _ hp, hid⟩ hnot'
  · rw [h1, namedIn_mapSet_same _ _ _ _ _ hsome hk, hnamed] at hnot
    cases hnot
  · rw [h1] at hnot'
    by_cases hpt : p.1 = t
    · have hget : mapGet db.tokens t = some p.2 := by
        apply mapGet_of_mem_nodup _ _ _ hn
        rw [← hpt]
        exact hp
      rw [hsome] at hget
      cases hget
      refine hsched id hid hobs ?_
      rw [← h1]
      exact hnot
    · exact absurd ⟨p, (mem_mapDelete _ _ _).mpr ⟨hp, hpt⟩, hid⟩ hnot'

/-! ## What each request does to the expectations and the scheduled removals -/

theorem expEffect_refl (db : ExpectationDB) (sched : List String) :
    ExpEffect db sched db sched :=
  ⟨fun _ h => h, fun _ h => Or.inl h, Or.inl rfl⟩

theorem namedIn_mapDelete (m : List (String × TokenExpectation)) (t x : String)
    (h : namedIn m x = false) : namedIn (mapDelete m t) x = false := by
  cases hn : namedIn (mapDelete m t) x with
  | false => rfl
  | true =>
    obtain ⟨p, hp, hx⟩ := (namedIn_iff _ _).mp hn
    have : namedIn m x = true := (namedIn_iff _ _).mpr ⟨p, ((mem_mapDelete _ _ _).mp hp).1, hx⟩
    rw [h] at this
    cases this

theorem fulfill_effect (s s1 : FileServer) (t id : String)
    (h : s.fulfillExpectation t id = some s1) :
    ExpEffect s.expectations s.scheduled s1.expectations s1.scheduled := by
  unfold FileServer.fulfillExpectation at h
  cases hl : s.expectations.Get t with
  | none => simp [hl] at h
  | some e =>
    have hl0 : mapGet s.expectations.tokens t = some e := hl
    simp only [hl] at h
    cases hc : mapGet e.processedChunks id with
    | none =>
      simp only [hc] at h
      cases h
      exact expEffect_refl _ _
    | some b =>
      simp only [hc] at h
      have hk : mapKeys (mapSet e.processedChunks id true) = mapKeys e.processedChunks :=
        mapKeys_mapSet_some _ _ _ _ hc
      split_ifs at h with hp
      · cases h
        simp only [ExpectationDB.Remove, ExpectationDB.Set, mapGet_mapSet, if_true,
          mapDelete_mapSet_self]
        refine ⟨fun _ hx => hx, ?_, Or.inr (Or.inr (Or.inr ⟨t, e, hl0, rfl, ?_⟩))⟩
        · intro x hx
          rcases List.mem_append.mp hx with hx | hx
          · exact Or.inl hx
          · right
            have h2 := (List.mem_filter.mp hx).2
            simp only [Bool.and_eq_true, Bool.not_eq_true'] at h2
            exact h2.2
        · intro x hx hobs hnot
          apply List.mem_append_right
          rw [List.mem_filter]
          refine ⟨by rw [hk]; exact hx, ?_⟩
          simp [hobs, hnot]
      · cases h
        exact ⟨fun _ hx => hx, fun _ hx => Or.inl hx,
          Or.inr (Or.inr (Or.inl ⟨t, e, _, hl0, hk, rfl⟩))⟩

theorem expect_effect (s s1 : FileServer) (t : String) (a : ExpectAction) (cs : List String)
    (h : s.Expect t a cs = .ok s1) :
    ExpEffect s.expectations s.scheduled s1.expectations s1.scheduled ∧
      s1.chunks = s.chunks := by
  rw [expect_eq] at h
  cases hl : s.look t with
  | some e => simp [hl] at h
  | none =>
    have hl0 : mapGet s.expectations.tokens t = none := hl
    simp only [hl] at h
    split_ifs at h
    injection h with h
    subst h
    refine ⟨⟨fun _ hx => hx, fun _ hx => Or.inl hx, Or.inr (Or.inl ⟨t, TokenExpectation.mk a (fillFalse cs []) (cs.length : Int), hl0, ?_⟩)⟩, rfl⟩
    exact mapSet_of_none _ _ _ hl0

theorem purge_effect (s : FileServer) (chunks : Option (List String)) :
    ExpEffect s.expectations s.scheduled (s.PurgeHandler chunks).2.expectations
      (s.PurgeHandler chunks).2.scheduled ∧ (s.PurgeHandler chunks).2.chunks = s.chunks := by
  cases chunks with
  | none => exact ⟨expEffect_refl _ _, rfl⟩
  | some ids =>
    refine ⟨⟨?_, ?_, Or.inl rfl⟩, rfl⟩
    · intro x hx
      exact (makeObsolete_obsolete _ _ _).mpr (Or.inl hx)
    · intro x hx
      simp only [FileServer.PurgeHandler] at hx
      rcases List.mem_append.mp hx with hx | hx
      · exact Or.inl hx
      · right
        simp only [ExpectationDB.MakeObsolete, List.mem_filter] at hx
        simpa [FileServer.PurgeHandler, ExpectationDB.MakeObsolete] using hx.2

theorem cancel_effect (s s1 : FileServer) (r : Response) (t : String)
    (h : s.CancelTokenHandler t = some (r, s1)) :
    ExpEffect s.expectations s.scheduled s1.expectations s1.scheduled ∧
      s1.chunks = s.chunks := by
  by_cases ht : t = ""
  · simp only [FileServer.CancelTokenHandler, ht, if_true] at h
    cases h
    exact ⟨expEffect_refl _ _, rfl⟩
  · cases hl : s.expectations.Get t with
    | none =>
      simp only [FileServer.CancelTokenHandler, if_neg ht, hl] at h
      cases h
      exact ⟨expEffect_refl _ _, rfl⟩
    | some e =>
      have hl0 : mapGet s.expectations.tokens t = some e := hl
      simp only [FileServer.CancelTokenHandler, if_neg ht, hl] at h
      split_ifs at h with hcap hw
      · cases h
        refine ⟨?_, rfl⟩
        simp only [ExpectationDB.Remove, ExpectationDB.Set, ExpectationDB.MakeObsolete,
          mapGet_mapSet, if_true, mapDelete_mapSet_self]
        refine ⟨?_, ?_, Or.inr (Or.inr (Or.inr ⟨t, e, hl0, rfl, ?_⟩))⟩
        · intro x hx
          exact (mem_addObsolete _ _ _).mpr (Or.inl hx)
        · intro x hx
          rcases List.mem_append.mp hx with hx | hx
          · exact Or.inl hx
          · right
            rcases List.mem_append.mp hx with hx | hx
            · apply namedIn_mapDelete
              simpa using (List.mem_filter.mp hx).2
            · have h2 := (List.mem_filter.mp hx).2
              simp only [Bool.and_eq_true, Bool.not_eq_true'] at h2
              exact h2.2
        · intro x hx hobs hnot
          apply List.mem_append_right
          apply List.mem_append_right
          rw [List.mem_filter]
          refine ⟨hx, ?_⟩
          have := (mem_addObsolete (toUndoOf e) s.expectations.obsolete x).mpr (Or.inl hobs)
          rw [Bool.and_eq_true]
          exact ⟨List.elem_eq_true_of_mem this, by rw [hnot]; rfl⟩
      · cases h
        refine ⟨?_, rfl⟩
        simp only [ExpectationDB.Remove, ExpectationDB.Set,
          mapGet_mapSet, if_true, mapDelete_mapSet_self]
        refine ⟨fun _ hx => hx, ?_, Or.inr (Or.inr (Or.inr ⟨t, e, hl0, rfl, ?_⟩))⟩
        · intro x hx
          rcases List.mem_append.mp hx with hx | hx
          · exact Or.inl hx
          · right
            rcases List.mem_append.mp hx with hx | hx
            · cases hx
            · have h2 := (List.mem_filter.mp hx).2
              simp only [Bool.and_eq_true, Bool.not_eq_true'] at h2
              exact h2.2
        · intro x hx hobs hnot
          apply List.mem_append_right
          apply List.mem_append_right
          rw [List.mem_filter]
          refine ⟨hx, ?_⟩
          simp [hobs, hnot]

theorem expect_ok_tokens (s s1 : FileServer) (t : String) (a : ExpectAction) (cs : List String)
    (h : s.Expect t a cs = .ok s1) :
    s1.expectations.tokens = mapSet s.expectations.tokens t
      (TokenExpectation.mk a (fillFalse cs []) (cs.length : Int)) := by
  rw [expect_eq] at h
  cases hl : s.look t with
  | some e => simp [hl] at h
  | none =>
    simp only [hl] at h
    split_ifs at h
    injection h with h
    subst h
    rfl

theorem fulfill_release_tokens (s s1 : FileServer) (t c : String) (e : TokenExpectation)
    (b : Bool) (h : s.expectations.Get t = some e) (hc : mapGet e.processedChunks c = some b)
    (hp : e.pendingCount = 1) (hf : s.fulfillExpectation t c = some s1) :
    s1.expectations.tokens = mapDelete s.expectations.tokens t := by
  unfold FileServer.fulfillExpectation at hf
  simp only [h, hc] at hf
  rw [if_pos (by simp [hp])] at hf
  cases hf
  simp [ExpectationDB.Remove, ExpectationDB.Set, mapGet_mapSet, mapDelete_mapSet_self]

/-- The loop of `ReplicateHandler` registers the token at most once: it leaves the
state as it was and defers nothing, or one `Expect` succeeded and one
`fulfillExpectation` is deferred. -/
theorem replicateLoop_shape (t destIP : String) (ids : List String) (run : ReplicateRun)
    (hd : run.deferred = []) :
    ((replicateLoop t destIP ids run).state = run.state ∧
      (replicateLoop t destIP ids run).deferred = []) ∨
    ∃ c, run.state.Expect t ExpectAction.Read [c] = .ok (replicateLoop t destIP ids run).state ∧
      (replicateLoop t destIP ids run).deferred = [c] := by
  induction ids with
  | nil => exact Or.inl ⟨rfl, hd⟩
  | cons id ids ih =>
    unfold replicateLoop
    cases hE : run.state.Expect t ExpectAction.Read [id] with
    | error e => exact ih
    | ok s1 =>
      obtain ⟨hlook, _⟩ := expect_ok_look _ s1 t t _ _ hE
      rw [if_pos rfl] at hlook
      right
      refine ⟨id, ?_⟩
      cases hg : s1.chunks.Get id with
      | none =>
        simp only [hg, hd]
        exact ⟨hE, trivial⟩
      | some content =>
        simp only [hg]
        rw [replicateLoop_registered t destIP _ ids
          (ReplicateRun.mk run.early s1 (id :: run.deferred)
            (run.posts ++ [("http://" ++ destIP ++ "/chunks/" ++ id ++ "?token=" ++ t, content)]))
          hlook]
        simp only [hd]
        exact ⟨hE, trivial⟩

theorem replicate_effect (s : FileServer) (t destIP : String) (chunks : Option (List String)) :
    ExpEffect s.expectations s.scheduled
      (s.step (Op.replicate t destIP chunks)).expectations
      (s.step (Op.replicate t destIP chunks)).scheduled ∧
    (s.step (Op.replicate t destIP chunks)).chunks = s.chunks ∧
    (s.step (Op.replicate t destIP chunks)).expectations.tokens = s.expectations.tokens := by
  cases chunks with
  | none => exact ⟨expEffect_refl _ _, rfl, rfl⟩
  | some ids =>
    simp only [FileServer.step, FileServer.ReplicateHandler]
    rcases replicateLoop_shape t destIP ids
      { early := none, state := s, deferred := [], posts := [] } rfl with ⟨h1, h2⟩ | ⟨c, h1, h2⟩
    · rw [h2, h1]
      exact ⟨expEffect_refl _ _, rfl, rfl⟩
    · rw [h2]
      simp only at h1
      generalize (replicateLoop t destIP ids
        { early := none, state := s, deferred := [], posts := [] }).state = s1 at h1
      obtain ⟨hlook, hch, _, hsched, hobs, hfree⟩ := expect_ok_look _ s1 t t _ _ h1
      rw [if_pos rfl] at hlook
      have htok := expect_ok_tokens _ _ _ _ _ h1
      simp only [runDeferred]
      cases hf : s1.fulfillExpectation t c with
      | none => exact ⟨expEffect_refl _ _, rfl, rfl⟩
      | some s2 =>
        have hf2 := fulfill_effect s1 s2 t c hf
        have hinv := fulfill_inv s1 s2 t c hf
        have ht2 := fulfill_release_tokens s1 s2 t c _ false hlook
          (by simp [mapGet_fillFalse, mapGet]) rfl hf
        have hfree0 : mapGet s.expectations.tokens t = none := hfree
        rw [htok, mapDelete_mapSet_self, mapDelete_of_none _ _ hfree0] at ht2
        simp only [Option.map_some', orStay]
        refine ⟨⟨?_, ?_, Or.inl ht2⟩, by rw [hinv.1, hch], ht2⟩
        · intro x hx
          rw [hinv.2.2.1, hobs]
          exact hx
        · intro x hx
          rcases hf2.2.1 x hx with h | h
          · left
            rw [← hsched]
            exact h
          · exact Or.inr h

theorem sendChunk_state (s s1 : FileServer) (r : Response) (id t : String)
    (h : s.SendChunk id t = some (r, s1)) : s1 = s ∨ s.fulfillExpectation t id = some s1 := by
  unfold FileServer.SendChunk at h
  split_ifs at h
  · cases h
    exact Or.inl rfl
  · right
    cases hf : s.fulfillExpectation t id with
    | none => cases hg : s.chunks.Get id <;> simp [hg, hf] at h
    | some s2 =>
      cases hg : s.chunks.Get id <;> simp [hg, hf] at h <;> rw [h.2]

theorem receiveChunk_state (s s1 : FileServer) (r : Response) (id t b : String)
    (h : s.ReceiveChunk id t b = some (r, s1)) :
    s1 = s ∨ s.fulfillExpectation t id = some s1 ∨
      ∃ store, s.chunks.Create id b = some store ∧
        FileServer.fulfillExpectation
          (FileServer.mk store s.expectations (s.nsConn ++ [id]) s.scheduled) t id = some s1 := by
  unfold FileServer.ReceiveChunk at h
  split_ifs at h
  · cases h
    exact Or.inl rfl
  · right
    cases hcr : s.chunks.Create id b with
    | none =>
      left
      simp only [hcr] at h
      cases hf : s.fulfillExpectation t id with
      | none => simp [hf] at h
      | some s2 =>
        simp [hf] at h
        rw [h.2]
    | some store =>
      right
      refine ⟨store, rfl, ?_⟩
      simp only [hcr] at h
      cases hf : FileServer.fulfillExpectation
          (FileServer.mk store s.expectations (s.nsConn ++ [id]) s.scheduled) t id with
      | none => simp [hf] at h
      | some s2 =>
        simp [hf] at h
        rw [h.2]

theorem expectHandler_effect (s : FileServer) (actionStr t : String)
    (chunks : Option (List String)) (mock : Bool) :
    ExpEffect s.expectations s.scheduled
      (s.ExpectHandler actionStr t chunks mock).2.expectations
      (s.ExpectHandler actionStr t chunks mock).2.scheduled ∧
    (s.ExpectHandler actionStr t chunks mock).2.chunks = s.chunks := by
  have key : ∀ (a : ExpectAction) (ids : List String) (s0 : FileServer),
      s0.expectations = s.expectations → s0.scheduled = s.scheduled → s0.chunks = s.chunks →
      ExpEffect s.expectations s.scheduled
        (match s0.Expect t a ids with
          | .error _ => (({ code := 403, body := "" } : Response), s0)
          | .ok s2 => ({ code := 200, body := "" }, s2)).2.expectations
        (match s0.Expect t a ids with
          | .error _ => (({ code := 403, body := "" } : Response), s0)
          | .ok s2 => ({ code := 200, body := "" }, s2)).2.scheduled ∧
      (match s0.Expect t a ids with
          | .error _ => (({ code := 403, body := "" } : Response), s0)
          | .ok s2 => ({ code := 200, body := "" }, s2)).2.chunks = s.chunks := by
    intro a ids s0 he hs hc
    cases hE : s0.Expect t a ids with
    | error e =>
      simp only [he, hs, hc]
      exact ⟨expEffect_refl _ _, trivial⟩
    | ok s2 =>
      have := expect_effect s0 s2 t a ids hE
      rw [he, hs, hc] at this
      exact this
  unfold FileServer.ExpectHandler
  cases strToExpectAction actionStr with
  | none => exact ⟨expEffect_refl _ _, rfl⟩
  | some a =>
    by_cases ht : t = ""
    · simp only [ht, if_true]
      exact ⟨expEffect_refl _ _, trivial⟩
    · simp only [ht, if_false]
      cases chunks with
      | none => exact ⟨expEffect_refl _ _, rfl⟩
      | some ids =>
        cases mock
        · exact key a ids s rfl rfl rfl
        · exact key a ids _ rfl rfl rfl

/-- Every request acts on the expectations and the scheduled removals as `ExpEffect`
describes. -/
theorem step_effect (s : FileServer) (op : Op) :
    ExpEffect s.expectations s.scheduled (s.step op).expectations (s.step op).scheduled := by
  cases op with
  | expect t a cs =>
    simp only [FileServer.step]
    cases hE : s.Expect t a cs with
    | error e => exact expEffect_refl _ _
    | ok s1 => exact (expect_effect s s1 t a cs hE).1
  | expectHandler a t cs mock => exact (expectHandler_effect s a t cs mock).1
  | get id t =>
    simp only [FileServer.step]
    cases h : s.SendChunk id t with
    | none => exact expEffect_refl _ _
    | some p =>
      obtain ⟨r, s1⟩ := p
      rcases sendChunk_state s s1 r id t h with h1 | h1
      · simp only [orStay, h1]
        exact expEffect_refl _ _
      · exact fulfill_effect s s1 t id h1
  | post id t b =>
    simp only [FileServer.step]
    cases h : s.ReceiveChunk id t b with
    | none => exact expEffect_refl _ _
    | some p =>
      obtain ⟨r, s1⟩ := p
      rcases receiveChunk_state s s1 r id t b h with h1 | h1 | ⟨store, _, h1⟩
      · simp only [orStay, h1]
        exact expEffect_refl _ _
      · exact fulfill_effect s s1 t id h1
      · have := fulfill_effect _ s1 t id h1
        exact this
  | cancel t =>
    simp only [FileServer.step]
    cases h : s.CancelTokenHandler t with
    | none => exact expEffect_refl _ _
    | some p =>
      obtain ⟨r, s1⟩ := p
      exact (cancel_effect s s1 r t h).1
  | purge cs => exact (purge_effect s cs).1
  | replicate t d cs => exact (replicate_effect s t d cs).1
  | runRemovals =>
    refine ⟨fun _ h => h, ?_, Or.inl rfl⟩
    intro x hx
    simp [FileServer.step, FileServer.runScheduled] at hx

/-- A chunk of the store whose removal is not scheduled is still in the store, with
the same content, after any request. -/
theorem step_chunk_kept (s : FileServer) (op : Op) (id v : String) (hs : id ∉ s.scheduled)
    (hv : s.chunks.Get id = some v) : (s.step op).chunks.Get id = some v := by
  cases op with
  | expect t a cs =>
    simp only [FileServer.step]
    cases hE : s.Expect t a cs with
    | error e => exact hv
    | ok s1 =>
      simp only
      rw [(expect_effect s s1 t a cs hE).2]
      exact hv
  | expectHandler a t cs mock =>
    simp only [FileServer.step]
    rw [(expectHandler_effect s a t cs mock).2]
    exact hv
  | get c t =>
    simp only [FileServer.step]
    cases h : s.SendChunk c t with
    | none => exact hv
    | some p =>
      obtain ⟨r, s1⟩ := p
      rcases sendChunk_state s s1 r c t h with h1 | h1
      · simp only [orStay, h1]
        exact hv
      · simp only [orStay]
        rw [(fulfill_inv s s1 t c h1).1]
        exact hv
  | post c t b =>
    simp only [FileServer.step]
    cases h : s.ReceiveChunk c t b with
    | none => exact hv
    | some p =>
      obtain ⟨r, s1⟩ := p
      rcases receiveChunk_state s s1 r c t b h with h1 | h1 | ⟨store, hcr, h1⟩
      · simp only [orStay, h1]
        exact hv
      · simp only [orStay]
        rw [(fulfill_inv s s1 t c h1).1]
        exact hv
      · simp only [orStay]
        rw [(fulfill_inv _ s1 t c h1).1]
        simp only [ChunkDB.Create] at hcr
        split_ifs at hcr with hex
        cases hcr
        have hne : ¬ c = id := by
          intro hci
          rw [hci] at hex
          apply hex
          simp [ChunkDB.Exists, show mapGet s.chunks.index id = some v from hv]
        simp only [ChunkDB.Get, mapGet_mapSet, hne, if_false]
        exact hv
  | cancel t =>
    simp only [FileServer.step]
    cases h : s.CancelTokenHandler t with
    | none => exact hv
    | some p =>
      obtain ⟨r, s1⟩ := p
      simp only [orStay]
      rw [(cancel_effect s s1 r t h).2]
      exact hv
  | purge cs =>
    simp only [FileServer.step]
    rw [(purge_effect s cs).2]
    exact hv
  | replicate t d cs =>
    rw [(replicate_effect s t d cs).2.1]
    exact hv
  | runRemovals =>
    simp only [FileServer.step, FileServer.runScheduled]
    rw [removeAll_get_of_not_mem _ _ _ hs]
    exact hv

/-! ## Purge: obsolete chunks and the tokens that name them -/

theorem step_tokensUnique (s : FileServer) (op : Op) (h : TokensUnique s) :
    TokensUnique (s.step op) :=
  expEffect_unique _ _ _ _ (step_effect s op) h

/-- The tokens of every state that is reached from a new server are distinct. -/
theorem run_tokensUnique (s : FileServer) (ops : List Op) (h : TokensUnique s) :
    TokensUnique (s.run ops) := by
  induction ops generalizing s with
  | nil => exact h
  | cons op ops ih =>
    simp only [FileServer.run, List.foldl_cons]
    exact ih (s.step op) (step_tokensUnique s op h)

theorem newFileServer_tokensUnique (store : ChunkDB) : TokensUnique (NewFileServer store) := by
  simp [TokensUnique, NewFileServer, NewExpectationDB, mapKeys]

/-- While an obsolete chunk stays named, request after request, its removal is not
scheduled and it keeps its content in the store. -/
theorem run_named_kept (s : FileServer) (id : String) (ops : List Op) (hu : TokensUnique s)
    (hobs : id ∈ s.expectations.obsolete) (hs : id ∉ s.scheduled)
    (hstay : s.staysNamed id ops = true) :
    TokensUnique (s.run ops) ∧ id ∈ (s.run ops).expectations.obsolete ∧
      id ∉ (s.run ops).scheduled ∧
      ∀ v, s.chunks.Get id = some v → (s.run ops).chunks.Get id = some v := by
  induction ops generalizing s with
  | nil => exact ⟨hu, hobs, hs, fun _ h => h⟩
  | cons op ops ih =>
    simp only [FileServer.staysNamed, Bool.and_eq_true] at hstay
    have he := step_effect s op
    have hs1 : id ∉ (s.step op).scheduled := by
      intro hmem
      rcases he.2.1 id hmem with h | h
      · exact hs h
      · rw [hstay.1] at h
        cases h
    obtain ⟨h1, h2, h3, h4⟩ := ih (s.step op) (step_tokensUnique s op hu) (he.1 id hobs) hs1
      hstay.2
    simp only [FileServer.run, List.foldl_cons]
    exact ⟨h1, h2, h3, fun v hv => h4 v (step_chunk_kept s op id v hs hv)⟩

/-- The request after which an obsolete chunk is named no more schedules its removal:
the chunk is gone once the scheduled removals have run. -/
theorem step_release_removed (s : FileServer) (op : Op) (id : String) (hu : TokensUnique s)
    (hobs : id ∈ s.expectations.obsolete) (hn : namedIn s.expectations.tokens id = true)
    (hnot : namedIn (s.step op).expectations.tokens id = false) :
    id ∈ (s.step op).scheduled ∧ (s.step op).runScheduled.chunks.Exists id = false := by
  have hmem := expEffect_release _ _ _ _ (step_effect s op) hu id hobs hn hnot
  refine ⟨hmem, ?_⟩
  have := removeAll_get_of_mem (s.step op).scheduled (s.step op).chunks id hmem
  simp only [FileServer.runScheduled, ChunkDB.Exists]
  simp only [ChunkDB.Get] at this
  rw [this]
  rfl

theorem staysNamed_last (s : FileServer) (id : String) (ops : List Op)
    (hn : namedIn s.expectations.tokens id = true) (hstay : s.staysNamed id ops = true) :
    namedIn (s.run ops).expectations.tokens id = true := by
  induction ops generalizing s with
  | nil => exact hn
  | cons op ops ih =>
    simp only [FileServer.staysNamed, Bool.and_eq_true] at hstay
    simp only [FileServer.run, List.foldl_cons]
    exact ih (s.step op) hstay.1 hstay.2

theorem purge_unnamed_removed (s : FileServer) (ids : List String) (id : String)
    (hid : id ∈ ids) (hn : namedIn s.expectations.tokens id = false) :
    (s.PurgeHandler (some ids)).2.runScheduled.chunks.Exists id = false := by
  have hmem : id ∈ (s.PurgeHandler (some ids)).2.scheduled := by
    simp only [FileServer.PurgeHandler, ExpectationDB.MakeObsolete]
    apply List.mem_append_right
    rw [List.mem_filter]
    exact ⟨hid, by rw [hn]; rfl⟩
  have := removeAll_get_of_mem _ (s.PurgeHandler (some ids)).2.chunks id hmem
  simp only [FileServer.runScheduled, ChunkDB.Exists]
  simp only [ChunkDB.Get] at this
  rw [this]
  rfl

theorem purge_named_state (s : FileServer) (ids : List String) (id : String)
    (hid : id ∈ ids) (hn : namedIn s.expectations.tokens id = true) (hs : id ∉ s.scheduled) :
    (s.PurgeHandler (some ids)).2.expectations.tokens = s.expectations.tokens ∧
      id ∈ (s.PurgeHandler (some ids)).2.expectations.obsolete ∧
      id ∉ (s.PurgeHandler (some ids)).2.scheduled ∧
      (s.PurgeHandler (some ids)).2.chunks = s.chunks := by
  refine ⟨rfl, (makeObsolete_obsolete _ _ _).mpr (Or.inr hid), ?_, rfl⟩
  intro hmem
  simp only [FileServer.PurgeHandler, ExpectationDB.MakeObsolete] at hmem
  rcases List.mem_append.mp hmem with h | h
  · exact hs h
  · have := (List.mem_filter.mp h).2
    rw [hn] at this
    cases this

/-! ## The counter of pending chunks, for chunk lists without a repeated id -/

theorem fillFalse_of_nodup (ids : List String) (acc : List (String × Bool))
    (hn : ids.Nodup) (hd : ∀ id ∈ ids, mapGet acc id = none) :
    fillFalse ids acc = acc ++ ids.map (fun id => (id, false)) := by
  induction ids generalizing acc with
  | nil => simp [fillFalse]
  | cons id ids ih =>
    have hn2 := List.nodup_cons.mp hn
    have h0 : mapGet acc id = none := hd id (List.mem_cons_self _ _)
    have h := ih (mapSet acc id false) hn2.2 (fun x hx => by
      rw [mapGet_mapSet]
      have hne : ¬ id = x := fun e => hn2.1 (by rw [e]; exact hx)
      simp only [hne, if_false]
      exact hd x (List.mem_cons_of_mem _ hx))
    simp only [fillFalse, List.foldl_cons] at h ⊢
    rw [h, mapSet_of_none _ _ _ h0]
    simp

theorem countPending_registered (a : ExpectAction) (cs : List String) (hn : cs.Nodup) :
    countPending (TokenExpectation.mk a (fillFalse cs []) (cs.length : Int)) = cs.length := by
  rw [countPending, fillFalse_of_nodup cs [] hn (fun _ _ => rfl)]
  simp [List.filter_map, Function.comp]

theorem countPending_mapSet (a a1 : ExpectAction) (pc : List (String × Bool)) (c : String)
    (n n1 : Int) (h : mapGet pc c = some false) :
    countPending (TokenExpectation.mk a1 (mapSet pc c true) n1) + 1
      = countPending (TokenExpectation.mk a pc n) := by
  simp only [countPending]
  induction pc with
  | nil => simp [mapGet] at h
  | cons p pc ih =>
    obtain ⟨k, b⟩ := p
    by_cases hk : k = c
    · simp only [mapGet, hk, if_true, Option.some.injEq] at h
      subst h
      simp [mapSet, hk, List.filter_cons]
    · simp only [mapGet, hk, if_false] at h
      have := ih h
      cases b <;> simp [mapSet, hk, List.filter_cons] <;> omega

theorem fulfill_count (s s1 : FileServer) (t c : String)
    (h : s.fulfillExpectation t c = some s1)
    (hg : grant (s.look t) c ≠ ExpectAction.Nothing) (hinv : CountInv s) : CountInv s1 := by
  unfold FileServer.fulfillExpectation at h
  cases hl : s.expectations.Get t with
  | none => simp [hl] at h
  | some e =>
    have hl0 : s.look t = some e := hl
    simp only [hl] at h
    rw [hl0] at hg
    cases hc : mapGet e.processedChunks c with
    | none => simp [grant, hc] at hg
    | some b =>
      cases b with
      | true => simp [grant, hc] at hg
      | false =>
        simp only [hc] at h
        have he := hinv t e hl0
        have hcount : countPending (TokenExpectation.mk e.action
            (mapSet e.processedChunks c true) (e.pendingCount - 1)) + 1 = countPending e :=
          countPending_mapSet e.action e.action e.processedChunks c
            e.pendingCount (e.pendingCount - 1) hc
        split_ifs at h with hp
        · cases h
          intro t2 e2 h2
          simp only [FileServer.look, ExpectationDB.Get, ExpectationDB.Remove,
            ExpectationDB.Set, mapGet_mapSet, if_true, mapDelete_mapSet_self,
            mapGet_mapDelete] at h2
          split_ifs at h2
          exact hinv t2 e2 h2
        · cases h
          intro t2 e2 h2
          simp only [FileServer.look, ExpectationDB.Get, ExpectationDB.Set,
            mapGet_mapSet] at h2
          split_ifs at h2 with htt
          · cases h2
            show e.pendingCount - 1 = ((countPending (TokenExpectation.mk e.action
              (mapSet e.processedChunks c true) (e.pendingCount - 1)) : Nat) : Int)
            omega
          · exact hinv t2 e2 h2

theorem expect_count (s s1 : FileServer) (t : String) (a : ExpectAction) (cs : List String)
    (h : s.Expect t a cs = .ok s1) (hn : cs.Nodup) (hinv : CountInv s) : CountInv s1 := by
  intro t2 e2 h2
  rw [(expect_ok_look s s1 t t2 a cs h).1] at h2
  split_ifs at h2
  · cases h2
    rw [countPending_registered a cs hn]
  · exact hinv t2 e2 h2

/-- The counter of pending chunks is right after every request, when no chunk list
that is registered names a chunk id twice. -/
theorem step_count (s : FileServer) (op : Op) (hd : op.distinctIds = true)
    (hinv : CountInv s) : CountInv (s.step op) := by
  cases op with
  | expect t a cs =>
    simp only [FileServer.step]
    cases hE : s.Expect t a cs with
    | error e => exact hinv
    | ok s1 => exact expect_count s s1 t a cs hE (by simpa [Op.distinctIds] using hd) hinv
  | expectHandler actionStr t chunks mock =>
    simp only [FileServer.step, FileServer.ExpectHandler]
    cases strToExpectAction actionStr with
    | none => exact hinv
    | some a =>
      by_cases ht : t = ""
      · simp only [ht, if_true]
        exact hinv
      · simp only [ht, if_false]
        cases chunks with
        | none => exact hinv
        | some ids =>
          have hn : ids.Nodup := by simpa [Op.distinctIds] using hd
          have key : ∀ s0 : FileServer, CountInv s0 →
              CountInv (match s0.Expect t a ids with
                | .error _ => (({ code := 403, body := "" } : Response), s0)
                | .ok s2 => ({ code := 200, body := "" }, s2)).2 := by
            intro s0 h0
            cases hE : s0.Expect t a ids with
            | error e => exact h0
            | ok s2 => exact expect_count s0 s2 t a ids hE hn h0
          cases mock
          · exact key s hinv
          · exact key _ hinv
  | get c t =>
    simp only [FileServer.step]
    cases h : s.SendChunk c t with
    | none => exact hinv
    | some p =>
      obtain ⟨r, s1⟩ := p
      by_cases hg : s.GetTokenExpectationForChunk t c = ExpectAction.Nothing
      · simp only [FileServer.SendChunk, hg, if_true] at h
        cases h
        exact hinv
      · rcases sendChunk_state s s1 r c t h with h1 | h1
        · simp only [orStay, h1]
          exact hinv
        · exact fulfill_count s s1 t c h1 (by rw [← getTok_eq_grant]; exact hg) hinv
  | post c t b =>
    simp only [FileServer.step]
    cases h : s.ReceiveChunk c t b with
    | none => exact hinv
    | some p =>
      obtain ⟨r, s1⟩ := p
      by_cases hg : s.GetTokenExpectationForChunk t c = ExpectAction.Nothing
      · simp only [FileServer.ReceiveChunk, hg, if_true] at h
        cases h
        exact hinv
      · have hg1 : grant (s.look t) c ≠ ExpectAction.Nothing := by
          rw [← getTok_eq_grant]; exact hg
        rcases receiveChunk_state s s1 r c t b h with h1 | h1 | ⟨store, _, h1⟩
        · simp only [orStay, h1]
          exact hinv
        · exact fulfill_count s s1 t c h1 hg1 hinv
        · exact fulfill_count _ s1 t c h1 hg1 hinv
  | cancel t =>
    simp only [FileServer.step]
    cases h : s.CancelTokenHandler t with
    | none => exact hinv
    | some p =>
      obtain ⟨r, s1⟩ := p
      simp only [orStay]
      by_cases ht : t = ""
      · simp only [FileServer.CancelTokenHandler, ht, if_true] at h
        cases h
        exact hinv
      · cases hl : s.look t with
        | none =>
          have h0 : s.expectations.Get t = none := hl
          simp only [FileServer.CancelTokenHandler, if_neg ht, h0] at h
          cases h
          exact hinv
        | some e =>
          have h0 : s.expectations.Get t = some e := hl
          by_cases hcap : (e.processedChunks.length : Int) - e.pendingCount < 0
          · simp [FileServer.CancelTokenHandler, if_neg ht, h0, hcap] at h
          · obtain ⟨s2, h2, _, _, hlook, _⟩ := cancel_registered s t e ht hl (by omega)
            rw [h2] at h
            cases h
            intro t2 e2 hlk
            rw [hlook t2] at hlk
            split_ifs at hlk
            exact hinv t2 e2 hlk
  | purge cs =>
    cases cs with
    | none => exact hinv
    | some ids => exact hinv
  | replicate t d cs =>
    intro t2 e2 h2
    have htok := (replicate_effect s t d cs).2.2
    simp only [FileServer.look, ExpectationDB.Get] at h2
    rw [htok] at h2
    exact hinv t2 e2 h2
  | runRemovals => exact hinv

/-- In every state reached from a new server by requests whose chunk lists name no
chunk id twice, the counter of each registered expectation is the number of its
pending chunks. -/
theorem run_count (s : FileServer) (ops : List Op) (hd : ∀ op ∈ ops, op.distinctIds = true)
    (hinv : CountInv s) : CountInv (s.run ops) := by
  induction ops generalizing s with
  | nil => exact hinv
  | cons op ops ih =>
    simp only [FileServer.run, List.foldl_cons]
    exact ih (s.step op) (fun o ho => hd o (List.mem_cons_of_mem _ ho))
      (step_count s op (hd op (List.mem_cons_self _ _)) hinv)

theorem newFileServer_count (store : ChunkDB) : CountInv (NewFileServer store) := by
  intro t e h
  simp [FileServer.look, NewFileServer, NewExpectationDB, ExpectationDB.Get, mapGet] at h

/-! ## Refused requests, and cancellation without a panic -/

/-- The result of `fulfillExpectation` on a listed chunk of a registered token whose
counter is not 1: the chunk is marked and the counter is one lower. -/
theorem fulfill_advances (s : FileServer) (t c : String) (e : TokenExpectation) (b : Bool)
    (h : s.look t = some e) (hc : mapGet e.processedChunks c = some b)
    (hp : e.pendingCount ≠ 1) :
    ∃ s1, s.fulfillExpectation t c = some s1 ∧
      s1.look t = some (TokenExpectation.mk e.action (mapSet e.processedChunks c true)
        (e.pendingCount - 1)) ∧
      s1.chunks = s.chunks ∧ s1.nsConn = s.nsConn ∧ s1.scheduled = s.scheduled := by
  have h0 : s.expectations.Get t = some e := h
  have hne : ¬ e.pendingCount - 1 = 0 := by omega
  unfold FileServer.fulfillExpectation
  simp only [h0, hc, hne, if_false]
  refine ⟨_, rfl, ?_, rfl, rfl, rfl⟩
  simp [FileServer.look, get_set]

/-- A POST that passes the check on a chunk of the store is answered 403 and runs the
deferred `fulfillExpectation`: the store and the notifications are as before, the
chunk is consumed, and the token is released when its counter was 1 and has its
counter lowered by one otherwise. -/
theorem receiveChunk_refused_advances (s : FileServer) (c t body : String)
    (hauth : s.GetTokenExpectationForChunk t c ≠ ExpectAction.Nothing)
    (hex : s.chunks.Exists c = true) :
    ∃ e s1, s.look t = some e ∧
      s.ReceiveChunk c t body = some ({ code := 403, body := "" }, s1) ∧
      s1.chunks = s.chunks ∧ s1.nsConn = s.nsConn ∧
      s1.GetTokenExpectationForChunk t c = ExpectAction.Nothing ∧
      (e.pendingCount = 1 → s1.look t = none) ∧
      (e.pendingCount ≠ 1 → s1.look t = some (TokenExpectation.mk e.action
        (mapSet e.processedChunks c true) (e.pendingCount - 1))) := by
  have hg : grant (s.look t) c ≠ ExpectAction.Nothing := by
    rw [← getTok_eq_grant]; exact hauth
  obtain ⟨e, he⟩ := grant_ne_nothing hg
  have hc : mapGet e.processedChunks c = some false := by
    rw [he] at hg
    cases hm : mapGet e.processedChunks c with
    | none => simp [grant, hm] at hg
    | some b =>
      cases b with
      | true => simp [grant, hm] at hg
      | false => rfl
  rcases receiveChunk_granted s c t body hauth with ⟨_, s1, hf, hS⟩ | ⟨hne, _⟩
  · obtain ⟨hchunks, hns, _, _, _, hgr⟩ := fulfill_inv s s1 t c hf
    refine ⟨e, s1, he, hS, hchunks, hns, by rw [getTok_eq_grant]; exact hgr, ?_, ?_⟩
    · intro hp
      obtain ⟨s2, hf2, hnone, _⟩ := fulfill_releases s t c e false he hc hp
      rw [hf2] at hf
      cases hf
      exact hnone
    · intro hp
      obtain ⟨s2, hf2, hlook, _⟩ := fulfill_advances s t c e false he hc hp
      rw [hf2] at hf
      cases hf
      exact hlook
  · rw [hex] at hne
    cases hne

/-- The capacity that `CancelTokenHandler` passes to `make` is not negative when the
counter of the expectation is the number of its pending chunks, and the handler then
answers 200. -/
theorem cancel_completes_of_count (s : FileServer) (t : String) (hinv : CountInv s) :
    ∃ r s1, s.CancelTokenHandler t = some (r, s1) := by
  by_cases ht : t = ""
  · exact ⟨{ code := 400, body := "" }, s, by simp [FileServer.CancelTokenHandler, ht]⟩
  · cases hl : s.look t with
    | none =>
      have h0 : s.expectations.Get t = none := hl
      exact ⟨{ code := 200, body := "" }, s,
        by simp [FileServer.CancelTokenHandler, ht, h0]⟩
    | some e =>
      have hcap : 0 ≤ (e.processedChunks.length : Int) - e.pendingCount := by
        rw [hinv t e hl]
        have : countPending e ≤ e.processedChunks.length := List.length_filter_le _ _
        omega
      obtain ⟨s1, h1, _⟩ := cancel_registered s t e ht hl hcap
      exact ⟨_, s1, h1⟩


/-! ## The liveness ring: the effect of one status change on the links -/

/-- A node becomes live: the links written by `setNewAlive(id, id - 1)` point at
`id`, and all links are right again. -/
theorem ring_step_live (alive alive1 : Nat → Bool) (na na1 : Nat → Nat) (n id cur : Nat)
    (hid : id < n)
    (hold : (∃ k, k < n ∧ alive k = true) → ∀ i, i < n → FirstAliveAfter alive n i (na i))
    (h1id : alive1 id = true) (h1ne : ∀ k, k ≠ id → alive1 k = alive k)
    (hcur : cur = if id = 0 then n - 1 else id - 1)
    (hq : ∀ j, j < n → (Qwalk alive1 n cur j → na1 j = id) ∧
      (¬ Qwalk alive1 n cur j → na1 j = na j)) :
    ∀ i, i < n → FirstAliveAfter alive1 n i (na1 i) := by
  intro i hi
  by_cases hQ : Qwalk alive1 n cur i
  · rw [(hq i hi).1 hQ]
    rcases hQ with ⟨hle, hdead⟩ | ⟨hnone, hne, hle, hdead⟩
    · by_cases h0 : id = 0
      · rw [if_pos h0] at hcur
        exact ⟨hid, h1id, Or.inr ⟨by omega, fun k hk1 hk2 => hdead k hk1 (by omega),
          fun k hk => by omega⟩⟩
      · rw [if_neg h0] at hcur
        exact ⟨hid, h1id, Or.inl ⟨by omega, fun k hk1 hk2 => hdead k hk1 (by omega)⟩⟩
    · have h0 : id ≠ 0 := by
        intro h0
        rw [if_pos h0] at hcur
        exact hne hcur
      rw [if_neg h0] at hcur
      have hge : id ≤ i := by
        by_contra hlt
        have := hdead id (by omega) (by omega)
        rw [h1id] at this
        cases this
      exact ⟨hid, h1id, Or.inr ⟨hge, fun k hk1 hk2 => hdead k hk1 (by omega),
        fun k hk => hnone k (by omega)⟩⟩
  · rw [(hq i hi).2 hQ]
    by_cases hex : ∃ k, k < n ∧ alive k = true
    · obtain ⟨hm, hma, hrange⟩ := hold hex i hi
      have hma1 : alive1 (na i) = true := by
        by_cases hmid : na i = id
        · rw [hmid]; exact h1id
        · rw [h1ne _ hmid]; exact hma
      refine ⟨hm, hma1, ?_⟩
      rcases hrange with ⟨him, hd⟩ | ⟨hmi, hd1, hd2⟩
      · by_cases hin : i < id ∧ id < na i
        · exfalso
          apply hQ
          left
          have h0 : id ≠ 0 := by omega
          rw [if_neg h0] at hcur
          refine ⟨by omega, fun k hk1 hk2 => ?_⟩
          rw [h1ne k (by omega)]
          exact hd k hk1 (by omega)
        · left
          refine ⟨him, fun k hk1 hk2 => ?_⟩
          rw [h1ne k (by omega)]
          exact hd k hk1 hk2
      · by_cases hin1 : i < id
        · exfalso
          apply hQ
          left
          have h0 : id ≠ 0 := by omega
          rw [if_neg h0] at hcur
          refine ⟨by omega, fun k hk1 hk2 => ?_⟩
          rw [h1ne k (by omega)]
          exact hd1 k hk1 (by omega)
        · by_cases hin2 : id < na i
          · exfalso
            apply hQ
            by_cases h0 : id = 0
            · rw [if_pos h0] at hcur
              left
              refine ⟨by omega, fun k hk1 hk2 => ?_⟩
              rw [h1ne k (by omega)]
              exact hd1 k hk1 (by omega)
            · rw [if_neg h0] at hcur
              right
              refine ⟨fun k hk => ?_, by omega, by omega, fun k hk1 hk2 => ?_⟩
              · rw [h1ne k (by omega)]
                exact hd2 k (by omega)
              · rw [h1ne k (by omega)]
                exact hd1 k hk1 (by omega)
          · right
            refine ⟨hmi, fun k hk1 hk2 => ?_, fun k hk => ?_⟩
            · rw [h1ne k (by omega)]
              exact hd1 k hk1 hk2
            · rw [h1ne k (by omega)]
              exact hd2 k hk
    · exfalso
      apply hQ
      have hall : ∀ k, k < n → alive k = false := by
        intro k hk
        cases hb : alive k with
        | false => rfl
        | true => exact absurd ⟨k, hk, hb⟩ hex
      by_cases h0 : id = 0
      · rw [if_pos h0] at hcur
        left
        refine ⟨by omega, fun k hk1 hk2 => ?_⟩
        rw [h1ne k (by omega)]
        exact hall k (by omega)
      · rw [if_neg h0] at hcur
        by_cases hlt : i < id
        · left
          refine ⟨by omega, fun k hk1 hk2 => ?_⟩
          rw [h1ne k (by omega)]
          exact hall k (by omega)
        · right
          refine ⟨fun k hk => ?_, by omega, by omega, fun k hk1 hk2 => ?_⟩
          · rw [h1ne k (by omega)]
            exact hall k (by omega)
          · rw [h1ne k (by omega)]
            exact hall k (by omega)

/-- A node becomes dead: the links written by `setNewAlive(NextAlive, id)` point at
the successor of the dead node, and all links are right again when a live node is
left. -/
theorem ring_step_dead (alive alive1 : Nat → Bool) (na na1 : Nat → Nat) (n id : Nat)
    (hid : id < n)
    (hold : (∃ k, k < n ∧ alive k = true) → ∀ i, i < n → FirstAliveAfter alive n i (na i))
    (h1id : alive1 id = false) (h1ne : ∀ k, k ≠ id → alive1 k = alive k)
    (hq : ∀ j, j < n → (Qwalk alive1 n id j → na1 j = na id) ∧
      (¬ Qwalk alive1 n id j → na1 j = na j))
    (hex : ∃ k, k < n ∧ alive1 k = true) :
    ∀ i, i < n → FirstAliveAfter alive1 n i (na1 i) := by
  obtain ⟨k0, hk0, hk0a⟩ := hex
  have hk0id : k0 ≠ id := by
    intro h
    rw [h, h1id] at hk0a
    cases hk0a
  have hk0old : alive k0 = true := by rw [← h1ne k0 hk0id]; exact hk0a
  have hinv := hold ⟨k0, hk0, hk0old⟩
  have hdead1 : ∀ k, alive k = false → alive1 k = false := by
    intro k hk
    by_cases hkid : k = id
    · rw [hkid]; exact h1id
    · rw [h1ne k hkid]; exact hk
  obtain ⟨hv, hva, hvr⟩ := hinv id hid
  have hvid : na id ≠ id := by
    intro heq
    rw [heq] at hvr
    rcases hvr with ⟨h, _⟩ | ⟨_, hd1, hd2⟩
    · omega
    · have : alive k0 = false := by
        rcases Nat.lt_or_gt_of_ne hk0id with h | h
        · exact hd2 k0 h
        · exact hd1 k0 h hk0
      rw [hk0old] at this
      cases this
  have hva1 : alive1 (na id) = true := by rw [h1ne _ hvid]; exact hva
  intro i hi
  by_cases hQ : Qwalk alive1 n id i
  · rw [(hq i hi).1 hQ]
    refine ⟨hv, hva1, ?_⟩
    rcases hQ with ⟨hle, hdead⟩ | ⟨hnone, hne, hle, hdead⟩
    · rcases hvr with ⟨hidv, hd⟩ | ⟨hvle, hd1, hd2⟩
      · left
        refine ⟨by omega, fun k hk1 hk2 => ?_⟩
        by_cases hkid : k ≤ id
        · exact hdead k hk1 hkid
        · exact hdead1 k (hd k (by omega) hk2)
      · right
        have hvi : na id ≤ i := by
          by_contra hlt
          have := hdead (na id) (by omega) (by omega)
          rw [hva1] at this
          cases this
        refine ⟨hvi, fun k hk1 hk2 => ?_, fun k hk => hdead1 k (hd2 k hk)⟩
        by_cases hkid : k ≤ id
        · exact hdead k hk1 hkid
        · exact hdead1 k (hd1 k (by omega) hk2)
    · have hvgt : id < na id := by
        by_contra hlt
        have := hnone (na id) (by omega)
        rw [hva1] at this
        cases this
      have hvi : na id ≤ i := by
        by_contra hlt
        have := hdead (na id) (by omega) (by omega)
        rw [hva1] at this
        cases this
      rcases hvr with ⟨_, hd⟩ | ⟨hvle, _, _⟩
      · right
        refine ⟨hvi, fun k hk1 hk2 => hdead k hk1 (by omega), fun k hk => ?_⟩
        by_cases hkid : k ≤ id
        · exact hnone k hkid
        · exact hdead1 k (hd k (by omega) hk)
      · omega
  · rw [(hq i hi).2 hQ]
    obtain ⟨hm, hma, hrange⟩ := hinv i hi
    have hmid : na i ≠ id := by
      intro heq
      apply hQ
      rw [heq] at hrange
      rcases hrange with ⟨hlt, hd⟩ | ⟨hle, hd1, hd2⟩
      · left
        refine ⟨by omega, fun k hk1 hk2 => ?_⟩
        by_cases hkid : k = id
        · rw [hkid]; exact h1id
        · exact hdead1 k (hd k hk1 (by omega))
      · by_cases hii : i = id
        · left
          exact ⟨by omega, fun k hk1 hk2 => by omega⟩
        · right
          refine ⟨fun k hk => ?_, by omega, by omega, fun k hk1 hk2 => ?_⟩
          · by_cases hkid : k = id
            · rw [hkid]; exact h1id
            · exact hdead1 k (hd2 k (by omega))
          · exact hdead1 k (hd1 k hk1 (by omega))
    refine ⟨hm, by rw [h1ne _ hmid]; exact hma, ?_⟩
    rcases hrange with ⟨hlt, hd⟩ | ⟨hle, hd1, hd2⟩
    · exact Or.inl ⟨hlt, fun k hk1 hk2 => hdead1 k (hd k hk1 hk2)⟩
    · exact Or.inr ⟨hle, fun k hk1 hk2 => hdead1 k (hd1 k hk1 hk2),
        fun k hk => hdead1 k (hd2 k hk)⟩

/-! ## The loops of `setNewAlive` on the node list -/

theorem aliveL_set_next (nodes : List FileServerInfo) (i v : Nat) (nd : FileServerInfo)
    (h : nodes[i]? = some nd) (k : Nat) :
    aliveL (nodes.set i (nd.relink v)) k = aliveL nodes k := by
  unfold aliveL
  rw [List.getElem?_set]
  by_cases hik : i = k
  · subst hik
    have hlt : i < nodes.length := by
      rcases List.getElem?_eq_some.mp h with ⟨hlt, _⟩
      exact hlt
    simp [hlt, h, FileServerInfo.relink]
  · simp [hik]

theorem Relinked.aliveL_eq {P : Nat → Prop} {v : Nat} {nodes nodes1 : List FileServerInfo}
    (h : Relinked P v nodes nodes1) (k : Nat) : aliveL nodes1 k = aliveL nodes k := by
  unfold aliveL
  cases hk : nodes[k]? with
  | none =>
    have : nodes.length ≤ k := by
      by_contra hlt
      rw [List.getElem?_eq_getElem (by omega)] at hk
      cases hk
    rw [List.getElem?_eq_none (by rw [h.1]; exact this)]
  | some nd =>
    by_cases hP : P k
    · rw [(h.2 k nd hk).1 hP]
      rfl
    · rw [(h.2 k nd hk).2 hP]

theorem setNewAliveLoop_spec (v : Nat) (cur : Nat) (nodes : List FileServerInfo)
    (hcur : cur < nodes.length) :
    ∃ nodes1 b, setNewAliveLoop v cur nodes = some (nodes1, b) ∧
      Relinked (Pwalk (aliveL nodes) cur) v nodes nodes1 ∧
      (b = true ↔ ∃ k, k ≤ cur ∧ aliveL nodes k = true) := by
  induction cur generalizing nodes with
  | zero =>
    have hsome : nodes[0]? = some nodes[0] := List.getElem?_eq_getElem hcur
    have hrun : setNewAliveLoop v 0 nodes
        = some (nodes.set 0 (nodes[0].relink v), nodes[0].Alive) := by
      simp only [setNewAliveLoop, hsome]
    refine ⟨_, _, hrun, ⟨by simp, ?_⟩, ?_⟩
    · intro j nd hj
      by_cases hj0 : j = 0
      · subst hj0
        rw [hsome] at hj
        cases hj
        refine ⟨fun _ => by simp [hcur], fun hP => absurd ⟨le_refl 0, fun k hk1 hk2 => by omega⟩ hP⟩
      · refine ⟨fun hP => by have := hP.1; omega, fun _ => ?_⟩
        rw [List.getElem?_set_ne (fun e => hj0 e.symm)]
        exact hj
    · constructor
      · intro hb
        exact ⟨0, le_refl 0, by simp [aliveL, hsome, hb]⟩
      · rintro ⟨k, hk, hka⟩
        have : k = 0 := by omega
        subst this
        simpa [aliveL, hsome] using hka
  | succ i ih =>
    have hsome : nodes[i + 1]? = some nodes[i + 1] := List.getElem?_eq_getElem hcur
    by_cases hal : nodes[i + 1].Alive = true
    · have hrun : setNewAliveLoop v (i + 1) nodes
          = some (nodes.set (i + 1) (nodes[i + 1].relink v), true) := by
        simp only [setNewAliveLoop, hsome, hal, if_true]
      refine ⟨_, _, hrun, ⟨by simp, ?_⟩, ?_⟩
      · intro j nd hj
        by_cases hj0 : j = i + 1
        · subst hj0
          rw [hsome] at hj
          cases hj
          refine ⟨fun _ => by simp [hcur], fun hP => absurd ⟨le_refl _, fun k hk1 hk2 => by omega⟩ hP⟩
        · refine ⟨fun hP => ?_, fun _ => ?_⟩
          · exfalso
            have hlt : j < i + 1 := by have := hP.1; omega
            have := hP.2 (i + 1) hlt (le_refl _)
            simp [aliveL, hsome, hal] at this
          · rw [List.getElem?_set_ne (fun e => hj0 e.symm)]
            exact hj
      · exact ⟨fun _ => ⟨i + 1, le_refl _, by simp [aliveL, hsome, hal]⟩, fun _ => rfl⟩
    · have hdead : aliveL nodes (i + 1) = false := by
        simp [aliveL, hsome, hal]
      have hlen : i < (nodes.set (i + 1) (nodes[i + 1].relink v)).length := by
        simp; omega
      obtain ⟨nodes1, b, hrun, hrel, hb⟩ := ih _ hlen
      have hal' : ∀ k, aliveL (nodes.set (i + 1) (nodes[i + 1].relink v)) k
          = aliveL nodes k := aliveL_set_next nodes (i + 1) v _ hsome
      refine ⟨nodes1, b, ?_, ⟨?_, ?_⟩, ?_⟩
      · simp only [setNewAliveLoop, hsome, hal, Bool.false_eq_true, if_false]
        exact hrun
      · rw [hrel.1]; simp
      · intro j nd hj
        by_cases hj0 : j = i + 1
        · subst hj0
          rw [hsome] at hj
          cases hj
          have hset : (nodes.set (i + 1) (nodes[i + 1].relink v))[i + 1]?
              = some (nodes[i + 1].relink v) := by simp [hcur]
          have hnP : ¬ Pwalk (aliveL (nodes.set (i + 1) (nodes[i + 1].relink v)))
              i (i + 1) := fun hP => by have := hP.1; omega
          refine ⟨fun _ => (hrel.2 _ _ hset).2 hnP,
            fun hP => absurd ⟨le_refl _, fun k hk1 hk2 => by omega⟩ hP⟩
        · have hset : (nodes.set (i + 1) (nodes[i + 1].relink v))[j]? = some nd := by
            rw [List.getElem?_set_ne (fun e => hj0 e.symm)]
            exact hj
          have hiff : Pwalk (aliveL nodes) (i + 1) j ↔
              Pwalk (aliveL (nodes.set (i + 1) (nodes[i + 1].relink v))) i j := by
            constructor
            · intro hP
              refine ⟨by have := hP.1; omega, fun k hk1 hk2 => ?_⟩
              rw [hal']
              exact hP.2 k hk1 (by omega)
            · intro hP
              refine ⟨by have := hP.1; omega, fun k hk1 hk2 => ?_⟩
              by_cases hk : k = i + 1
              · rw [hk]; exact hdead
              · rw [← hal']
                exact hP.2 k hk1 (by omega)
          exact ⟨fun hP => (hrel.2 _ _ hset).1 (hiff.mp hP),
            fun hP => (hrel.2 _ _ hset).2 (fun h => hP (hiff.mpr h))⟩
      · rw [hb]
        constructor
        · rintro ⟨k, hk, hka⟩
          exact ⟨k, by omega, by rw [← hal']; exact hka⟩
        · rintro ⟨k, hk, hka⟩
          have hk' : k ≠ i + 1 := by
            intro e
            rw [e, hdead] at hka
            cases hka
          exact ⟨k, by omega, by rw [hal']; exact hka⟩

theorem Relinked.nextL_eq {P : Nat → Prop} {v : Nat} {nodes nodes1 : List FileServerInfo}
    (h : Relinked P v nodes nodes1) (j : Nat) (hj : j < nodes.length) :
    (P j → nextL nodes1 j = v) ∧ (¬ P j → nextL nodes1 j = nextL nodes j) := by
  have hsome : nodes[j]? = some nodes[j] := List.getElem?_eq_getElem hj
  constructor
  · intro hP
    simp only [nextL, (h.2 j _ hsome).1 hP]
    rfl
  · intro hP
    simp only [nextL, (h.2 j _ hsome).2 hP, hsome]

theorem Relinked.id_eq {P : Nat → Prop} {v : Nat} {nodes nodes1 : List FileServerInfo}
    (h : Relinked P v nodes nodes1)
    (hid : ∀ (j : Nat) (nd : FileServerInfo), nodes[j]? = some nd → nd.ID = j) :
    ∀ (j : Nat) (nd : FileServerInfo), nodes1[j]? = some nd → nd.ID = j := by
  intro j nd hj
  have hlt : j < nodes.length := by
    rw [← h.1]
    exact (List.getElem?_eq_some.mp hj).1
  have hsome : nodes[j]? = some nodes[j] := List.getElem?_eq_getElem hlt
  have hold := hid j _ hsome
  by_cases hP : P j
  · rw [(h.2 j _ hsome).1 hP] at hj
    cases hj
    exact hold
  · rw [(h.2 j _ hsome).2 hP] at hj
    cases hj
    exact hold

/-- The method `setNewAlive` returns for an index in range, and writes `NextAlive`
at the indices of `Qwalk` and nothing else. -/
theorem setNewAlive_spec (s : PoolInfo) (v cur : Nat) (hcur : cur < s.StorageNodes.length) :
    ∃ s1, s.setNewAlive v cur = some s1 ∧ s1.Next = s.Next ∧ s1.Alive = s.Alive ∧
      Relinked (Qwalk (aliveL s.StorageNodes) s.StorageNodes.length cur) v
        s.StorageNodes s1.StorageNodes := by
  obtain ⟨nodes1, b, hrun, hrel, hb⟩ := setNewAliveLoop_spec v cur s.StorageNodes hcur
  have hPQ : (b = true ∨ cur = s.StorageNodes.length - 1) → ∀ j,
      (Qwalk (aliveL s.StorageNodes) s.StorageNodes.length cur j ↔
        Pwalk (aliveL s.StorageNodes) cur j) := by
    intro hor j
    constructor
    · rintro (h | ⟨hnone, hne, _⟩)
      · exact h
      · rcases hor with hbt | hc
        · obtain ⟨k, hk, hka⟩ := hb.mp hbt
          rw [hnone k hk] at hka
          cases hka
        · exact absurd hc hne
    · exact Or.inl
  have hsame : (b = true ∨ cur = s.StorageNodes.length - 1) →
      Relinked (Qwalk (aliveL s.StorageNodes) s.StorageNodes.length cur) v
        s.StorageNodes nodes1 := by
    intro hor
    refine ⟨hrel.1, fun j nd hj => ?_⟩
    exact ⟨fun hQ => (hrel.2 j nd hj).1 ((hPQ hor j).mp hQ),
      fun hQ => (hrel.2 j nd hj).2 (fun h => hQ ((hPQ hor j).mpr h))⟩
  cases hbv : b with
  | true =>
    refine ⟨{ s with StorageNodes := nodes1 }, ?_, rfl, rfl, hsame (Or.inl hbv)⟩
    simp [PoolInfo.setNewAlive, setNewAliveFuel, hrun, hbv]
  | false =>
    by_cases hc : cur = s.StorageNodes.length - 1
    · refine ⟨{ s with StorageNodes := nodes1 }, ?_, rfl, rfl, hsame (Or.inr hc)⟩
      rw [PoolInfo.setNewAlive, setNewAliveFuel, hrun]
      simp [hbv, hc]
    · have hlast : s.StorageNodes.length - 1 < nodes1.length := by
        rw [hrel.1]; omega
      obtain ⟨nodes2, b2, hrun2, hrel2, _⟩ :=
        setNewAliveLoop_spec v (s.StorageNodes.length - 1) nodes1 hlast
      refine ⟨{ s with StorageNodes := nodes2 }, ?_, rfl, rfl, ?_⟩
      · simp only [PoolInfo.setNewAlive, setNewAliveFuel, hrun, hbv, Bool.not_false, if_true,
          ne_eq, hc, not_false_eq_true, hrun2, hrel.1, not_true_eq_false, if_false]
        cases b2 <;> rfl
      · have hnone : ∀ k, k ≤ cur → aliveL s.StorageNodes k = false := by
          intro k hk
          cases hka : aliveL s.StorageNodes k with
          | false => rfl
          | true =>
            have := hb.mpr ⟨k, hk, hka⟩
            rw [hbv] at this
            cases this
        have hal : ∀ k, aliveL nodes1 k = aliveL s.StorageNodes k := hrel.aliveL_eq
        have hP2 : ∀ j, Pwalk (aliveL nodes1) (s.StorageNodes.length - 1) j ↔
            Pwalk (aliveL s.StorageNodes) (s.StorageNodes.length - 1) j := by
          intro j
          constructor
          · intro h
            exact ⟨h.1, fun k hk1 hk2 => by rw [← hal]; exact h.2 k hk1 hk2⟩
          · intro h
            exact ⟨h.1, fun k hk1 hk2 => by rw [hal]; exact h.2 k hk1 hk2⟩
        refine ⟨by rw [hrel2.1, hrel.1], fun j nd hj => ?_⟩
        by_cases hP1 : Pwalk (aliveL s.StorageNodes) cur j
        · have h1 := (hrel.2 j nd hj).1 hP1
          refine ⟨fun _ => ?_, fun hQ => absurd (Or.inl hP1) hQ⟩
          by_cases hP : Pwalk (aliveL nodes1) (s.StorageNodes.length - 1) j
          · rw [(hrel2.2 j _ h1).1 hP]
            rfl
          · exact (hrel2.2 j _ h1).2 hP
        · have h1 := (hrel.2 j nd hj).2 hP1
          constructor
          · rintro (h | ⟨_, _, h⟩)
            · exact absurd h hP1
            · exact (hrel2.2 j _ h1).1 ((hP2 j).mpr h)
          · intro hQ
            refine (hrel2.2 j _ h1).2 (fun h => hQ (Or.inr ⟨hnone, hc, (hP2 j).mp h⟩))

/-- Two levels of recursion are all that `setNewAlive` uses: more fuel gives the
same result. -/
theorem setNewAliveFuel_stable (fuel : Nat) (s : PoolInfo) (v cur : Nat)
    (hcur : cur < s.StorageNodes.length) :
    setNewAliveFuel (fuel + 2) s v cur = s.setNewAlive v cur := by
  obtain ⟨nodes1, b, hrun, hrel, _⟩ := setNewAliveLoop_spec v cur s.StorageNodes hcur
  have hlast : s.StorageNodes.length - 1 < nodes1.length := by rw [hrel.1]; omega
  obtain ⟨nodes2, b2, hrun2, _, _⟩ :=
    setNewAliveLoop_spec v (s.StorageNodes.length - 1) nodes1 hlast
  simp only [PoolInfo.setNewAlive, setNewAliveFuel, hrun]
  cases b with
  | true => rfl
  | false =>
    by_cases hc : cur = s.StorageNodes.length - 1
    · simp [hc]
    · simp [hc, hrun2, hrel.1]

/-- The index `((id - 1) % num + num) % num` of `ChangeStatus` is the cyclic
predecessor of `id`. -/
theorem changeStatus_index (n id : Nat) (hid : id < n) :
    Int.toNat (Int.tmod (Int.tmod ((id : Int) - 1) (n : Int) + (n : Int)) (n : Int))
      = if id = 0 then n - 1 else id - 1 := by
  by_cases h0 : id = 0
  · subst h0
    simp only [if_true]
    by_cases h1 : n = 1
    · subst h1
      simp
    · have hneg : Int.tmod ((0 : Nat) - 1 : Int) (n : Int) = -(((1 % n : Nat)) : Int) := rfl
      rw [hneg, Nat.mod_eq_of_lt (by omega)]
      rw [Int.tmod_eq_of_lt (by omega) (by omega)]
      omega
  · simp only [if_neg h0]
    rw [Int.tmod_eq_of_lt (a := (id : Int) - 1) (by omega) (by omega)]
    rw [Int.tmod_eq_emod (by omega) (by omega), Int.add_emod_self,
      Int.emod_eq_of_lt (by omega) (by omega)]
    omega

theorem aliveL_set (nodes : List FileServerInfo) (id : Nat) (nd : FileServerInfo)
    (hid : id < nodes.length) :
    aliveL (nodes.set id nd) id = nd.Alive ∧
    ∀ k, k ≠ id → aliveL (nodes.set id nd) k = aliveL nodes k := by
  constructor
  · simp [aliveL, hid]
  · intro k hk
    simp only [aliveL]
    rw [List.getElem?_set_ne (fun e => hk e.symm)]

/-- The method `ChangeStatus` keeps the ring invariant, and returns for a valid id. -/
theorem changeStatus_inv (s : PoolInfo) (id : Nat) (status : FSStatus)
    (hid : id < s.StorageNodes.length) (hinv : RingInv s) :
    ∃ s1, s.ChangeStatus id status = some s1 ∧
      s1.StorageNodes.length = s.StorageNodes.length ∧ RingInv s1 := by
  have hsome : s.StorageNodes[id]? = some s.StorageNodes[id] := List.getElem?_eq_getElem hid
  -- the pool after the status is written
  generalize hnd : s.StorageNodes[id].setStatus status = nd1
  have hndA : nd1.Alive = decide (status = LIVE) := by rw [← hnd]; rfl
  have hndN : nd1.NextAlive = s.StorageNodes[id].NextAlive := by rw [← hnd]; rfl
  have hndI : nd1.ID = s.StorageNodes[id].ID := by rw [← hnd]; rfl
  generalize hns : s.StorageNodes.set id nd1 = nodes1
  have hlen1 : nodes1.length = s.StorageNodes.length := by rw [← hns]; simp
  have hal1 : aliveL nodes1 id = nd1.Alive ∧ ∀ k, k ≠ id → aliveL nodes1 k = aliveL s.StorageNodes k := by
    rw [← hns]; exact aliveL_set s.StorageNodes id nd1 hid
  have hget1 : nodes1[id]? = some nd1 := by rw [← hns]; simp [hid]
  have hna1 : ∀ k, nextL nodes1 k = nextL s.StorageNodes k := by
    intro k
    rw [← hns]
    simp only [nextL, List.getElem?_set]
    by_cases hk : id = k
    · subst hk
      simp [hid, hndN]
    · simp [hk]
  have hid1 : ∀ (j : Nat) (nd : FileServerInfo), nodes1[j]? = some nd → nd.ID = j := by
    intro j nd hj
    rw [← hns, List.getElem?_set] at hj
    by_cases hk : id = j
    · subst hk
      simp only [if_true, hid] at hj
      cases hj
      rw [hndI]
      exact hinv.1 id _ hsome
    · simp only [hk, if_false] at hj
      exact hinv.1 j nd hj
  have hunfold : s.ChangeStatus id status =
      if nd1.Alive = true then
        PoolInfo.setNewAlive { s with StorageNodes := nodes1 } id
          (Int.toNat (Int.tmod (Int.tmod ((id : Int) - 1) (nodes1.length : Int)
            + (nodes1.length : Int)) (nodes1.length : Int)))
      else PoolInfo.setNewAliveDead { s with StorageNodes := nodes1 } id := by
    simp only [PoolInfo.ChangeStatus, hsome, hnd, hns]
  by_cases hlive : status = LIVE
  · -- the node is live now
    have hA : nd1.Alive = true := by rw [hndA]; simp [hlive]
    have hcur : (if id = 0 then s.StorageNodes.length - 1 else id - 1) < nodes1.length := by
      rw [hlen1]; split_ifs <;> omega
    obtain ⟨s2, hrun, _, _, hrel⟩ := setNewAlive_spec { s with StorageNodes := nodes1 } id _ hcur
    simp only at hrel
    refine ⟨s2, ?_, by rw [hrel.1, hlen1], hrel.id_eq hid1, ?_⟩
    · rw [hunfold, if_pos hA, hlen1, changeStatus_index _ id hid]
      exact hrun
    · intro _ i hi
      have hi' : i < s.StorageNodes.length := by rw [hrel.1, hlen1] at hi; exact hi
      rw [hrel.1, hlen1]
      rw [hlen1] at hrel
      have hfun : s2.aliveAt = aliveL nodes1 := funext (fun k => hrel.aliveL_eq k)
      refine ring_step_live s.aliveAt s2.aliveAt s.nextAt s2.nextAt s.StorageNodes.length id _
        hid hinv.2 ?_ ?_ rfl ?_ i hi'
      · rw [hfun, hal1.1, hA]
      · intro k hk
        rw [hfun, hal1.2 k hk]
        rfl
      · intro j hj
        have := hrel.nextL_eq j (by rw [hlen1]; exact hj)
        rw [hfun]
        simp only [PoolInfo.nextAt]
        exact ⟨this.1, fun h => (this.2 h).trans (hna1 j)⟩
  · -- the node is dead now
    have hA : ¬ nd1.Alive = true := by rw [hndA]; simp [hlive]
    have hcur : id < nodes1.length := by rw [hlen1]; exact hid
    obtain ⟨s2, hrun, _, _, hrel⟩ :=
      setNewAlive_spec { s with StorageNodes := nodes1 } (s.StorageNodes[id].NextAlive) id hcur
    simp only at hrel
    refine ⟨s2, ?_, by rw [hrel.1, hlen1], hrel.id_eq hid1, ?_⟩
    · rw [hunfold, if_neg hA]
      simp only [PoolInfo.setNewAliveDead, hget1, hndN]
      exact hrun
    · intro hex i hi
      have hi' : i < s.StorageNodes.length := by rw [hrel.1, hlen1] at hi; exact hi
      rw [hrel.1, hlen1] at hex ⊢
      rw [hlen1] at hrel
      have hfun : s2.aliveAt = aliveL nodes1 := funext (fun k => hrel.aliveL_eq k)
      have hnid : s.nextAt id = s.StorageNodes[id].NextAlive := by
        simp only [PoolInfo.nextAt, nextL, hsome]
      refine ring_step_dead s.aliveAt s2.aliveAt s.nextAt s2.nextAt s.StorageNodes.length id
        hid hinv.2 ?_ ?_ ?_ hex i hi'
      · rw [hfun, hal1.1]
        simpa using hA
      · intro k hk
        rw [hfun, hal1.2 k hk]
        rfl
      · intro j hj
        have := hrel.nextL_eq j (by rw [hlen1]; exact hj)
        rw [hfun, hnid]
        simp only [PoolInfo.nextAt]
        exact ⟨this.1, fun h => (this.2 h).trans (hna1 j)⟩

theorem initFServers_getElem? (conf : List (String × Int)) (j : Nat) :
    (InitFServers conf).StorageNodes[j]? = (conf[j]?).map (initNode conf.length j) := by
  simp only [InitFServers, List.getElem?_map, List.getElem?_enum, Option.map_map]
  rfl

theorem initFServers_inv (conf : List (String × Int)) :
    (InitFServers conf).StorageNodes.length = conf.length ∧ RingInv (InitFServers conf) := by
  refine ⟨by simp [InitFServers, List.enum_length], ?_, ?_⟩
  · intro j nd hj
    rw [initFServers_getElem?] at hj
    cases hc : conf[j]? with
    | none => rw [hc] at hj; cases hj
    | some p =>
      rw [hc] at hj
      cases hj
      rfl
  · rintro ⟨k, _, hk⟩
    exfalso
    simp only [PoolInfo.aliveAt, aliveL, initFServers_getElem?] at hk
    cases hc : conf[k]? with
    | none => rw [hc] at hk; cases hk
    | some p => rw [hc] at hk; cases hk

theorem changeAll_inv (calls : List (Nat × FSStatus)) (s : PoolInfo) (hinv : RingInv s)
    (hvalid : ∀ c ∈ calls, c.1 < s.StorageNodes.length) :
    ∃ s1, s.changeAll calls = some s1 ∧
      s1.StorageNodes.length = s.StorageNodes.length ∧ RingInv s1 := by
  induction calls generalizing s with
  | nil => exact ⟨s, rfl, rfl, hinv⟩
  | cons c calls ih =>
    obtain ⟨id, status⟩ := c
    obtain ⟨s1, h1, hlen, hinv1⟩ :=
      changeStatus_inv s id status (hvalid (id, status) (List.mem_cons_self _ _)) hinv
    obtain ⟨s2, h2, hlen2, hinv2⟩ := ih s1 hinv1
      (fun c hc => by rw [hlen]; exact hvalid c (List.mem_cons_of_mem _ hc))
    refine ⟨s2, ?_, by rw [hlen2, hlen], hinv2⟩
    simp only [PoolInfo.changeAll, h1]
    exact h2

/-! ## The liveness ring invariant -/

/-- C10. Liveness ring invariant: the pool reached from `InitFServers` by any
sequence of `ChangeStatus(id, status)` calls with valid ids exists (no call
panics), and for every live node `L` in it, at index `i`: `L.ID` is `i`, the node
`StorageNodes[L.NextAlive]` is live (so one hop along `NextAlive` reaches a live
node), it is the first live node after `L` in cyclic index order, and when `L` is
the only live node `L.NextAlive` is `L.ID`. -/
theorem liveness_ring_invariant (conf : List (String × Int)) (calls : List (Nat × FSStatus))
    (hvalid : ∀ c ∈ calls, c.1 < conf.length) :
    ∃ s, (InitFServers conf).changeAll calls = some s ∧
      s.StorageNodes.length = conf.length ∧
      ∀ (i : Nat) (L : FileServerInfo), s.StorageNodes[i]? = some L → L.Alive = true →
        L.ID = i ∧
        (∃ M, s.StorageNodes[L.NextAlive]? = some M ∧ M.Alive = true ∧ M.ID = L.NextAlive) ∧
        FirstAliveAfter s.aliveAt conf.length L.ID L.NextAlive ∧
        ((∀ (j : Nat) (K : FileServerInfo), s.StorageNodes[j]? = some K → K.Alive = true → j = i) →
          L.NextAlive = L.ID) := by
  obtain ⟨hlen0, hinv0⟩ := initFServers_inv conf
  obtain ⟨s, hrun, hlen, hinv⟩ := changeAll_inv calls (InitFServers conf) hinv0
    (fun c hc => by rw [hlen0]; exact hvalid c hc)
  refine ⟨s, hrun, by rw [hlen, hlen0], fun i L hL hLa => ?_⟩
  have hi : i < s.StorageNodes.length := (List.getElem?_eq_some.mp hL).1
  have hLid : L.ID = i := hinv.1 i L hL
  have hali : s.aliveAt i = true := by simp only [PoolInfo.aliveAt, aliveL, hL, hLa]
  have hfa := hinv.2 ⟨i, hi, hali⟩ i hi
  have hnext : s.nextAt i = L.NextAlive := by simp only [PoolInfo.nextAt, nextL, hL]
  rw [hnext, hlen, hlen0] at hfa
  obtain ⟨hm, hma, hrange⟩ := hfa
  have hm' : L.NextAlive < s.StorageNodes.length := by rw [hlen, hlen0]; exact hm
  have hM : s.StorageNodes[L.NextAlive]? = some s.StorageNodes[L.NextAlive] :=
    List.getElem?_eq_getElem hm'
  have hMa : s.StorageNodes[L.NextAlive].Alive = true := by
    simpa only [PoolInfo.aliveAt, aliveL, hM] using hma
  refine ⟨hLid, ⟨_, hM, hMa, hinv.1 _ _ hM⟩, ?_, fun honly => ?_⟩
  · rw [hLid]; exact ⟨hm, hma, hrange⟩
  · rw [hLid]; exact honly _ _ hM hMa

/-- Witness of C10: three nodes, of which two come up and one goes down again. -/
theorem liveness_ring_invariant_witness :
    ∃ s, (InitFServers exampleConf).changeAll
        [(0, LIVE), (2, LIVE), (1, LIVE), (0, PARTIALLY_DEAD), (1, DEAD)] = some s ∧
      s.StorageNodes.length = exampleConf.length ∧
      ∀ (i : Nat) (L : FileServerInfo), s.StorageNodes[i]? = some L → L.Alive = true →
        L.ID = i ∧
        (∃ M, s.StorageNodes[L.NextAlive]? = some M ∧ M.Alive = true ∧ M.ID = L.NextAlive) ∧
        FirstAliveAfter s.aliveAt exampleConf.length L.ID L.NextAlive ∧
        ((∀ (j : Nat) (K : FileServerInfo), s.StorageNodes[j]? = some K → K.Alive = true → j = i) →
          L.NextAlive = L.ID) :=
  liveness_ring_invariant exampleConf
    [(0, LIVE), (2, LIVE), (1, LIVE), (0, PARTIALLY_DEAD), (1, DEAD)] (by decide)

/-- The pool of the witness of C10, computed: node `2` is the only live node and
every link points at it. -/
theorem liveness_ring_example :
    ((InitFServers exampleConf).changeAll
        [(0, LIVE), (2, LIVE), (1, LIVE), (0, PARTIALLY_DEAD), (1, DEAD)]).map
      (fun s => s.StorageNodes.map (fun nd => (nd.Alive, nd.NextAlive)))
      = some [(false, 2), (false, 2), (true, 2)] := by
  decide

/-! ## Selection of several nodes: what the loop returns -/

theorem mapGet_exceptMap_foldl (except : List String) (acc : List (String × Int)) (h : String) :
    mapGet (except.foldl (fun m host => mapSet m host 1) acc) h =
      if h ∈ except then some 1 else mapGet acc h := by
  induction except generalizing acc with
  | nil => simp
  | cons x xs ih =>
    simp only [List.foldl_cons, ih, mapGet_mapSet, List.mem_cons]
    by_cases h1 : h ∈ xs
    · simp [h1]
    · by_cases h2 : x = h
      · subst h2; simp
      · have : ¬ h = x := fun e => h2 e.symm
        simp [h1, h2, this]

/-- The read `exceptMap[host]` is not 0 exactly for the hosts of `except`. -/
theorem exceptCount_eq_zero_iff (except : List String) (h : String) :
    exceptCount (exceptMapOf except) h = 0 ↔ h ∉ except := by
  simp only [exceptCount, exceptMapOf, mapGet_exceptMap_foldl]
  by_cases hm : h ∈ except <;> simp [hm, mapGet]

theorem selectSeveralLoop_zero (nodes : List FileServerInfo) (exceptMap : List (String × Int))
    (num i : Int) (next : FileServerInfo) (selected : List FileServerInfo) :
    selectSeveralLoop nodes exceptMap num 0 i next selected =
      if i < num then Outcome.timeout else Outcome.done selected := rfl

theorem selectSeveralLoop_succ (nodes : List FileServerInfo) (exceptMap : List (String × Int))
    (num : Int) (fuel : Nat) (i : Int) (next : FileServerInfo) (selected : List FileServerInfo) :
    selectSeveralLoop nodes exceptMap num (fuel + 1) i next selected =
      if i < num then
        match nodes[next.NextAlive]? with
        | none => Outcome.panic
        | some next1 =>
          if (!next.Alive || exceptCount exceptMap next.Host == 0) = true then
            selectSeveralLoop nodes exceptMap num fuel i next1 selected
          else selectSeveralLoop nodes exceptMap num fuel (i + 1) next1 (selected ++ [next])
      else Outcome.done selected := rfl

/-- The cases of one iteration of the loop of `SelectSeveralExcept` that comes out
with a result: the loop has ended, or it goes on with the next node, with or without
the node looked at appended. -/
theorem selectSeveralLoop_cases (nodes : List FileServerInfo) (exceptMap : List (String × Int))
    (num : Int) (fuel : Nat) (i : Int) (next : FileServerInfo) (selected l : List FileServerInfo)
    (h : selectSeveralLoop nodes exceptMap num (fuel + 1) i next selected = Outcome.done l) :
    (¬ i < num ∧ l = selected) ∨
    (i < num ∧ ∃ next1, nodes[next.NextAlive]? = some next1 ∧
      (((!next.Alive || exceptCount exceptMap next.Host == 0) = true ∧
          selectSeveralLoop nodes exceptMap num fuel i next1 selected = Outcome.done l) ∨
       ((!next.Alive || exceptCount exceptMap next.Host == 0) = false ∧
          selectSeveralLoop nodes exceptMap num fuel (i + 1) next1 (selected ++ [next])
            = Outcome.done l))) := by
  rw [selectSeveralLoop_succ] at h
  by_cases hlt : i < num
  · rw [if_pos hlt] at h
    right
    refine ⟨hlt, ?_⟩
    cases hn : nodes[next.NextAlive]? with
    | none => rw [hn] at h; cases h
    | some next1 =>
      rw [hn] at h
      refine ⟨next1, rfl, ?_⟩
      cases hskip : (!next.Alive || exceptCount exceptMap next.Host == 0) with
      | true =>
        rw [hskip] at h
        exact Or.inl ⟨rfl, h⟩
      | false =>
        rw [hskip] at h
        exact Or.inr ⟨rfl, h⟩
  · rw [if_neg hlt] at h
    cases h
    exact Or.inl ⟨hlt, rfl⟩

/-- Every node that the loop of `SelectSeveralExcept` appends is live and has its
host in `except`. -/
theorem selectSeveralLoop_selected (nodes : List FileServerInfo) (except : List String)
    (num : Int) (fuel : Nat) (i : Int) (next : FileServerInfo)
    (selected l : List FileServerInfo)
    (h : selectSeveralLoop nodes (exceptMapOf except) num fuel i next selected = Outcome.done l)
    (hsel : ∀ x ∈ selected, x.Alive = true ∧ x.Host ∈ except) :
    ∀ x ∈ l, x.Alive = true ∧ x.Host ∈ except := by
  induction fuel generalizing i next selected with
  | zero =>
    rw [selectSeveralLoop_zero] at h
    by_cases hlt : i < num
    · rw [if_pos hlt] at h; cases h
    · rw [if_neg hlt] at h; cases h; exact hsel
  | succ fuel ih =>
    rcases selectSeveralLoop_cases _ _ _ _ _ _ _ _ h with ⟨_, rfl⟩ | ⟨_, next1, _, h1 | h1⟩
    · exact hsel
    · exact ih i next1 selected h1.2 hsel
    · refine ih (i + 1) next1 (selected ++ [next]) h1.2 ?_
      intro x hx
      rcases List.mem_append.mp hx with hx | hx
      · exact hsel x hx
      · have hx' : x = next := by simpa using hx
        subst hx'
        have hskip := h1.1
        simp only [Bool.or_eq_false_iff, Bool.not_eq_false', beq_eq_false_iff_ne, ne_eq] at hskip
        refine ⟨hskip.1, ?_⟩
        by_contra hnot
        exact hskip.2 ((exceptCount_eq_zero_iff except x.Host).mpr hnot)

/-- The loop of `SelectSeveralExcept` returns at most `num` nodes. -/
theorem selectSeveralLoop_length (nodes : List FileServerInfo) (exceptMap : List (String × Int))
    (num : Int) (fuel : Nat) (i : Int) (next : FileServerInfo)
    (selected l : List FileServerInfo)
    (h : selectSeveralLoop nodes exceptMap num fuel i next selected = Outcome.done l)
    (hlen : (selected.length : Int) = i) (hi : i ≤ max num 0) :
    (l.length : Int) ≤ max num 0 := by
  induction fuel generalizing i next selected with
  | zero =>
    rw [selectSeveralLoop_zero] at h
    by_cases hlt : i < num
    · rw [if_pos hlt] at h; cases h
    · rw [if_neg hlt] at h; cases h; rw [hlen]; exact hi
  | succ fuel ih =>
    rcases selectSeveralLoop_cases _ _ _ _ _ _ _ _ h with ⟨_, rfl⟩ | ⟨hlt, next1, _, h1 | h1⟩
    · rw [hlen]; exact hi
    · exact ih i next1 selected h1.2 hlen hi
    · refine ih (i + 1) next1 (selected ++ [next]) h1.2 ?_ ?_
      · simp only [List.length_append, List.length_singleton, Nat.cast_add, Nat.cast_one, hlen]
      · have := le_max_left num 0
        omega

/-- More fuel does not change a result of the loop of `SelectSeveralExcept`. -/
theorem selectSeveralLoop_mono (nodes : List FileServerInfo) (exceptMap : List (String × Int))
    (num : Int) (fuel extra : Nat) (i : Int) (next : FileServerInfo)
    (selected l : List FileServerInfo)
    (h : selectSeveralLoop nodes exceptMap num fuel i next selected = Outcome.done l) :
    selectSeveralLoop nodes exceptMap num (fuel + extra) i next selected = Outcome.done l := by
  induction fuel generalizing i next selected with
  | zero =>
    rw [selectSeveralLoop_zero] at h
    by_cases hlt : i < num
    · rw [if_pos hlt] at h; cases h
    · rw [if_neg hlt] at h
      cases extra with
      | zero => rw [Nat.add_zero, selectSeveralLoop_zero, if_neg hlt]; exact h
      | succ e => rw [Nat.zero_add, selectSeveralLoop_succ, if_neg hlt]; exact h
  | succ fuel ih =>
    rw [Nat.add_right_comm, selectSeveralLoop_succ]
    rcases selectSeveralLoop_cases _ _ _ _ _ _ _ _ h with ⟨hlt, rfl⟩ | ⟨hlt, next1, hn, h1 | h1⟩
    · rw [if_neg hlt]
    · rw [if_pos hlt, hn]
      simp only [h1.1, if_true]
      exact ih i next1 selected h1.2
    · rw [if_pos hlt, hn]
      simp only [h1.1, Bool.false_eq_true, if_false]
      exact ih (i + 1) next1 (selected ++ [next]) h1.2

/-- What `SelectSeveralExcept` returns has at most `num` nodes, and stays the
result with more fuel. -/
theorem selectSeveralExcept_length (s : PoolInfo) (except : List String) (num : Int)
    (fuel : Nat) (l : List FileServerInfo)
    (h : s.SelectSeveralExcept except num fuel = Outcome.done l) :
    (l.length : Int) ≤ max num 0 ∧
    ∀ extra, s.SelectSeveralExcept except num (fuel + extra) = Outcome.done l := by
  unfold PoolInfo.SelectSeveralExcept at h ⊢
  cases hn : s.StorageNodes[s.Next]? with
  | none => simp [hn] at h
  | some next =>
    simp only [hn] at h ⊢
    refine ⟨?_, fun extra => selectSeveralLoop_mono _ _ _ fuel extra 0 next [] l h⟩
    have := selectSeveralLoop_length _ _ _ fuel 0 next [] l h (by simp) (le_max_right _ _)
    refine le_trans this ?_
    split_ifs with hlt
    · exact max_le_max (le_of_lt hlt) (le_refl 0)
    · exact le_refl _

theorem ringInv_congr (s s1 : PoolInfo) (h : s1.StorageNodes = s.StorageNodes)
    (hinv : RingInv s) : RingInv s1 := by
  unfold RingInv PoolInfo.aliveAt PoolInfo.nextAt at hinv ⊢
  rw [h]
  exact hinv

/-- The example pool of three live nodes satisfies the ring invariant: its nodes are
those of the pool reached from `InitFServers` when all three nodes come up. -/
theorem examplePool3_ringInv : RingInv examplePool3 := by
  obtain ⟨s, hrun, _, hinv⟩ := changeAll_inv [(0, LIVE), (1, LIVE), (2, LIVE)]
    (InitFServers exampleConf) (initFServers_inv exampleConf).2 (by decide)
  have hs : (InitFServers exampleConf).changeAll [(0, LIVE), (1, LIVE), (2, LIVE)]
      = some { examplePool3 with Alive := 0 } := by decide
  rw [hs] at hrun
  cases hrun
  exact ringInv_congr _ _ rfl hinv

/-! ## `ChangeStatus` and `Select` keep the links in range -/

/-- The shape of the pool after `ChangeStatus`: the status of the node is written,
then some links are set to the id itself or to the old link of the node; the cursor
and the field `Alive` of the pool are not written. -/
theorem changeStatus_shape (s : PoolInfo) (id : Nat) (status : FSStatus)
    (hid : id < s.StorageNodes.length) :
    ∃ (s1 : PoolInfo) (v : Nat) (P : Nat → Prop), s.ChangeStatus id status = some s1 ∧
      (v = id ∨ v = nextL s.StorageNodes id) ∧
      Relinked P v (s.StorageNodes.set id (s.StorageNodes[id].setStatus status))
        s1.StorageNodes ∧
      s1.Next = s.Next ∧ s1.Alive = s.Alive := by
  have hsome : s.StorageNodes[id]? = some s.StorageNodes[id] := List.getElem?_eq_getElem hid
  generalize hnd : s.StorageNodes[id].setStatus status = nd1
  have hndN : nd1.NextAlive = s.StorageNodes[id].NextAlive := by rw [← hnd]; rfl
  generalize hns : s.StorageNodes.set id nd1 = nodes1
  have hlen1 : nodes1.length = s.StorageNodes.length := by rw [← hns]; simp
  have hget1 : nodes1[id]? = some nd1 := by rw [← hns]; simp [hid]
  have hunfold : s.ChangeStatus id status =
      if nd1.Alive = true then
        PoolInfo.setNewAlive { s with StorageNodes := nodes1 } id
          (Int.toNat (Int.tmod (Int.tmod ((id : Int) - 1) (nodes1.length : Int)
            + (nodes1.length : Int)) (nodes1.length : Int)))
      else PoolInfo.setNewAliveDead { s with StorageNodes := nodes1 } id := by
    simp only [PoolInfo.ChangeStatus, hsome, hnd, hns]
  by_cases hA : nd1.Alive = true
  · have hcur : (if id = 0 then s.StorageNodes.length - 1 else id - 1) < nodes1.length := by
      rw [hlen1]; split_ifs <;> omega
    obtain ⟨s2, hrun, hnext, halive, hrel⟩ :=
      setNewAlive_spec { s with StorageNodes := nodes1 } id _ hcur
    refine ⟨s2, id, _, ?_, Or.inl rfl, hrel, hnext, halive⟩
    rw [hunfold, if_pos hA, hlen1, changeStatus_index _ id hid]
    exact hrun
  · have hcur : id < nodes1.length := by rw [hlen1]; exact hid
    obtain ⟨s2, hrun, hnext, halive, hrel⟩ :=
      setNewAlive_spec { s with StorageNodes := nodes1 } (s.StorageNodes[id].NextAlive) id hcur
    refine ⟨s2, _, _, ?_, Or.inr ?_, hrel, hnext, halive⟩
    · rw [hunfold, if_neg hA]
      simp only [PoolInfo.setNewAliveDead, hget1, hndN]
      exact hrun
    · simp only [nextL, hsome]

theorem changeStatus_bound (s s1 : PoolInfo) (id : Nat) (status : FSStatus)
    (hid : id < s.StorageNodes.length) (hb : BoundInv s)
    (h : s.ChangeStatus id status = some s1) : BoundInv s1 := by
  obtain ⟨s2, v, P, h2, hv, hrel, hnext, _⟩ := changeStatus_shape s id status hid
  rw [h2] at h
  cases h
  have hsome : s.StorageNodes[id]? = some s.StorageNodes[id] := List.getElem?_eq_getElem hid
  have hlen : s1.StorageNodes.length = s.StorageNodes.length := by rw [hrel.1]; simp
  have hvlt : v < s.StorageNodes.length := by
    rcases hv with hv | hv
    · rw [hv]; exact hid
    · rw [hv]
      simp only [nextL, hsome]
      exact hb.2 id _ hsome
  refine ⟨by rw [hnext, hlen]; exact hb.1, fun j nd hj => ?_⟩
  rw [hlen]
  have hj' : j < s.StorageNodes.length := by
    rw [← hlen]; exact (List.getElem?_eq_some.mp hj).1
  have hold : ∃ nd0, (s.StorageNodes.set id (s.StorageNodes[id].setStatus status))[j]? = some nd0 ∧
      nd0.NextAlive < s.StorageNodes.length := by
    rw [List.getElem?_set]
    by_cases hij : id = j
    · subst hij
      simp only [if_true, hid]
      exact ⟨_, rfl, hb.2 id s.StorageNodes[id] hsome⟩
    · simp only [hij, if_false]
      exact ⟨s.StorageNodes[j], List.getElem?_eq_getElem hj', hb.2 j _ (List.getElem?_eq_getElem hj')⟩
  obtain ⟨nd0, hnd0, hlt0⟩ := hold
  by_cases hP : P j
  · rw [(hrel.2 j nd0 hnd0).1 hP] at hj
    cases hj
    exact hvlt
  · rw [(hrel.2 j nd0 hnd0).2 hP] at hj
    cases hj
    exact hlt0

/-- The method `Select` returns when the links are in range; it writes the cursor
only, and the cursor stays in range. -/
theorem select_returns (s : PoolInfo) (hb : BoundInv s) :
    ∃ L, s.Select = some (L, { s with Next := L.NextAlive }) ∧
      (s.StorageNodes[if s.aliveAt s.Next = true then s.Next else s.nextAt s.Next]? = some L) ∧
      BoundInv { s with Next := L.NextAlive } := by
  obtain ⟨n0, hsome⟩ : ∃ n0, s.StorageNodes[s.Next]? = some n0 :=
    ⟨_, List.getElem?_eq_getElem hb.1⟩
  have hn := hb.2 _ _ hsome
  obtain ⟨n1, hsome2⟩ : ∃ n1, s.StorageNodes[n0.NextAlive]? = some n1 :=
    ⟨_, List.getElem?_eq_getElem hn⟩
  unfold PoolInfo.Select
  simp only [hsome, PoolInfo.aliveAt, PoolInfo.nextAt, aliveL, nextL]
  cases hA : n0.Alive with
  | true =>
    simp only [Bool.not_true, Bool.false_eq_true, if_false, if_true]
    exact ⟨_, rfl, hsome, hn, hb.2⟩
  | false =>
    simp only [Bool.not_false, if_true, hsome2, Bool.false_eq_true, if_false]
    exact ⟨_, rfl, rfl, hb.2 _ _ hsome2, hb.2⟩

/-- In a pool with a live node, with the ring invariant, `Select` returns a live
node, the node at its `ID`, and sets the cursor to its `NextAlive`. -/
theorem select_live (s : PoolInfo) (hinv : RingInv s) (hb : BoundInv s)
    (hex : ∃ k, k < s.StorageNodes.length ∧ s.aliveAt k = true) :
    ∃ L, s.Select = some (L, { s with Next := L.NextAlive }) ∧ L.Alive = true ∧
      s.StorageNodes[L.ID]? = some L ∧
      L.ID = (if s.aliveAt s.Next = true then s.Next else s.nextAt s.Next) := by
  obtain ⟨L, hsel, hL, _⟩ := select_returns s hb
  have hid := hinv.1 _ L hL
  refine ⟨L, hsel, ?_, by rw [hid]; exact hL, hid⟩
  by_cases hA : s.aliveAt s.Next = true
  · rw [if_pos hA] at hL
    simpa only [PoolInfo.aliveAt, aliveL, hL] using hA
  · rw [if_neg hA] at hL
    have hfa := hinv.2 hex s.Next hb.1
    simpa only [PoolInfo.aliveAt, aliveL, hL] using hfa.2.1

theorem initFServers_bound (conf : List (String × Int)) (hne : 0 < conf.length) :
    BoundInv (InitFServers conf) := by
  have hlen := (initFServers_inv conf).1
  refine ⟨by rw [hlen]; exact hne, fun j nd hj => ?_⟩
  rw [hlen]
  rw [initFServers_getElem?] at hj
  cases hc : conf[j]? with
  | none => rw [hc] at hj; cases hj
  | some p =>
    rw [hc] at hj
    cases hj
    exact Nat.mod_lt _ hne

/-- The calls `ChangeStatus` with valid ids and `Select` return and keep the
invariants of the pool. -/
theorem runOps_inv (ops : List PoolOp) (s : PoolInfo) (hinv : RingInv s) (hb : BoundInv s)
    (hvalid : ∀ op ∈ ops, op.validFor s.StorageNodes.length = true) :
    ∃ s1, s.runOps ops = some s1 ∧ s1.StorageNodes.length = s.StorageNodes.length ∧
      RingInv s1 ∧ BoundInv s1 := by
  induction ops generalizing s with
  | nil => exact ⟨s, rfl, rfl, hinv, hb⟩
  | cons op ops ih =>
    cases op with
    | change id status =>
      have hid : id < s.StorageNodes.length := by
        simpa [PoolOp.validFor] using hvalid _ (List.mem_cons_self _ _)
      obtain ⟨s1, h1, hlen, hinv1⟩ := changeStatus_inv s id status hid hinv
      have hb1 := changeStatus_bound s s1 id status hid hb h1
      obtain ⟨s2, h2, hlen2, hinv2, hb2⟩ := ih s1 hinv1 hb1
        (fun op hm => by rw [hlen]; exact hvalid op (List.mem_cons_of_mem _ hm))
      refine ⟨s2, ?_, by rw [hlen2, hlen], hinv2, hb2⟩
      simp only [PoolInfo.runOps, h1]
      exact h2
    | select =>
      obtain ⟨L, hsel, _, hb1⟩ := select_returns s hb
      obtain ⟨s2, h2, hlen2, hinv2, hb2⟩ := ih { s with Next := L.NextAlive }
        (ringInv_congr s _ rfl hinv) hb1
        (fun op hm => hvalid op (List.mem_cons_of_mem _ hm))
      refine ⟨s2, ?_, hlen2, hinv2, hb2⟩
      simp only [PoolInfo.runOps, hsel]
      exact h2

/-! ## The live nodes in index order -/

theorem mem_liveList (s : PoolInfo) (x : Nat) :
    x ∈ s.liveList ↔ x < s.StorageNodes.length ∧ s.aliveAt x = true := by
  simp [PoolInfo.liveList]

theorem liveList_lt (s : PoolInfo) (p q xp xq : Nat) (hp : s.liveList[p]? = some xp)
    (hq : s.liveList[q]? = some xq) (hpq : p < q) : xp < xq := by
  have hsorted : List.Pairwise (fun a b => a < b) s.liveList :=
    List.Sorted.filter _ (List.sorted_lt_range _)
  obtain ⟨hp1, hp2⟩ := List.getElem?_eq_some.mp hp
  obtain ⟨hq1, hq2⟩ := List.getElem?_eq_some.mp hq
  have := List.pairwise_iff_getElem.mp hsorted p q hp1 hq1 hpq
  rw [hp2, hq2] at this
  exact this

theorem liveList_index_lt (s : PoolInfo) (p q xp xq : Nat) (hp : s.liveList[p]? = some xp)
    (hq : s.liveList[q]? = some xq) (hlt : xp < xq) : p < q := by
  rcases Nat.lt_trichotomy p q with h | h | h
  · exact h
  · subst h
    rw [hp] at hq
    cases hq
    omega
  · have := liveList_lt s q p xq xp hq hp h
    omega

theorem liveList_index_of_alive (s : PoolInfo) (z : Nat) (hz : z < s.StorageNodes.length)
    (ha : s.aliveAt z = true) : ∃ q : Nat, s.liveList[q]? = some z := by
  obtain ⟨q, hq, hqz⟩ := List.getElem_of_mem ((mem_liveList s z).mpr ⟨hz, ha⟩)
  exact ⟨q, by rw [List.getElem?_eq_getElem hq, hqz]⟩

theorem liveList_alive (s : PoolInfo) (p x : Nat) (hp : s.liveList[p]? = some x) :
    p < s.liveList.length ∧ x < s.StorageNodes.length ∧ s.aliveAt x = true := by
  obtain ⟨hp1, hp2⟩ := List.getElem?_eq_some.mp hp
  have := (mem_liveList s x).mp (hp2 ▸ List.getElem_mem hp1)
  exact ⟨hp1, this⟩

/-- In the list of the live indices, each entry is followed, cyclically, by the
first live node after it. -/
theorem liveList_succ (s : PoolInfo) (j x y : Nat) (hx : s.liveList[j]? = some x)
    (hy : s.liveList[(j + 1) % s.liveList.length]? = some y) :
    FirstAliveAfter s.aliveAt s.StorageNodes.length x y := by
  obtain ⟨hj, hxn, _⟩ := liveList_alive s j x hx
  obtain ⟨_, hyn, hya⟩ := liveList_alive s _ y hy
  have dead_of : ∀ z, z < s.StorageNodes.length →
      (∀ q : Nat, s.liveList[q]? = some z → False) → s.aliveAt z = false := by
    intro z hz hnot
    cases ha : s.aliveAt z with
    | false => rfl
    | true =>
      obtain ⟨q, hq⟩ := liveList_index_of_alive s z hz ha
      exact absurd hq (fun h => hnot q h)
  refine ⟨hyn, hya, ?_⟩
  by_cases hlast : j + 1 < s.liveList.length
  · rw [Nat.mod_eq_of_lt hlast] at hy
    left
    refine ⟨liveList_lt s j (j + 1) x y hx hy (by omega), fun z hz1 hz2 => ?_⟩
    refine dead_of z (by omega) (fun q hq => ?_)
    have h1 := liveList_index_lt s j q x z hx hq hz1
    have h2 := liveList_index_lt s q (j + 1) z y hq hy hz2
    omega
  · have hjk : j + 1 = s.liveList.length := by omega
    rw [hjk, Nat.mod_self] at hy
    right
    refine ⟨?_, fun z hz1 hz2 => ?_, fun z hz => ?_⟩
    · by_cases hj0 : j = 0
      · subst hj0
        rw [hx] at hy
        cases hy
        exact le_refl _
      · exact le_of_lt (liveList_lt s 0 j y x hy hx (by omega))
    · refine dead_of z hz2 (fun q hq => ?_)
      have h1 := liveList_index_lt s j q x z hx hq hz1
      have h2 := (liveList_alive s q z hq).1
      omega
    · refine dead_of z (by omega) (fun q hq => ?_)
      have h1 := liveList_index_lt s q 0 z y hq hy hz
      omega

/-- The first live node after an index is unique. -/
theorem firstAliveAfter_unique (alive : Nat → Bool) (n i m m1 : Nat)
    (h : FirstAliveAfter alive n i m) (h1 : FirstAliveAfter alive n i m1) : m = m1 := by
  obtain ⟨hm, hma, hr⟩ := h
  obtain ⟨hm1, hma1, hr1⟩ := h1
  by_contra hne
  rcases hr with ⟨hlt, hd⟩ | ⟨hle, hd1, hd2⟩ <;> rcases hr1 with ⟨hlt1, hd'⟩ | ⟨hle1, hd1', hd2'⟩
  · rcases Nat.lt_or_gt_of_ne hne with hc | hc
    · have := hd' m hlt hc
      rw [hma] at this; cases this
    · have := hd m1 hlt1 hc
      rw [hma1] at this; cases this
  · have := hd1' m hlt hm
    rw [hma] at this; cases this
  · have := hd1 m1 hlt1 hm1
    rw [hma1] at this; cases this
  · rcases Nat.lt_or_gt_of_ne hne with hc | hc
    · have := hd2' m hc
      rw [hma] at this; cases this
    · have := hd2 m1 hc
      rw [hma1] at this; cases this

/-- Under the ring invariant the link of a live node is its successor in the list of
the live indices. -/
theorem liveList_next (s : PoolInfo) (hinv : RingInv s) (j x : Nat)
    (hx : s.liveList[j]? = some x) :
    s.liveList[(j + 1) % s.liveList.length]? = some (s.nextAt x) := by
  obtain ⟨hj, hxn, hxa⟩ := liveList_alive s j x hx
  have hpos : 0 < s.liveList.length := by omega
  have hlt : (j + 1) % s.liveList.length < s.liveList.length := Nat.mod_lt _ hpos
  have hy : s.liveList[(j + 1) % s.liveList.length]?
      = some s.liveList[(j + 1) % s.liveList.length] := List.getElem?_eq_getElem hlt
  have h1 := liveList_succ s j x _ hx hy
  have h2 := hinv.2 ⟨x, hxn, hxa⟩ x hxn
  rw [hy, firstAliveAfter_unique _ _ _ _ _ h1 h2]

/-- The live indices read cyclically from position `a` are the list rotated by `a`. -/
theorem cyclic_read_eq_rotate (l : List Nat) (a : Nat) :
    (List.range l.length).map (fun j => l.getD ((a + j) % l.length) 0) = l.rotate a := by
  apply List.ext_getElem?
  intro m
  by_cases hm : m < l.length
  · rw [List.getElem?_rotate hm, List.getElem?_map, List.getElem?_range hm]
    have hlt : (m + a) % l.length < l.length := Nat.mod_lt _ (by omega)
    simp only [Option.map_some', List.getD_eq_getElem?_getD, Nat.add_comm a m,
      List.getElem?_eq_getElem hlt, Option.getD_some]
  · rw [List.getElem?_eq_none (by simp; omega), List.getElem?_eq_none (by simp; omega)]

/-- Consecutive `Select()` calls walk the list of the live indices cyclically, from
the position of the node that the first call returns. -/
theorem selectMany_cycle (t : Nat) (s : PoolInfo) (hinv : RingInv s) (hb : BoundInv s) (b : Nat)
    (hcur : s.liveList[b % s.liveList.length]?
      = some (if s.aliveAt s.Next = true then s.Next else s.nextAt s.Next)) :
    ∃ Ls s1, s.selectMany t = some (Ls, s1) ∧ s1.StorageNodes = s.StorageNodes ∧
      (∀ L ∈ Ls, L.Alive = true ∧ s.StorageNodes[L.ID]? = some L) ∧
      Ls.map (fun L => L.ID)
        = (List.range t).map (fun j => s.liveList.getD ((b + j) % s.liveList.length) 0) := by
  induction t generalizing s b with
  | zero => exact ⟨[], s, rfl, rfl, by simp, rfl⟩
  | succ t ih =>
    obtain ⟨_, hcn, hca⟩ := liveList_alive s _ _ hcur
    obtain ⟨L, hsel, hLa, hLid, hLc⟩ := select_live s hinv hb ⟨_, hcn, hca⟩
    obtain ⟨L1, hsel1, _, hb1⟩ := select_returns s hb
    rw [hsel] at hsel1
    cases hsel1
    have hnext : s.nextAt L.ID = L.NextAlive := by
      simp only [PoolInfo.nextAt, nextL, hLid]
    have hsucc := liveList_next s hinv _ _ hcur
    rw [← hLc, hnext, Nat.mod_add_mod] at hsucc
    have hlive1 : s.aliveAt L.NextAlive = true := (liveList_alive s _ _ hsucc).2.2
    obtain ⟨s1, hs1⟩ : ∃ s1 : PoolInfo, s1 = { s with Next := L.NextAlive } := ⟨_, rfl⟩
    have hl1 : s1.liveList = s.liveList := by rw [hs1]; rfl
    have hn1 : s1.Next = L.NextAlive := by rw [hs1]
    have ha1 : s1.aliveAt = s.aliveAt := by rw [hs1]; rfl
    have hnodes1 : s1.StorageNodes = s.StorageNodes := by rw [hs1]
    rw [← hs1] at hsel hb1
    have hcur1 : s1.liveList[(b + 1) % s1.liveList.length]?
        = some (if s1.aliveAt s1.Next = true then s1.Next else s1.nextAt s1.Next) := by
      rw [hl1, ha1, hn1, if_pos hlive1]
      exact hsucc
    obtain ⟨Ls, s2, hmany, hnodes, hall, hids⟩ :=
      ih s1 (ringInv_congr s _ hnodes1 hinv) hb1 (b + 1) hcur1
    refine ⟨L :: Ls, s2, ?_, hnodes.trans hnodes1, ?_, ?_⟩
    · simp only [PoolInfo.selectMany, hsel, hmany]
    · intro x hx
      rcases List.mem_cons.mp hx with hx | hx
      · rw [hx]; exact ⟨hLa, hLid⟩
      · rw [← hnodes1]; exact hall x hx
    · rw [List.range_succ_eq_map, List.map_cons, List.map_cons, List.map_map, hids, hl1]
      congr 1
      · rw [hLc, Nat.add_zero, List.getD_eq_getElem?_getD, hcur]
        rfl
      · apply List.map_congr_left
        intro j _
        have : b + 1 + j = b + (j + 1) := by omega
        simp only [Function.comp, this]

/-- Every node that `SelectSeveralExcept` returns is live and has its host in
`except`: the loop appends a node only when `exceptMap[next.Host]` is not 0. -/
theorem selectSeveralExcept_selected (s : PoolInfo) (except : List String) (num : Int)
    (fuel : Nat) (l : List FileServerInfo)
    (h : s.SelectSeveralExcept except num fuel = Outcome.done l) :
    ∀ x ∈ l, x.Alive = true ∧ x.Host ∈ except := by
  unfold PoolInfo.SelectSeveralExcept at h
  cases hn : s.StorageNodes[s.Next]? with
  | none => simp [hn] at h
  | some next =>
    simp only [hn] at h
    exact selectSeveralLoop_selected _ _ _ fuel 0 next [] l h (by simp)

/-! ## The field `Alive` of the pool, and the flags of the nodes -/

theorem changeStatus_alive_flags (s s1 : PoolInfo) (id : Nat) (status : FSStatus)
    (h : s.ChangeStatus id status = some s1) (hf : FlagInv s.StorageNodes) :
    s1.Alive = s.Alive ∧ FlagInv s1.StorageNodes := by
  have hid : id < s.StorageNodes.length := by
    by_contra hn
    have : s.StorageNodes[id]? = none := List.getElem?_eq_none (not_lt.mp hn)
    simp [PoolInfo.ChangeStatus, this] at h
  obtain ⟨s2, v, P, h2, _, hrel, _, halive⟩ := changeStatus_shape s id status hid
  rw [h2] at h
  cases h
  refine ⟨halive, ?_⟩
  intro j nd hj
  have hjlt : j < (s.StorageNodes.set id (s.StorageNodes[id].setStatus status)).length := by
    rw [← hrel.1]
    exact (List.getElem?_eq_some.mp hj).1
  obtain ⟨nd0, hnd0⟩ : ∃ nd0, (s.StorageNodes.set id
      (s.StorageNodes[id].setStatus status))[j]? = some nd0 :=
    ⟨_, List.getElem?_eq_getElem hjlt⟩
  have hflag0 : nd0.Alive = decide (nd0.Status = LIVE) := by
    rw [List.getElem?_set] at hnd0
    split_ifs at hnd0 with hij
    · cases hnd0
      rfl
    · exact hf j nd0 hnd0
  have hcases := hrel.2 j nd0 hnd0
  by_cases hP : P j
  · rw [hcases.1 hP] at hj
    cases hj
    exact hflag0
  · rw [hcases.2 hP] at hj
    cases hj
    exact hflag0

theorem changeAll_alive_flags (s s1 : PoolInfo) (calls : List (Nat × FSStatus))
    (h : s.changeAll calls = some s1) (hf : FlagInv s.StorageNodes) :
    s1.Alive = s.Alive ∧ FlagInv s1.StorageNodes := by
  induction calls generalizing s with
  | nil =>
    simp only [PoolInfo.changeAll] at h
    cases h
    exact ⟨rfl, hf⟩
  | cons call calls ih =>
    obtain ⟨id, status⟩ := call
    simp only [PoolInfo.changeAll] at h
    cases hc : s.ChangeStatus id status with
    | none => simp [hc] at h
    | some s2 =>
      simp only [hc] at h
      obtain ⟨ha, hf2⟩ := changeStatus_alive_flags s s2 id status hc hf
      obtain ⟨ha1, hf1⟩ := ih s2 h hf2
      exact ⟨by rw [ha1, ha], hf1⟩

theorem initFServers_flags (conf : List (String × Int)) :
    FlagInv (InitFServers conf).StorageNodes := by
  intro j nd hj
  rw [initFServers_getElem?] at hj
  cases hc : conf[j]? with
  | none => simp [hc] at hj
  | some p =>
    simp only [hc, Option.map_some', Option.some.injEq] at hj
    rw [← hj]
    rfl

/-- After `InitFServers` and any sequence of `ChangeStatus` calls the field `Alive`
of the pool is 0, and the flag `Alive` of every node tells whether its `Status` is
`LIVE`. -/
theorem initFServers_changeAll_alive (conf : List (String × Int))
    (calls : List (Nat × FSStatus)) (s : PoolInfo)
    (h : (InitFServers conf).changeAll calls = some s) :
    s.Alive = 0 ∧ FlagInv s.StorageNodes :=
  changeAll_alive_flags (InitFServers conf) s calls h (initFServers_flags conf)

/-! ## The loop of `SelectSeveralExcept` need not end -/

theorem exceptCount_nil (host : String) : exceptCount (exceptMapOf []) host = 0 := rfl

/-- When no live node has its host in `exceptMap`, the loop of `SelectSeveralExcept`
with `i < num` appends nothing and is still running after any number of
iterations. -/
theorem selectSeveralLoop_never (nodes : List FileServerInfo) (exceptMap : List (String × Int))
    (num i : Int) (hi : i < num)
    (hb : ∀ (j : Nat) (nd : FileServerInfo), nodes[j]? = some nd → nd.NextAlive < nodes.length)
    (hno : ∀ (j : Nat) (nd : FileServerInfo), nodes[j]? = some nd → nd.Alive = true →
      exceptCount exceptMap nd.Host = 0)
    (fuel : Nat) (next : FileServerInfo) (selected : List FileServerInfo)
    (hnext : ∃ j : Nat, nodes[j]? = some next) :
    selectSeveralLoop nodes exceptMap num fuel i next selected = Outcome.timeout := by
  induction fuel generalizing next selected with
  | zero => simp [selectSeveralLoop_zero, hi]
  | succ fuel ih =>
    obtain ⟨j, hj⟩ := hnext
    have hlt := hb j next hj
    obtain ⟨next1, hsome⟩ : ∃ next1, nodes[next.NextAlive]? = some next1 :=
      ⟨_, List.getElem?_eq_getElem hlt⟩
    have hskip : (!next.Alive || exceptCount exceptMap next.Host == 0) = true := by
      cases ha : next.Alive with
      | false => rfl
      | true => simp [hno j next hj ha]
    rw [selectSeveralLoop_succ]
    simp only [hi, if_true, hsome, hskip]
    exact ih _ selected ⟨_, hsome⟩

/-- On a pool whose links are indices of the pool, `SelectSeveralExcept(except, n)`
does not return when no live node has its host in `except` and the bound
`min(n, Alive - len(except))` is positive. -/
theorem selectSeveralExcept_never (s : PoolInfo) (except : List String) (num : Int)
    (hb : BoundInv s)
    (hno : ∀ (j : Nat) (nd : FileServerInfo), s.StorageNodes[j]? = some nd → nd.Alive = true →
      exceptCount (exceptMapOf except) nd.Host = 0)
    (hnum : 0 < num) (halive : 0 < s.Alive - (except.length : Int)) (fuel : Nat) :
    s.SelectSeveralExcept except num fuel = Outcome.timeout := by
  unfold PoolInfo.SelectSeveralExcept
  obtain ⟨next, hsome⟩ : ∃ next, s.StorageNodes[s.Next]? = some next :=
    ⟨_, List.getElem?_eq_getElem hb.1⟩
  simp only [hsome]
  apply selectSeveralLoop_never _ _ _ _ _ hb.2 hno _ _ _ ⟨_, hsome⟩
  split_ifs <;> omega

theorem examplePool3_bound : BoundInv examplePool3 := by
  refine ⟨by decide, ?_⟩
  intro j nd hj
  have hlt : j < 3 := (List.getElem?_eq_some.mp hj).1
  interval_cases j <;> simp [examplePool3] at hj <;> subst hj <;> decide


/-! ## The heart -/

theorem beats_append (n : Nat) : beats n ++ [Beat.poll, Beat.sleep] = beats (n + 1) := by
  induction n with
  | zero => rfl
  | succ n ih =>
    show Beat.poll :: Beat.sleep :: (beats n ++ [Beat.poll, Beat.sleep]) = _
    rw [ih]
    rfl

/-- The loop of `Heart.Poll` from the counter `i` with `k` iterations to go. -/
theorem pollLoop_spec (count : Int) (k fuel : Nat) (i : Int) (log : List Beat)
    (hi : i + k = count) (hf : k ≤ fuel) :
    pollLoop count fuel i log = Outcome.done (log ++ beats k) := by
  induction k generalizing fuel i log with
  | zero =>
    have : ¬ i < count := by omega
    cases fuel <;> simp [pollLoop, this, beats]
  | succ k ih =>
    have hlt : i < count := by omega
    cases fuel with
    | zero => omega
    | succ fuel =>
      simp only [pollLoop, hlt, if_true]
      rw [ih fuel (i + 1) _ (by omega) (by omega)]
      simp [Heart.Contract, beats]

theorem count_poll_beats (n : Nat) : (beats n).count Beat.poll = n := by
  induction n with
  | zero => rfl
  | succ n ih => simp [beats, ih]

theorem count_sleep_beats (n : Nat) : (beats n).count Beat.sleep = n := by
  induction n with
  | zero => rfl
  | succ n ih => simp [beats, ih]

/-! ## The directory tree -/

/-- When the parent address of a node that is not removed has no entry in the map,
`PathExists` of the node reads `parent.Removed` through a nil pointer: it panics,
whatever the depth allowed. -/
theorem pathExists_missing_parent (t : Tree) (address : String) (node : Nat) (nd : Node)
    (h1 : mapGet t.Nodes (CleanAddress address).1 = some node) (h2 : t.heap[node]? = some nd)
    (h3 : nd.Removed = false) (h4 : nd.Address ≠ ".")
    (h5 : t.GetNodeByAddress nd.Parent = none) (fuel : Nat) :
    t.PathExists address (fuel + 1) = Outcome.panic ∧
    t.FileExists address (fuel + 1) = Outcome.panic ∧
    t.DirectoryExists address (fuel + 1) = Outcome.panic := by
  have hp : t.ParentsExist (fuel + 1) node = Outcome.panic := by
    simp only [Tree.ParentsExist, h2, h4, if_false, h5]
  have hpe : t.PathExists address (fuel + 1) = Outcome.panic := by
    simp only [Tree.PathExists, h1, h2, h3, hp]
    rfl
  exact ⟨hpe, by simp only [Tree.FileExists, hpe], by simp only [Tree.DirectoryExists, hpe]⟩

/-- The outcome `panic` of `ParentsExist` does not depend on the fuel: more fuel
gives the same outcome once the outcome is not a timeout. -/
theorem parentsExist_mono (fuel : Nat) (t : Tree) (node : Nat) (r : Outcome (Bool × Tree))
    (h : t.ParentsExist fuel node = r) (hr : r ≠ Outcome.timeout) :
    t.ParentsExist (fuel + 1) node = r := by
  induction fuel generalizing node r with
  | zero =>
    simp only [Tree.ParentsExist] at h
    exact absurd h.symm hr
  | succ fuel ih =>
    rw [Tree.ParentsExist] at h ⊢
    cases h2 : t.heap[node]? with
    | none => simpa [h2] using h
    | some nd =>
      simp only [h2] at h ⊢
      by_cases h4 : nd.Address = "."
      · simpa [h4] using h
      · simp only [h4, if_false] at h ⊢
        cases h5 : t.GetNodeByAddress nd.Parent with
        | none => simpa [h5] using h
        | some parent =>
          simp only [h5] at h ⊢
          cases h6 : t.heap[parent]? with
          | none => simpa [h6] using h
          | some pnd =>
            simp only [h6] at h ⊢
            by_cases h7 : pnd.Removed = true
            · simpa [h7] using h
            · simp only [h7] at h ⊢
              cases h8 : t.ParentsExist fuel parent with
              | timeout =>
                simp only [h8] at h
                exact absurd h.symm hr
              | panic =>
                rw [ih parent _ h8 (by simp)]
                simpa [h8] using h
              | done p =>
                rw [ih parent _ h8 (by simp)]
                simpa [h8] using h


/-! ## The expectation engine: at-most-once use and authorisation -/

/-- C1. At-most-once use: once a GET or POST of chunk `c` under token `t` has been
served (it passed the check, so its answer is not 401, and was fulfilled),
`GetTokenExpectationForChunk(t, c)` is `Nothing`, and after any further requests
that do not register `t` again it still is, so that a GET or a POST of `c` with `t`
is answered 401 and leaves the whole state (store, namenode calls, expectations) as
it was. -/
theorem at_most_once_use (s s1 : FileServer) (r : Response) (t c body : String) (m : Method)
    (ops : List Op)
    (hm : m ≠ Method.OTHER)
    (hserved : s.ServeClient m c t body = some (r, s1))
    (hcode : r.code ≠ 401)
    (hops : s1.neverRegisters t ops = true) :
    s1.GetTokenExpectationForChunk t c = ExpectAction.Nothing ∧
    (s1.run ops).GetTokenExpectationForChunk t c = ExpectAction.Nothing ∧
    (s1.run ops).SendChunk c t = some ({ code := 401, body := "" }, s1.run ops) ∧
    ∀ b, (s1.run ops).ReceiveChunk c t b = some ({ code := 401, body := "" }, s1.run ops) := by
  have hg : grant (s1.look t) c = ExpectAction.Nothing := by
    by_cases hauth : s.GetTokenExpectationForChunk t c = ExpectAction.Nothing
    · exfalso
      cases m with
      | OTHER => exact hm rfl
      | GET =>
        simp only [FileServer.ServeClient, sendChunk_denied s c t hauth] at hserved
        cases hserved
        exact hcode rfl
      | POST =>
        simp only [FileServer.ServeClient, receiveChunk_denied s c t body hauth] at hserved
        cases hserved
        exact hcode rfl
    · cases m with
      | OTHER => exact absurd rfl hm
      | GET =>
        obtain ⟨s2, hf, hS⟩ := sendChunk_granted s c t hauth
        simp only [FileServer.ServeClient, hS] at hserved
        cases hserved
        exact (fulfill_inv s s1 t c hf).2.2.2.2.2
      | POST =>
        rcases receiveChunk_granted s c t body hauth with ⟨_, s2, hf, hS⟩ | ⟨_, s2, hf, hS⟩
        · simp only [FileServer.ServeClient, hS] at hserved
          cases hserved
          exact (fulfill_inv s s1 t c hf).2.2.2.2.2
        · simp only [FileServer.ServeClient, hS] at hserved
          cases hserved
          exact (fulfill_inv _ s1 t c hf).2.2.2.2.2
  have h2 : (s1.run ops).GetTokenExpectationForChunk t c = ExpectAction.Nothing := by
    rw [getTok_eq_grant]
    exact (run_lookLE ops s1 t hops).grant_nothing c hg
  exact ⟨by rw [getTok_eq_grant]; exact hg, h2, sendChunk_denied _ c t h2,
    fun b => receiveChunk_denied _ c t b h2⟩

/-- Witness of C1: the read expectation `("1", Read, "1")` of the test, served by a
GET and followed by a GET with another token, a failing `Expect` of the same token
and an `Expect` of another token. -/
theorem at_most_once_use_witness :
    (NewFileServer exampleStore).SendChunk "1" "1"
      = some ({ code := 401, body := "" }, NewFileServer exampleStore) ∧
    ((NewFileServer exampleStore).run
        [Op.get "1" "xyz", Op.expect "1" ExpectAction.Read ["zz"],
         Op.expect "0" ExpectAction.Read ["0"]]).SendChunk "1" "1"
      = some ({ code := 401, body := "" }, (NewFileServer exampleStore).run
        [Op.get "1" "xyz", Op.expect "1" ExpectAction.Read ["zz"],
         Op.expect "0" ExpectAction.Read ["0"]]) :=
  ⟨(at_most_once_use exampleReadServer (NewFileServer exampleStore)
      { code := 200, body := "world" } "1" "1" "" Method.GET []
      (by decide) (by decide) (by decide) (by decide)).2.2.1,
   (at_most_once_use exampleReadServer (NewFileServer exampleStore)
      { code := 200, body := "world" } "1" "1" "" Method.GET
      [Op.get "1" "xyz", Op.expect "1" ExpectAction.Read ["zz"],
       Op.expect "0" ExpectAction.Read ["0"]]
      (by decide) (by decide) (by decide) (by decide)).2.2.1⟩

/-- C2. `GetTokenExpectationForChunk(t, c)` returns the action of the expectation of
`t` when `t` is registered, `c` is listed in it and `c` is not marked processed, and
`Nothing` in every other case. -/
theorem getTokenExpectationForChunk_spec (s : FileServer) (t c : String) :
    (∀ e, s.expectations.Get t = some e → mapGet e.processedChunks c = some false →
      s.GetTokenExpectationForChunk t c = e.action) ∧
    ((¬ ∃ e, s.expectations.Get t = some e ∧ mapGet e.processedChunks c = some false) →
      s.GetTokenExpectationForChunk t c = ExpectAction.Nothing) := by
  unfold FileServer.GetTokenExpectationForChunk
  constructor
  · intro e he hc
    simp [he, hc]
  · intro hn
    cases he : s.expectations.Get t with
    | none => rfl
    | some e =>
      simp only
      cases hc : mapGet e.processedChunks c with
      | none => rfl
      | some b =>
        cases b with
        | true => rfl
        | false => exact absurd ⟨e, he, hc⟩ hn

/-- Witness of C2: the three cases on the read expectation of the test. -/
theorem getTokenExpectationForChunk_spec_witness :
    exampleReadServer.GetTokenExpectationForChunk "1" "1" = ExpectAction.Read ∧
    exampleReadServer.GetTokenExpectationForChunk "1" "0" = ExpectAction.Nothing ∧
    exampleReadServer.GetTokenExpectationForChunk "xyz" "1" = ExpectAction.Nothing :=
  ⟨(getTokenExpectationForChunk_spec exampleReadServer "1" "1").1
      ⟨ExpectAction.Read, [("1", false)], 1⟩ (by decide) (by decide),
    (getTokenExpectationForChunk_spec exampleReadServer "1" "0").2 (by decide),
    (getTokenExpectationForChunk_spec exampleReadServer "xyz" "1").2 (by decide)⟩

/-- C3, counterexample. A GET under a write expectation: the token `w` is a `Write`
expectation listing chunk `0`, so `GetTokenExpectationForChunk` is not `Read`, yet
the GET is answered 200 with the bytes of the chunk, and the expectation is consumed
(the token is released). -/
theorem sendChunk_write_token_counterexample :
    exampleWriteServer.GetTokenExpectationForChunk "w" "0" ≠ ExpectAction.Read ∧
    exampleWriteServer.SendChunk "0" "w" =
      some ({ code := 200, body := "Hello" }, NewFileServer exampleStore) ∧
    exampleWriteServer.expectations ≠ (NewFileServer exampleStore).expectations := by
  decide

/-- C3, amended. `SendChunk` answers 401 exactly when
`GetTokenExpectationForChunk(t, c)` is `Nothing`; in that case no bytes are served and
the state is unchanged. Under any other action, `Write` included, the GET passes the
check: it is answered 200 with the bytes of `c` when `c` is in the store and 404
without bytes when it is not, the store and the notifications are unchanged, and the
expectation of `c` is consumed. -/
theorem sendChunk_unauthorized_iff (s : FileServer) (c t : String) :
    (s.GetTokenExpectationForChunk t c = ExpectAction.Nothing →
      s.SendChunk c t = some ({ code := 401, body := "" }, s)) ∧
    (s.GetTokenExpectationForChunk t c ≠ ExpectAction.Nothing →
      ∀ content, s.chunks.Get c = some content →
        ∃ s1, s.SendChunk c t = some ({ code := 200, body := content }, s1) ∧
          s1.chunks = s.chunks ∧ s1.nsConn = s.nsConn ∧
          s1.GetTokenExpectationForChunk t c = ExpectAction.Nothing) ∧
    (s.GetTokenExpectationForChunk t c ≠ ExpectAction.Nothing →
      s.chunks.Get c = none →
        ∃ s1, s.SendChunk c t = some ({ code := 404, body := "" }, s1) ∧
          s1.chunks = s.chunks ∧ s1.nsConn = s.nsConn ∧
          s1.GetTokenExpectationForChunk t c = ExpectAction.Nothing) ∧
    (∀ r s1, s.SendChunk c t = some (r, s1) →
      (r.code = 401 ↔ s.GetTokenExpectationForChunk t c = ExpectAction.Nothing)) := by
  refine ⟨sendChunk_denied s c t, ?_, ?_, ?_⟩
  · intro hauth content hc
    obtain ⟨s1, hf, hS⟩ := sendChunk_granted s c t hauth
    obtain ⟨hch, hns, _, _, _, hg⟩ := fulfill_inv s s1 t c hf
    rw [hc] at hS
    exact ⟨s1, hS, hch, hns, by rw [getTok_eq_grant]; exact hg⟩
  · intro hauth hc
    obtain ⟨s1, hf, hS⟩ := sendChunk_granted s c t hauth
    obtain ⟨hch, hns, _, _, _, hg⟩ := fulfill_inv s s1 t c hf
    rw [hc] at hS
    exact ⟨s1, hS, hch, hns, by rw [getTok_eq_grant]; exact hg⟩
  · intro r s1 hS
    by_cases hauth : s.GetTokenExpectationForChunk t c = ExpectAction.Nothing
    · rw [sendChunk_denied s c t hauth] at hS
      cases hS
      exact ⟨fun _ => hauth, fun _ => rfl⟩
    · obtain ⟨s2, _, hS2⟩ := sendChunk_granted s c t hauth
      rw [hS2] at hS
      cases hS
      refine ⟨fun h => ?_, fun h => absurd h hauth⟩
      exfalso
      cases hc : s.chunks.Get c with
      | none => rw [hc] at h; cases h
      | some content => rw [hc] at h; cases h

/-- Witness of C3: the GET of chunk `0` under the write token `w` is answered 200
with the bytes of the chunk, and the GET under an unknown token is answered 401. -/
theorem sendChunk_unauthorized_iff_witness :
    (∃ s1, exampleWriteServer.SendChunk "0" "w" = some ({ code := 200, body := "Hello" }, s1) ∧
      s1.chunks = exampleWriteServer.chunks ∧ s1.nsConn = exampleWriteServer.nsConn ∧
      s1.GetTokenExpectationForChunk "w" "0" = ExpectAction.Nothing) ∧
    exampleWriteServer.SendChunk "0" "xyz"
      = some ({ code := 401, body := "" }, exampleWriteServer) :=
  ⟨(sendChunk_unauthorized_iff exampleWriteServer "0" "w").2.1 (by decide) "Hello" (by decide),
   (sendChunk_unauthorized_iff exampleWriteServer "0" "xyz").1 (by decide)⟩

/-- C4, counterexample. A POST under a read expectation: the token `1` is a `Read`
expectation listing chunk `1`, so `GetTokenExpectationForChunk` is not `Write`, yet
the POST is answered 403, not 401, and the expectation is consumed. -/
theorem receiveChunk_read_token_counterexample :
    exampleReadServer.GetTokenExpectationForChunk "1" "1" ≠ ExpectAction.Write ∧
    exampleReadServer.ReceiveChunk "1" "1" "new" =
      some ({ code := 403, body := "" }, NewFileServer exampleStore) ∧
    exampleReadServer.expectations ≠ (NewFileServer exampleStore).expectations := by
  decide

/-- C4, amended. `ReceiveChunk` answers 401 exactly when
`GetTokenExpectationForChunk(t, c)` is `Nothing`; in that case the store is not
touched, the namenode is not notified and no expectation is consumed (the state is
unchanged). Under any other action, `Read` included, the POST passes the check: when
`c` is in the store it is answered 403, and the store and the notifications are
unchanged; when `c` is not in the store it is answered 200, the store holds `c` with
the body and every other chunk as before, and the namenode is notified of `c`; in both
cases the expectation of `c` is consumed. -/
theorem receiveChunk_unauthorized_iff (s : FileServer) (c t body : String) :
    (s.GetTokenExpectationForChunk t c = ExpectAction.Nothing →
      s.ReceiveChunk c t body = some ({ code := 401, body := "" }, s)) ∧
    (s.GetTokenExpectationForChunk t c ≠ ExpectAction.Nothing →
      s.chunks.Exists c = true →
        ∃ s1, s.ReceiveChunk c t body = some ({ code := 403, body := "" }, s1) ∧
          s1.chunks = s.chunks ∧ s1.nsConn = s.nsConn ∧
          s1.GetTokenExpectationForChunk t c = ExpectAction.Nothing) ∧
    (s.GetTokenExpectationForChunk t c ≠ ExpectAction.Nothing →
      s.chunks.Exists c = false →
        ∃ s1, s.ReceiveChunk c t body = some ({ code := 200, body := "" }, s1) ∧
          s1.chunks.Get c = some body ∧
          (∀ c2, c2 ≠ c → s1.chunks.Get c2 = s.chunks.Get c2) ∧
          s1.nsConn = s.nsConn ++ [c] ∧
          s1.GetTokenExpectationForChunk t c = ExpectAction.Nothing) ∧
    (∀ r s1, s.ReceiveChunk c t body = some (r, s1) →
      (r.code = 401 ↔ s.GetTokenExpectationForChunk t c = ExpectAction.Nothing)) := by
  refine ⟨receiveChunk_denied s c t body, ?_, ?_, ?_⟩
  · intro hauth hex
    rcases receiveChunk_granted s c t body hauth with ⟨_, s1, hf, hS⟩ | ⟨hne, _⟩
    · obtain ⟨hch, hns, _, _, _, hg⟩ := fulfill_inv s s1 t c hf
      exact ⟨s1, hS, hch, hns, by rw [getTok_eq_grant]; exact hg⟩
    · rw [hex] at hne
      cases hne
  · intro hauth hne
    rcases receiveChunk_granted s c t body hauth with ⟨hex, _⟩ | ⟨_, s1, hf, hS⟩
    · rw [hne] at hex
      cases hex
    · obtain ⟨hch, hns, _, _, _, hg⟩ := fulfill_inv _ s1 t c hf
      refine ⟨s1, hS, ?_, fun c2 hc2 => ?_, hns, by rw [getTok_eq_grant]; exact hg⟩
      · rw [hch]
        simp [ChunkDB.Get, mapGet_mapSet]
      · rw [hch]
        have : ¬ c = c2 := fun e => hc2 e.symm
        simp [ChunkDB.Get, mapGet_mapSet, this]
  · intro r s1 hS
    by_cases hauth : s.GetTokenExpectationForChunk t c = ExpectAction.Nothing
    · rw [receiveChunk_denied s c t body hauth] at hS
      cases hS
      exact ⟨fun _ => hauth, fun _ => rfl⟩
    · refine ⟨fun h => ?_, fun h => absurd h hauth⟩
      exfalso
      rcases receiveChunk_granted s c t body hauth with ⟨_, s2, _, hS2⟩ | ⟨_, s2, _, hS2⟩
      · rw [hS2] at hS
        cases hS
        cases h
      · rw [hS2] at hS
        cases hS
        cases h

/-- Witness of C4: the POST of the present chunk `1` under the read token `1` is
answered 403, the POST of the absent chunk `0` of an empty store under the write
token `w` is answered 200, and a POST under an unknown token is answered 401. -/
theorem receiveChunk_unauthorized_iff_witness :
    (∃ s1, exampleReadServer.ReceiveChunk "1" "1" "new"
        = some ({ code := 403, body := "" }, s1) ∧
      s1.chunks = exampleReadServer.chunks ∧ s1.nsConn = exampleReadServer.nsConn ∧
      s1.GetTokenExpectationForChunk "1" "1" = ExpectAction.Nothing) ∧
    (∃ s1, exampleHistory.ReceiveChunk "1" "history" "chunk1"
        = some ({ code := 200, body := "" }, s1) ∧
      s1.chunks.Get "1" = some "chunk1" ∧
      (∀ c2, c2 ≠ "1" → s1.chunks.Get c2 = exampleHistory.chunks.Get c2) ∧
      s1.nsConn = exampleHistory.nsConn ++ ["1"] ∧
      s1.GetTokenExpectationForChunk "history" "1" = ExpectAction.Nothing) ∧
    exampleReadServer.ReceiveChunk "1" "xyz" "new"
      = some ({ code := 401, body := "" }, exampleReadServer) :=
  ⟨(receiveChunk_unauthorized_iff exampleReadServer "1" "1" "new").2.1 (by decide) (by decide),
   (receiveChunk_unauthorized_iff exampleHistory "1" "history" "chunk1").2.2.1
      (by decide) (by decide),
   (receiveChunk_unauthorized_iff exampleReadServer "1" "xyz" "new").1 (by decide)⟩

/-! ## `Expect`: uniqueness, read existence, atomicity -/

/-- C5. Token uniqueness: `Expect` on a registered token fails with the
token-exists error whatever the action and the chunks are, and is no state change;
`ExpectHandler` answers 403 and leaves the expectations and the store as they were.
When the token was registered by `Expect(t, a1, cs1)`, every chunk of `cs1` is still
granted `a1` and every chunk outside `cs1` is still denied. -/
theorem expect_token_uniqueness (s : FileServer) (t : String) (e : TokenExpectation)
    (a : ExpectAction) (cs : List String) (h : s.expectations.Get t = some e) :
    s.Expect t a cs = .error ExpectError.TokenExists ∧
    s.step (Op.expect t a cs) = s ∧
    (∀ actionStr mock, strToExpectAction actionStr = some a → t ≠ "" →
      (s.ExpectHandler actionStr t (some cs) mock).1.code = 403 ∧
      (s.ExpectHandler actionStr t (some cs) mock).2.expectations = s.expectations ∧
      (s.ExpectHandler actionStr t (some cs) mock).2.chunks = s.chunks ∧
      ∀ c, (s.ExpectHandler actionStr t (some cs) mock).2.GetTokenExpectationForChunk t c
        = s.GetTokenExpectationForChunk t c) ∧
    (∀ (s0 : FileServer) (a1 : ExpectAction) (cs1 : List String), s0.Expect t a1 cs1 = .ok s → ∀ c,
      (c ∈ cs1 → (s.step (Op.expect t a cs)).GetTokenExpectationForChunk t c = a1) ∧
      (c ∉ cs1 → (s.step (Op.expect t a cs)).GetTokenExpectationForChunk t c
        = ExpectAction.Nothing)) := by
  have hE := expect_registered s t e a cs h
  have hstep : s.step (Op.expect t a cs) = s := by
    simp only [FileServer.step, hE]
  refine ⟨hE, hstep, ?_, ?_⟩
  · intro actionStr mock ha ht
    have hm : ∀ s0 : FileServer, s0.expectations = s.expectations →
        s0.Expect t a cs = .error ExpectError.TokenExists := by
      intro s0 h0
      exact expect_registered s0 t e a cs (h0 ▸ h)
    cases mock with
    | false =>
      simp [FileServer.ExpectHandler, ha, ht, hE]
    | true =>
      simp [FileServer.ExpectHandler, ha, ht, hm { s with nsConn := s.nsConn ++ cs } rfl,
        FileServer.GetTokenExpectationForChunk]
  · intro s0 a1 cs1 h1 c
    rw [hstep, getTok_eq_grant]
    have hl := (expect_ok_look s0 s t t a1 cs1 h1).1
    simp only [if_true] at hl
    rw [hl]
    simp only [grant, mapGet_fillFalse]
    constructor
    · intro hc; simp [hc]
    · intro hc; simp [hc, mapGet]

/-- Witness of C5: the read expectation of the test, registered again as a write
expectation with another chunk list. -/
theorem expect_token_uniqueness_witness :
    exampleReadServer.Expect "1" ExpectAction.Write ["1", "2"]
      = .error ExpectError.TokenExists ∧
    exampleReadServer.step (Op.expect "1" ExpectAction.Write ["1", "2"]) = exampleReadServer :=
  ⟨(expect_token_uniqueness exampleReadServer "1" ⟨ExpectAction.Read, [("1", false)], 1⟩
      ExpectAction.Write ["1", "2"] (by decide)).1,
   (expect_token_uniqueness exampleReadServer "1" ⟨ExpectAction.Read, [("1", false)], 1⟩
      ExpectAction.Write ["1", "2"] (by decide)).2.1⟩

/-- C6. Read existence: on a token that is not registered, `Expect(t, Read, ids)`
fails, with `ErrChunkNotFound`, if and only if one of the ids is absent from the
store, and succeeds if and only if all are present; `Expect(t, Write, ids)` always
succeeds. -/
theorem expect_read_existence (s : FileServer) (t : String) (cs : List String)
    (h : s.expectations.Get t = none) :
    (s.Expect t ExpectAction.Read cs = .error ExpectError.ErrChunkNotFound ↔
      ∃ id ∈ cs, s.chunks.Exists id = false) ∧
    ((∃ s1, s.Expect t ExpectAction.Read cs = .ok s1) ↔
      ∀ id ∈ cs, s.chunks.Exists id = true) ∧
    (∃ s1, s.Expect t ExpectAction.Write cs = .ok s1) :=
  expect_unregistered s t cs h

/-- Witness of C6: the chunk `abc` of the test is not in the store. -/
theorem expect_read_existence_witness :
    (NewFileServer exampleStore).Expect "abc" ExpectAction.Read ["0", "abc"]
      = .error ExpectError.ErrChunkNotFound ∧
    ∃ s1, (NewFileServer exampleStore).Expect "abc" ExpectAction.Write ["0", "abc"] = .ok s1 :=
  ⟨(expect_read_existence (NewFileServer exampleStore) "abc" ["0", "abc"] (by decide)).1.mpr
      ⟨"abc", by decide, by decide⟩,
   (expect_read_existence (NewFileServer exampleStore) "abc" ["0", "abc"] (by decide)).2.2⟩

/-- C7. Atomic expect: a failed `Expect` is no state change (also when the missing
chunk comes after chunks that exist: nothing is inserted), so a later `Expect` with
the same token behaves as if the failed call had not been made; when the call failed
on a missing read source the token is still free, and a later `Expect` with that
token succeeds as a write expectation, and as a read expectation whose chunks exist. -/
theorem expect_atomic (s : FileServer) (t : String) (a : ExpectAction) (cs : List String)
    (err : ExpectError) (hfail : s.Expect t a cs = .error err) :
    s.step (Op.expect t a cs) = s ∧
    (∀ actionStr, strToExpectAction actionStr = some a →
      (s.ExpectHandler actionStr t (some cs) false).2 = s) ∧
    (∀ a2 cs2, (s.step (Op.expect t a cs)).Expect t a2 cs2 = s.Expect t a2 cs2) ∧
    (err = ExpectError.ErrChunkNotFound →
      (s.step (Op.expect t a cs)).expectations.Get t = none ∧
      (∀ cs2, ∃ s1, (s.step (Op.expect t a cs)).Expect t ExpectAction.Write cs2 = .ok s1) ∧
      (∀ cs2, (∀ id ∈ cs2, s.chunks.Exists id = true) →
        ∃ s1, (s.step (Op.expect t a cs)).Expect t ExpectAction.Read cs2 = .ok s1)) := by
  have hstep : s.step (Op.expect t a cs) = s := by
    simp only [FileServer.step, hfail]
  refine ⟨hstep, ?_, ?_, ?_⟩
  · intro actionStr ha
    unfold FileServer.ExpectHandler
    simp only [ha]
    by_cases ht : t = ""
    · simp only [if_pos ht]
    · simp [ht, hfail]
  · intro a2 cs2
    rw [hstep]
  · intro herr
    rw [hstep]
    have hfree : s.expectations.Get t = none := by
      cases hl : s.expectations.Get t with
      | none => rfl
      | some e =>
        rw [expect_registered s t e a cs hl] at hfail
        rw [herr] at hfail
        cases hfail
    refine ⟨hfree, fun cs2 => (expect_unregistered s t cs2 hfree).2.2, fun cs2 hall => ?_⟩
    exact (expect_unregistered s t cs2 hfree).2.1.mpr hall

/-- Witness of C7: the missing chunk `zz` comes after the chunk `0` that exists. -/
theorem expect_atomic_witness :
    (NewFileServer exampleStore).step (Op.expect "t" ExpectAction.Read ["0", "zz"])
      = NewFileServer exampleStore ∧
    ∃ s1, ((NewFileServer exampleStore).step
      (Op.expect "t" ExpectAction.Read ["0", "zz"])).Expect "t" ExpectAction.Read ["0"] = .ok s1 :=
  ⟨(expect_atomic (NewFileServer exampleStore) "t" ExpectAction.Read ["0", "zz"]
      ExpectError.ErrChunkNotFound (by rfl)).1,
   (expect_atomic (NewFileServer exampleStore) "t" ExpectAction.Read ["0", "zz"]
      ExpectError.ErrChunkNotFound (by rfl)).2.2.2 rfl |>.2.2 ["0"] (by decide)⟩

/-! ## Cancellation -/

/-- C8, counterexample. The write token `w` lists the chunks `1` and `2` and received
chunk `1`; the read expectation `r`, registered afterwards, names chunk `1` too.
`CancelToken(w)` answers 200, and after the scheduled removals have run chunk `1` is
still in the store: its removal waits for the release of `r`. -/
theorem cancel_shared_chunk_counterexample :
    exampleSharedChunk.chunks.Get "1" = some "chunk1" ∧
    (exampleSharedChunk.CancelTokenHandler "w").map (fun p => p.1.code) = some 200 ∧
    ((exampleSharedChunk.step (Op.cancel "w")).runScheduled).chunks.Exists "1" = true := by
  decide

/-- C8, amended. Let `t` be a non-empty write token and `c` a chunk received under
`t` (a POST answered 200). If, after further requests that do not register `t`, the
token is still registered, the capacity `len(processedChunks) - pendingCount` is not
negative and no other registered expectation names `c`, then `CancelToken(t)`
answers 200, once the scheduled removals have run `c` is not in the store, and every
later GET or POST under `t`, of any chunk, is answered 401 and changes nothing, as
long as `t` is not registered again. -/
theorem cancel_purges_partial_writes (s0 s1 : FileServer) (t c body : String)
    (ops : List Op) (e : TokenExpectation)
    (ht : t ≠ "")
    (hw : s0.GetTokenExpectationForChunk t c = ExpectAction.Write)
    (hpost : s0.ReceiveChunk c t body = some ({ code := 200, body := "" }, s1))
    (hops : s1.neverRegisters t ops = true)
    (hreg : (s1.run ops).expectations.Get t = some e)
    (hcap : 0 ≤ (e.processedChunks.length : Int) - e.pendingCount)
    (hsole : namedIn (mapDelete (s1.run ops).expectations.tokens t) c = false) :
    ∃ s2, (s1.run ops).CancelTokenHandler t = some ({ code := 200, body := "" }, s2) ∧
      s2.runScheduled.chunks.Exists c = false ∧
      ∀ later : List Op, s2.neverRegisters t later = true → ∀ c2 b,
        (s2.run later).SendChunk c2 t = some ({ code := 401, body := "" }, s2.run later) ∧
        (s2.run later).ReceiveChunk c2 t b =
          some ({ code := 401, body := "" }, s2.run later) := by
  -- the chunk is marked processed in the expectation that is cancelled
  have hne : s0.GetTokenExpectationForChunk t c ≠ ExpectAction.Nothing := by
    rw [hw]; decide
  have hg0 : grant (s0.look t) c = ExpectAction.Write := by
    rw [← getTok_eq_grant]; exact hw
  obtain ⟨e0, he0⟩ := grant_ne_nothing (by rw [hg0]; decide : grant (s0.look t) c ≠ ExpectAction.Nothing)
  have hle1 : lookLE (s0.look t) (s1.look t) := receiveChunk_lookLE s0 s1 _ c t body t hpost
  have hg1 : grant (s1.look t) c = ExpectAction.Nothing := by
    obtain ⟨r, s1', h1, _, h2⟩ := receiveChunk_consumes s0 c t body hne
    rw [hpost] at h1
    cases h1
    rw [← getTok_eq_grant]; exact h2
  have hle : lookLE (s0.look t) ((s1.run ops).look t) := hle1.trans (run_lookLE ops s1 t hops)
  have hflag : mapGet e.processedChunks c = some true ∧ e.action = ExpectAction.Write := by
    rcases hle1 with h1 | ⟨e0', e1, a, b, adv⟩
    · -- released by the POST: cannot be registered later
      rcases run_lookLE ops s1 t hops with h2 | ⟨e1, e2, a, _, _⟩
      · rw [FileServer.look, hreg] at h2; cases h2
      · rw [h1] at a; cases a
    · rw [he0] at a; cases a
      have hact : e0.action = ExpectAction.Write ∧ mapGet e0.processedChunks c = some false := by
        rw [he0] at hg0
        simp only [grant] at hg0
        cases hm : mapGet e0.processedChunks c with
        | none => rw [hm] at hg0; cases hg0
        | some p =>
          rw [hm] at hg0
          cases p with
          | true => cases hg0
          | false => exact ⟨hg0, rfl⟩
      have h1flag : mapGet e1.processedChunks c = some true := by
        rcases adv.2 c with q | ⟨_, q⟩
        · rw [b] at hg1
          simp only [grant, q, hact.2, adv.1, hact.1] at hg1
          cases hg1
        · exact q
      have := (run_lookLE ops s1 t hops).processed c e1 e b hreg h1flag
      exact ⟨this.1, by rw [this.2, adv.1, hact.1]⟩
  obtain ⟨s2, h2, hchunks, _, hlook, _, hsched⟩ :=
    cancel_registered (s1.run ops) t e ht hreg hcap
  refine ⟨s2, h2, ?_, ?_⟩
  · have hundo : c ∈ toUndoOf e := mem_toUndoOf e c hflag.1
    have hlen : (toUndoOf e).length ≠ 0 := by
      intro h0
      rw [List.length_eq_zero] at h0
      rw [h0] at hundo
      cases hundo
    have hmem : c ∈ s2.scheduled := by
      rw [hsched]
      simp only [List.mem_append, List.mem_filter, Bool.and_eq_true]
      right; right
      refine ⟨toUndoOf_subset e c hundo, ?_, by simp [hsole]⟩
      rw [if_pos ⟨hflag.2, hlen⟩]
      simpa using (makeObsolete_obsolete _ _ c).mpr (Or.inr hundo)
    have := removeAll_get_of_mem s2.scheduled s2.chunks c hmem
    simp only [FileServer.runScheduled, ChunkDB.Exists]
    simp only [ChunkDB.Get] at this
    rw [this]
    rfl
  · intro later hlater c2 b
    have hnone : (s2.run later).look t = none := by
      rcases run_lookLE later s2 t hlater with h3 | ⟨e1, e2, a, _, _⟩
      · exact h3
      · rw [hlook t] at a
        simp at a
    have hden : (s2.run later).GetTokenExpectationForChunk t c2 = ExpectAction.Nothing := by
      rw [getTok_eq_grant, hnone]; rfl
    exact ⟨sendChunk_denied _ c2 t hden, receiveChunk_denied _ c2 t b hden⟩

/-- Witness of C8: the scenario of `TestFS_CancelExpect`, for chunk `1`. -/
theorem cancel_purges_partial_writes_witness :
    ∃ s2, ((exampleHistory.step (Op.post "1" "history" "chunk1")).run
        [Op.post "3" "history" "whatisthis"]).CancelTokenHandler "history"
          = some ({ code := 200, body := "" }, s2) ∧
      s2.runScheduled.chunks.Exists "1" = false ∧
      ∀ later : List Op, s2.neverRegisters "history" later = true → ∀ c2 b,
        (s2.run later).SendChunk c2 "history" = some ({ code := 401, body := "" }, s2.run later) ∧
        (s2.run later).ReceiveChunk c2 "history" b =
          some ({ code := 401, body := "" }, s2.run later) :=
  cancel_purges_partial_writes exampleHistory (exampleHistory.step (Op.post "1" "history" "chunk1"))
    "history" "1" "chunk1" [Op.post "3" "history" "whatisthis"]
    ⟨ExpectAction.Write, [("1", true), ("2", false), ("3", true), ("4", false)], 2⟩
    (by decide) (by decide) (by decide) (by decide) (by decide) (by decide) (by decide)

/-- The scenario of `TestFS_CancelExpect`: after the cancellation and its removals
the store is empty, and a POST of chunk `2` under the token is answered 401. -/
theorem cancel_history_scenario :
    ((exampleHistory.run [Op.post "1" "history" "chunk1", Op.post "3" "history" "whatisthis",
        Op.cancel "history"]).runScheduled).chunks.index = [] ∧
    ((exampleHistory.run [Op.post "1" "history" "chunk1", Op.post "3" "history" "whatisthis",
        Op.cancel "history"]).runScheduled.ReceiveChunk "2" "history" "again??").map
      (fun p => p.1.code) = some 401 := by
  decide

/-- The scenario of a purge deferred by a read token: the read expectation `r` names
chunk `0`, a purge of `0` is deferred while `r` is registered, and the cancellation
of `r`, which releases the last token naming the chunk, schedules the removal that
the purge asked for, after which chunk `0` is gone. -/
theorem cancel_read_token_purged_scenario :
    examplePurgedRead.chunks.Get "0" = some "Hello" ∧
    (examplePurgedRead.expectations.Get "r").map (fun e => e.action) = some ExpectAction.Read ∧
    (examplePurgedRead.CancelTokenHandler "r").map (fun p => p.1.code) = some 200 ∧
    ((examplePurgedRead.step (Op.cancel "r")).runScheduled).chunks.Exists "0" = false := by
  decide

/-- What `CancelTokenHandler` does to the store. It schedules the removal only of
chunks that the expectation of `t` lists and that are already marked obsolete or are
marked processed under a write token `t`: every other chunk that awaits no earlier
removal has the same content in the store after the cancellation and its removals.
The cancellation of a token that is not a write token and none of whose chunks is
obsolete schedules no removal. -/
theorem cancel_frame (s : FileServer) (t : String) :
    (∀ c, c ∉ s.scheduled →
      (∀ e, s.expectations.Get t = some e → c ∈ mapKeys e.processedChunks →
        c ∉ s.expectations.obsolete ∧ ¬ (e.action = ExpectAction.Write ∧ c ∈ toUndoOf e)) →
      ((s.step (Op.cancel t)).runScheduled).chunks.Get c = s.chunks.Get c) ∧
    (∀ e, s.expectations.Get t = some e → e.action ≠ ExpectAction.Write →
      (∀ k ∈ mapKeys e.processedChunks, k ∉ s.expectations.obsolete) →
      (s.step (Op.cancel t)).scheduled = s.scheduled ∧
      (s.step (Op.cancel t)).chunks = s.chunks) := by
  constructor
  · intro c hs hc
    simp only [FileServer.step]
    cases hC : s.CancelTokenHandler t with
    | none =>
      simp only [orStay, FileServer.runScheduled]
      exact removeAll_get_of_not_mem _ _ c hs
    | some p =>
      obtain ⟨r, s1⟩ := p
      simp only [orStay, FileServer.runScheduled]
      have hnot : c ∉ s1.scheduled := by
        intro hmem
        rcases cancel_scheduled s s1 r t c hC hmem with h1 | ⟨e, he, hk, h2⟩
        · exact hs h1
        · have := hc e he hk
          rcases h2 with h2 | h2
          · exact this.1 h2
          · exact this.2 h2
      rw [removeAll_get_of_not_mem _ _ c hnot, (cancel_lookLE s s1 r t t hC).2.1]
  · intro e he hact hobs
    simp only [FileServer.step]
    cases hC : s.CancelTokenHandler t with
    | none => exact ⟨rfl, rfl⟩
    | some p =>
      obtain ⟨r, s1⟩ := p
      simp only [orStay]
      refine ⟨?_, (cancel_lookLE s s1 r t t hC).2.1⟩
      by_cases ht : t = ""
      · simp only [FileServer.CancelTokenHandler, ht, if_true] at hC
        cases hC; rfl
      · by_cases hcap : 0 ≤ (e.processedChunks.length : Int) - e.pendingCount
        · obtain ⟨s2, h2, _, _, _, _, hsched⟩ := cancel_registered s t e ht he hcap
          rw [h2] at hC
          cases hC
          rw [hsched]
          have hw : ¬ (e.action = ExpectAction.Write ∧ (toUndoOf e).length ≠ 0) :=
            fun h => hact h.1
          simp only [if_neg hw, List.nil_append]
          have : (mapKeys e.processedChunks).filter (fun id =>
              s.expectations.obsolete.contains id &&
              !namedIn (mapDelete s.expectations.tokens t) id) = [] := by
            rw [List.filter_eq_nil_iff]
            intro k hk
            have := hobs k hk
            simp [this]
          rw [this, List.append_nil]
        · have hcap' : (e.processedChunks.length : Int) - e.pendingCount < 0 := not_le.mp hcap
          simp [FileServer.CancelTokenHandler, ht, he, hcap'] at hC

/-- C9, the failing input. Chunk `1` is in the store, with the content `world`,
before the write token `t` is registered with the chunks `1` and `2`. The POST of `1`
under `t` is refused with 403, and the deferred `fulfillExpectation` marks the chunk
processed all the same. `CancelToken(t)` answers 200 and collects chunk `1` in
`toUndo`, and once the scheduled removals have run chunk `1` is not in the store. -/
theorem cancel_refused_chunk_scenario :
    (NewFileServer exampleStore).chunks.Get "1" = some "world" ∧
    ((NewFileServer exampleStore).run [Op.expect "t" ExpectAction.Write ["1", "2"]]).ReceiveChunk
        "1" "t" "new" =
      some ({ code := 403, body := "" },
        { NewFileServer exampleStore with
          expectations := { tokens := [("t", ⟨ExpectAction.Write, [("1", true), ("2", false)], 1⟩)],
                            obsolete := [] } }) ∧
    (((NewFileServer exampleStore).run [Op.expect "t" ExpectAction.Write ["1", "2"],
        Op.post "1" "t" "new"]).CancelTokenHandler "t").map (fun p => p.1.code) = some 200 ∧
    (((NewFileServer exampleStore).run [Op.expect "t" ExpectAction.Write ["1", "2"],
        Op.post "1" "t" "new", Op.cancel "t"]).runScheduled).chunks.Get "1" = none ∧
    (((NewFileServer exampleStore).run [Op.expect "t" ExpectAction.Write ["1", "2"],
        Op.post "1" "t" "new", Op.cancel "t"]).runScheduled).chunks.index = [("0", "Hello")] := by
  decide

/-- Instances of `cancel_frame`: cancelling the write token `w`, which lists chunk
`0` and received nothing, keeps the chunks `0` and `1` of the store, and cancelling
the read token of the test keeps the store. -/
theorem cancel_frame_example :
    (((exampleWriteServer.step (Op.cancel "w")).runScheduled).chunks.Get "0" = some "Hello") ∧
    (((exampleWriteServer.step (Op.cancel "w")).runScheduled).chunks.Get "1" = some "world") ∧
    ((exampleReadServer.step (Op.cancel "1")).scheduled = exampleReadServer.scheduled ∧
      (exampleReadServer.step (Op.cancel "1")).chunks = exampleReadServer.chunks) :=
  ⟨(cancel_frame exampleWriteServer "w").1 "0" (by decide) (by decide),
   (cancel_frame exampleWriteServer "w").1 "1" (by decide) (by decide),
   (cancel_frame exampleReadServer "1").2 ⟨ExpectAction.Read, [("1", false)], 1⟩
      (by decide) (by decide) (by decide)⟩


/-! ## The counter of pending chunks, the happy paths, release and replication -/

/-- C13, the failing input. `Expect("t", Write, "a", "a")` registers an expectation
with `pendingCount` 2 and one entry, which is false; after the POST of `a` every
entry is true and `pendingCount` is 1, not 0. -/
theorem pendingCount_duplicate_ids :
    (exampleDuplicate.look "t").map (fun e => (e.pendingCount, countPending e)) = some (2, 1) ∧
    ((exampleDuplicate.step (Op.post "a" "t" "body")).look "t").map
      (fun e => (e.pendingCount, countPending e, e.processedChunks)) = some (1, 0, [("a", true)]) := by
  decide

/-- C14. Write happy path: for a token `t` with a pending write expectation for `c`
and a chunk id `c` that is not in the store, the POST of `c` with `t` and body `b`
answers 200; afterwards the store holds `c` with content `b` and every other chunk
as before, and `ReceivedChunk` was called once more, with `c`. -/
theorem write_happy_path (s : FileServer) (t c b : String)
    (hw : s.GetTokenExpectationForChunk t c = ExpectAction.Write)
    (hne : s.chunks.Exists c = false) :
    ∃ s1, s.ReceiveChunk c t b = some ({ code := 200, body := "" }, s1) ∧
      s1.chunks.Get c = some b ∧ (∀ c2, c2 ≠ c → s1.chunks.Get c2 = s.chunks.Get c2) ∧
      s1.nsConn = s.nsConn ++ [c] := by
  have hauth : s.GetTokenExpectationForChunk t c ≠ ExpectAction.Nothing := by
    rw [hw]; decide
  rcases receiveChunk_granted s c t b hauth with ⟨hex, _⟩ | ⟨_, s1, hf, hS⟩
  · rw [hne] at hex; cases hex
  · obtain ⟨hchunks, hns, _⟩ := fulfill_inv _ s1 t c hf
    refine ⟨s1, hS, ?_, fun c2 hc2 => ?_, hns⟩
    · rw [hchunks]
      simp [ChunkDB.Get, mapGet_mapSet]
    · rw [hchunks]
      have : ¬ c = c2 := fun e => hc2 e.symm
      simp [ChunkDB.Get, mapGet_mapSet, this]

/-- Witness of C14: the upload of chunk `2` of the test `TestFS_ChunkReceive`. -/
theorem write_happy_path_witness :
    ∃ s1, ((NewFileServer exampleStore).step (Op.expect "2" ExpectAction.Write ["2"])).ReceiveChunk
        "2" "2" "This is chunk 2" = some ({ code := 200, body := "" }, s1) ∧
      s1.chunks.Get "2" = some "This is chunk 2" ∧
      (∀ c2, c2 ≠ "2" → s1.chunks.Get c2 = ((NewFileServer exampleStore).step
        (Op.expect "2" ExpectAction.Write ["2"])).chunks.Get c2) ∧
      s1.nsConn = ((NewFileServer exampleStore).step
        (Op.expect "2" ExpectAction.Write ["2"])).nsConn ++ ["2"] :=
  write_happy_path ((NewFileServer exampleStore).step (Op.expect "2" ExpectAction.Write ["2"]))
    "2" "2" "This is chunk 2" (by decide) (by decide)

/-- C15. Read happy path: for a chunk id `c` of the store and a token `t` that is
not registered, `Expect(t, Read, c)` succeeds and the GET of `c` with `t` answers 200
with the stored bytes of `c`; the store is unchanged. -/
theorem read_happy_path (s : FileServer) (t c content : String)
    (hfree : s.expectations.Get t = none) (hc : s.chunks.Get c = some content) :
    ∃ s1 s2, s.Expect t ExpectAction.Read [c] = .ok s1 ∧
      s1.SendChunk c t = some ({ code := 200, body := content }, s2) ∧
      s2.chunks = s.chunks := by
  have hex : ∀ id ∈ [c], s.chunks.Exists id = true := by
    intro id hid
    have : id = c := by simpa using hid
    rw [this]
    simp [ChunkDB.Exists, show mapGet s.chunks.index c = some content from hc]
  obtain ⟨s1, h1⟩ := (expect_unregistered s t [c] hfree).2.1.mpr hex
  obtain ⟨hlook, hchunks, _⟩ := expect_ok_look s s1 t t _ _ h1
  rw [if_pos rfl] at hlook
  have hg : s1.GetTokenExpectationForChunk t c = ExpectAction.Read := by
    rw [getTok_eq_grant, hlook]
    simp [grant, mapGet_fillFalse, mapGet]
  obtain ⟨s2, hf, hS⟩ := sendChunk_granted s1 c t (by rw [hg]; decide)
  rw [hchunks, hc] at hS
  exact ⟨s1, s2, h1, hS, by rw [(fulfill_inv s1 s2 t c hf).1, hchunks]⟩

/-- Witness of C15: the chunk `0` of the test `TestFS_ChunkSend`. -/
theorem read_happy_path_witness :
    ∃ s1 s2, (NewFileServer exampleStore).Expect "0" ExpectAction.Read ["0"] = .ok s1 ∧
      s1.SendChunk "0" "0" = some ({ code := 200, body := "Hello" }, s2) ∧
      s2.chunks = (NewFileServer exampleStore).chunks :=
  read_happy_path (NewFileServer exampleStore) "0" "0" "Hello" (by decide) (by decide)

/-- C16. Write overwrite denied: when chunk `c` exists in the store, the POST of `c`
under a token with a pending write expectation for `c` answers 403, leaves the store
as it was and does not call `ReceivedChunk`. -/
theorem write_overwrite_denied (s : FileServer) (t c b : String)
    (hw : s.GetTokenExpectationForChunk t c = ExpectAction.Write)
    (hex : s.chunks.Exists c = true) :
    ∃ s1, s.ReceiveChunk c t b = some ({ code := 403, body := "" }, s1) ∧
      s1.chunks = s.chunks ∧ s1.nsConn = s.nsConn := by
  have hauth : s.GetTokenExpectationForChunk t c ≠ ExpectAction.Nothing := by
    rw [hw]; decide
  rcases receiveChunk_granted s c t b hauth with ⟨_, s1, hf, hS⟩ | ⟨hne, _⟩
  · obtain ⟨hchunks, hns, _⟩ := fulfill_inv s s1 t c hf
    exact ⟨s1, hS, hchunks, hns⟩
  · rw [hex] at hne; cases hne

/-- Witness of C16: the upload of the present chunk `1` of the test
`TestFS_ChunkReceive`. -/
theorem write_overwrite_denied_witness :
    ∃ s1, ((NewFileServer exampleStore).step (Op.expect "1" ExpectAction.Write ["1"])).ReceiveChunk
        "1" "1" "new" = some ({ code := 403, body := "" }, s1) ∧
      s1.chunks = ((NewFileServer exampleStore).step
        (Op.expect "1" ExpectAction.Write ["1"])).chunks ∧
      s1.nsConn = ((NewFileServer exampleStore).step
        (Op.expect "1" ExpectAction.Write ["1"])).nsConn :=
  write_overwrite_denied ((NewFileServer exampleStore).step (Op.expect "1" ExpectAction.Write ["1"]))
    "1" "1" "new" (by decide) (by decide)

/-- C17, the failing input. The write token `t` was registered with the chunk id `a`
listed twice. The POST of `a` is answered 200 and fulfils the last pending chunk
(every entry of the expectation is true), but the token is still registered, with
`pendingCount` 1, and `Expect` with the same token fails. -/
theorem release_duplicate_ids :
    (exampleDuplicate.ReceiveChunk "a" "t" "body").map (fun p => p.1.code) = some 200 ∧
    ((exampleDuplicate.step (Op.post "a" "t" "body")).look "t")
      = some ⟨ExpectAction.Write, [("a", true)], 1⟩ ∧
    (match (exampleDuplicate.step (Op.post "a" "t" "body")).Expect "t" ExpectAction.Write ["b"] with
      | .error e => some e
      | .ok _ => none) = some ExpectError.TokenExists := by
  decide

/-- C18, the failing input. The token `t` is not registered and the chunks `0` and
`1` are in the store; `Replicate("t", "h", ["0", "1"])` answers 200 and makes one
POST, of chunk `0`: the `Expect` of chunk `1` fails, because the token is registered
until the deferred `fulfillExpectation` of chunk `0` runs at the end of the handler. -/
theorem replicate_two_chunks :
    (NewFileServer exampleStore).ReplicateHandler "t" "h" (some ["0", "1"])
      = some ({ code := 200, body := "" }, NewFileServer exampleStore,
          [("http://h/chunks/0?token=t", "Hello")]) := by
  decide

/-- C19, counterexample. On the store of the test, a purge of chunk `0`, which no
expectation names, schedules its removal; before the removal has run, `Expect` registers
the read token `r` on chunk `0`; a second purge of `0` then finds the chunk named and
defers. When the removal scheduled by the first purge runs, chunk `0` leaves the store
while `r`, which names it, is still registered. -/
theorem purge_pending_removal_counterexample :
    namedIn ((NewFileServer exampleStore).run
      [Op.purge (some ["0"]), Op.expect "r" ExpectAction.Read ["0"]]).expectations.tokens "0"
      = true ∧
    (((NewFileServer exampleStore).run
      [Op.purge (some ["0"]), Op.expect "r" ExpectAction.Read ["0"]]).PurgeHandler
        (some ["0"])).1.code = 200 ∧
    namedIn ((NewFileServer exampleStore).run
      [Op.purge (some ["0"]), Op.expect "r" ExpectAction.Read ["0"], Op.purge (some ["0"]),
       Op.runRemovals]).expectations.tokens "0" = true ∧
    ((NewFileServer exampleStore).run
      [Op.purge (some ["0"]), Op.expect "r" ExpectAction.Read ["0"], Op.purge (some ["0"]),
       Op.runRemovals]).chunks.Exists "0" = false := by
  decide

/-- C19, amended. In every state reached from a new server, `Purge(ids)` answers 200.
An id of the list that no registered expectation names is gone from the store once
the scheduled removals have run. An id that a registered expectation names, and of
which no removal is scheduled yet, keeps its content in the store as long as some
expectation names it after each request, also when scheduled removals run in between;
and the request after which no expectation names it any more schedules its removal,
so that it is gone once the scheduled removals have run. -/
theorem purge_removes_unnamed_defers_named (s : FileServer) (ids : List String)
    (hreach : ∃ store before, s = (NewFileServer store).run before) :
    (s.PurgeHandler (some ids)).1.code = 200 ∧
    (∀ id ∈ ids, namedIn s.expectations.tokens id = false →
      (s.PurgeHandler (some ids)).2.runScheduled.chunks.Exists id = false) ∧
    (∀ id ∈ ids, namedIn s.expectations.tokens id = true → id ∉ s.scheduled →
      ∀ ops, (s.PurgeHandler (some ids)).2.staysNamed id ops = true →
        (∀ v, s.chunks.Get id = some v →
          ((s.PurgeHandler (some ids)).2.run ops).chunks.Get id = some v) ∧
        ∀ op,
          namedIn (((s.PurgeHandler (some ids)).2.run ops).step op).expectations.tokens id
            = false →
          id ∈ (((s.PurgeHandler (some ids)).2.run ops).step op).scheduled ∧
          (((s.PurgeHandler (some ids)).2.run ops).step op).runScheduled.chunks.Exists id
            = false) := by
  refine ⟨rfl, fun id hid hn => purge_unnamed_removed s ids id hid hn, ?_⟩
  intro id hid hn hs ops hstay
  have hu : TokensUnique s := by
    obtain ⟨store, before, hrun⟩ := hreach
    rw [hrun]
    exact run_tokensUnique _ before (newFileServer_tokensUnique store)
  obtain ⟨htok, hobs, hsched, hch⟩ := purge_named_state s ids id hid hn hs
  have hu1 : TokensUnique (s.PurgeHandler (some ids)).2 := by
    unfold TokensUnique
    rw [htok]
    exact hu
  have hn1 : namedIn (s.PurgeHandler (some ids)).2.expectations.tokens id = true := by
    rw [htok]
    exact hn
  obtain ⟨h1, h2, _, h4⟩ := run_named_kept _ id ops hu1 hobs hsched hstay
  refine ⟨fun v hv => h4 v (by rw [hch]; exact hv), ?_⟩
  intro op hnot
  exact step_release_removed _ op id h1 h2 (staysNamed_last _ id ops hn1 hstay) hnot

/-- Witness of C19: with the read token `r` on chunk `0`, the purge of `0` and `1`
removes `1` at once, keeps `0` while another token is registered, and removes `0`
when the GET with `r` has released the token. -/
theorem purge_removes_unnamed_defers_named_witness :
    (((NewFileServer exampleStore).step (Op.expect "r" ExpectAction.Read ["0"])).PurgeHandler
        (some ["0", "1"])).1.code = 200 ∧
    (((NewFileServer exampleStore).step (Op.expect "r" ExpectAction.Read ["0"])).PurgeHandler
        (some ["0", "1"])).2.runScheduled.chunks.Exists "1" = false ∧
    ((((NewFileServer exampleStore).step (Op.expect "r" ExpectAction.Read ["0"])).PurgeHandler
        (some ["0", "1"])).2.run
          [Op.runRemovals, Op.expect "w" ExpectAction.Write ["5"]]).chunks.Get "0"
        = some "Hello" ∧
    (((((NewFileServer exampleStore).step (Op.expect "r" ExpectAction.Read ["0"])).PurgeHandler
        (some ["0", "1"])).2.run
          [Op.runRemovals, Op.expect "w" ExpectAction.Write ["5"]]).step
            (Op.get "0" "r")).runScheduled.chunks.Exists "0" = false :=
  have h := purge_removes_unnamed_defers_named
    ((NewFileServer exampleStore).step (Op.expect "r" ExpectAction.Read ["0"])) ["0", "1"]
    ⟨exampleStore, [Op.expect "r" ExpectAction.Read ["0"]], rfl⟩
  have h0 := h.2.2 "0" (by decide) (by decide) (by decide)
    [Op.runRemovals, Op.expect "w" ExpectAction.Write ["5"]] (by decide)
  ⟨h.1, h.2.1 "1" (by decide) (by decide), h0.1 "Hello" (by decide),
    (h0.2 (Op.get "0" "r") (by decide)).2⟩


/-! ## Frame of a refused request, cancellation of a free token, refused writes -/

/-- C23. A GET or a POST on `/chunks/c2` with a token `t2` that has no registered
expectation is answered 401 and leaves the whole state (expectations, store,
notifications) as it was; a pending expectation of a token `t` for a chunk `c` of
the store is still usable after either request: the following GET of `c` with `t`
answers 200 with the content of the chunk. -/
theorem unregistered_token_frame (s : FileServer) (t2 c2 body : String)
    (hfree : s.expectations.Get t2 = none) :
    s.SendChunk c2 t2 = some ({ code := 401, body := "" }, s) ∧
    s.ReceiveChunk c2 t2 body = some ({ code := 401, body := "" }, s) ∧
    s.step (Op.get c2 t2) = s ∧ s.step (Op.post c2 t2 body) = s ∧
    ∀ t c content, s.GetTokenExpectationForChunk t c ≠ ExpectAction.Nothing →
      s.chunks.Get c = some content →
      (∃ s1, (s.step (Op.get c2 t2)).SendChunk c t
        = some ({ code := 200, body := content }, s1)) ∧
      ∃ s1, (s.step (Op.post c2 t2 body)).SendChunk c t
        = some ({ code := 200, body := content }, s1) := by
  have hn : s.GetTokenExpectationForChunk t2 c2 = ExpectAction.Nothing := by
    simp only [FileServer.GetTokenExpectationForChunk, hfree]
  have hget := sendChunk_denied s c2 t2 hn
  have hpost := receiveChunk_denied s c2 t2 body hn
  have hsg : s.step (Op.get c2 t2) = s := by simp only [FileServer.step, hget, orStay]
  have hsp : s.step (Op.post c2 t2 body) = s := by simp only [FileServer.step, hpost, orStay]
  refine ⟨hget, hpost, hsg, hsp, ?_⟩
  intro t c content hauth hc
  obtain ⟨s1, _, hS⟩ := sendChunk_granted s c t hauth
  rw [hc] at hS
  rw [hsg, hsp]
  exact ⟨⟨s1, hS⟩, ⟨s1, hS⟩⟩

/-- Witness of C23: the test with the bad token `xyz` and the token `1` on chunk `1`. -/
theorem unregistered_token_frame_witness :
    (∃ s1, (exampleReadServer.step (Op.get "1" "xyz")).SendChunk "1" "1"
      = some ({ code := 200, body := "world" }, s1)) ∧
    ∃ s1, (exampleReadServer.step (Op.post "1" "xyz" "new")).SendChunk "1" "1"
      = some ({ code := 200, body := "world" }, s1) :=
  (unregistered_token_frame exampleReadServer "xyz" "1" "new" (by decide)).2.2.2.2
    "1" "1" "world" (by decide) (by decide)

/-- C24. `CancelToken` with a non-empty token that is not registered answers 200 and
leaves the whole state as it was. So for a free token `t` and a chunk `c` that is not
in the store: after `Expect(t, Write, c)` and the POST of `c`, which is answered 200
and releases the token, `CancelToken(t)` answers 200, changes nothing, and the store
still holds `c` with the body written. -/
theorem cancel_unregistered_token (s : FileServer) (t : String) (ht : t ≠ "")
    (hfree : s.expectations.Get t = none) :
    s.CancelTokenHandler t = some ({ code := 200, body := "" }, s) ∧
    ∀ c body, s.chunks.Exists c = false →
      ∃ s1 s2, s.Expect t ExpectAction.Write [c] = .ok s1 ∧
        s1.ReceiveChunk c t body = some ({ code := 200, body := "" }, s2) ∧
        s2.expectations.Get t = none ∧
        s2.CancelTokenHandler t = some ({ code := 200, body := "" }, s2) ∧
        s2.chunks.Get c = some body := by
  have key : ∀ s0 : FileServer, s0.expectations.Get t = none →
      s0.CancelTokenHandler t = some ({ code := 200, body := "" }, s0) := by
    intro s0 h0
    simp only [FileServer.CancelTokenHandler, if_neg ht, h0]
  refine ⟨key s hfree, ?_⟩
  intro c body hne
  obtain ⟨s1, h1⟩ := (expect_unregistered s t [c] hfree).2.2
  obtain ⟨hlook, hchunks, _⟩ := expect_ok_look s s1 t t _ _ h1
  rw [if_pos rfl] at hlook
  have hg : s1.GetTokenExpectationForChunk t c = ExpectAction.Write := by
    rw [getTok_eq_grant, hlook]
    simp [grant, mapGet_fillFalse, mapGet]
  have hauth : s1.GetTokenExpectationForChunk t c ≠ ExpectAction.Nothing := by
    rw [hg]; decide
  rcases receiveChunk_granted s1 c t body hauth with ⟨hex, _⟩ | ⟨_, s2, hf, hS⟩
  · rw [hchunks, hne] at hex
    cases hex
  · obtain ⟨s3, hf3, hnone, hch3, _⟩ := fulfill_releases _ t c _ false
      (show FileServer.look (FileServer.mk (ChunkDB.mk (mapSet s1.chunks.index c body))
        s1.expectations (s1.nsConn ++ [c]) s1.scheduled) t = _ from hlook)
      (by simp [mapGet_fillFalse, mapGet]) rfl
    rw [hf3] at hf
    cases hf
    refine ⟨s1, s2, h1, hS, hnone, key s2 hnone, ?_⟩
    rw [hch3]
    simp [ChunkDB.Get, mapGet_mapSet]

/-- Witness of C24: the upload of chunk `2` of the test `TestFS_ChunkReceive`,
followed by the cancellation of its token. -/
theorem cancel_unregistered_token_witness :
    (NewFileServer exampleStore).CancelTokenHandler "2"
      = some ({ code := 200, body := "" }, NewFileServer exampleStore) ∧
    ∃ s1 s2, (NewFileServer exampleStore).Expect "2" ExpectAction.Write ["2"] = .ok s1 ∧
      s1.ReceiveChunk "2" "2" "This is chunk 2" = some ({ code := 200, body := "" }, s2) ∧
      s2.expectations.Get "2" = none ∧
      s2.CancelTokenHandler "2" = some ({ code := 200, body := "" }, s2) ∧
      s2.chunks.Get "2" = some "This is chunk 2" :=
  have h := cancel_unregistered_token (NewFileServer exampleStore) "2" (by decide) (by decide)
  ⟨h.1, h.2 "2" "This is chunk 2" (by decide)⟩

/-- C26, the failing input. The write token `t` was registered with the chunk id `0`
of the store listed twice. The POST of `0` is answered 403 and runs the deferred
`fulfillExpectation`: the counter goes from 2 to 1 and the chunk is consumed, but `0`
was the last pending chunk of the token (every entry is true) and the token is still
registered. -/
theorem refused_post_duplicate_ids :
    ((NewFileServer exampleStore).step (Op.expect "t" ExpectAction.Write ["0", "0"])).look "t"
      = some ⟨ExpectAction.Write, [("0", false)], 2⟩ ∧
    ((NewFileServer exampleStore).step (Op.expect "t" ExpectAction.Write ["0", "0"])).ReceiveChunk
        "0" "t" "new" =
      some ({ code := 403, body := "" },
        { NewFileServer exampleStore with
          expectations := { tokens := [("t", ⟨ExpectAction.Write, [("0", true)], 1⟩)],
                            obsolete := [] } }) := by
  decide

/-- C28, the failing input. The token `t` was registered with the chunk id `a` listed
twice: its expectation has one entry and the counter 2, the capacity
`len(processedChunks) - pendingCount` is -1 and `CancelTokenHandler` panics. -/
theorem cancel_duplicate_ids_panics :
    (exampleDuplicate.look "t").map
      (fun e => (e.processedChunks.length : Int) - e.pendingCount) = some (-1) ∧
    exampleDuplicate.CancelTokenHandler "t" = none := by
  decide


/-! ## Selection: placement exclusion, round robin, distinct nodes -/

/-- C11, the failing input. The pool has three live nodes `a`, `b`, `c`, satisfies
the ring invariant and has `Alive` equal to the number of its live nodes;
`SelectSeveralExcept(["a"], 1)` returns the node whose host is `a`, an element of
the host list: the loop skips the nodes whose host is not in `exceptMap`. -/
theorem selectSeveralExcept_returns_excepted :
    RingInv examplePool3 ∧ examplePool3.Alive = (examplePool3.liveList.length : Int) ∧
    examplePool3.SelectSeveralExcept ["a"] 1 4
      = Outcome.done [⟨"a", 7070, true, 2, 1, 0⟩] ∧
    (⟨"a", 7070, true, 2, 1, 0⟩ : FileServerInfo).Host ∈ ["a"] :=
  ⟨examplePool3_ringInv, by decide, by decide, by decide⟩

/-- C12. Round-robin selection: the pool reached from `InitFServers` (at least one
node) by `ChangeStatus` calls with valid ids and `Select` calls exists, and when a
node of it is live, `Select()` returns a live node of the pool and sets the cursor
`Next` to its `NextAlive`; with `k` live nodes, `k` consecutive `Select()` calls do
not change the nodes and return live nodes whose indices are the increasing list of
the live indices read cyclically from some position (a rotation of it): every live
node exactly once, in cyclic index order. -/
theorem select_round_robin (conf : List (String × Int)) (ops : List PoolOp)
    (hne : 0 < conf.length) (hvalid : ∀ op ∈ ops, op.validFor conf.length = true) :
    ∃ s, (InitFServers conf).runOps ops = some s ∧ s.StorageNodes.length = conf.length ∧
      ((∃ k, k < s.StorageNodes.length ∧ s.aliveAt k = true) →
        (∃ L, s.Select = some (L, { s with Next := L.NextAlive }) ∧ L.Alive = true ∧
          s.StorageNodes[L.ID]? = some L) ∧
        (∃ a Ls s1, s.selectMany s.liveList.length = some (Ls, s1) ∧
          s1.StorageNodes = s.StorageNodes ∧
          (∀ L ∈ Ls, L.Alive = true ∧ s.StorageNodes[L.ID]? = some L) ∧
          Ls.map (fun L => L.ID) = s.liveList.rotate a ∧
          (Ls.map (fun L => L.ID)).Nodup ∧
          ∀ i, i < s.StorageNodes.length → s.aliveAt i = true →
            i ∈ Ls.map (fun L => L.ID))) := by
  obtain ⟨hlen0, hinv0⟩ := initFServers_inv conf
  obtain ⟨s, hrun, hlen, hinv, hb⟩ := runOps_inv ops (InitFServers conf) hinv0
    (initFServers_bound conf hne) (fun op hop => by rw [hlen0]; exact hvalid op hop)
  refine ⟨s, hrun, by rw [hlen, hlen0], fun hex => ?_⟩
  obtain ⟨L, hsel, hLa, hLid, hLc⟩ := select_live s hinv hb hex
  refine ⟨⟨L, hsel, hLa, hLid⟩, ?_⟩
  have hcn : L.ID < s.StorageNodes.length := (List.getElem?_eq_some.mp hLid).1
  have hca : s.aliveAt L.ID = true := by
    simp only [PoolInfo.aliveAt, aliveL, hLid, hLa]
  obtain ⟨a, ha⟩ := liveList_index_of_alive s L.ID hcn hca
  have halt := (liveList_alive s a _ ha).1
  have hcur : s.liveList[a % s.liveList.length]?
      = some (if s.aliveAt s.Next = true then s.Next else s.nextAt s.Next) := by
    rw [Nat.mod_eq_of_lt halt, ← hLc]
    exact ha
  obtain ⟨Ls, s1, hmany, hnodes, hall, hids⟩ :=
    selectMany_cycle s.liveList.length s hinv hb a hcur
  rw [cyclic_read_eq_rotate] at hids
  refine ⟨a, Ls, s1, hmany, hnodes, hall, hids, ?_, fun i hi hia => ?_⟩
  · rw [hids, List.nodup_rotate]
    exact List.Nodup.filter _ (List.nodup_range _)
  · rw [hids, (List.rotate_perm s.liveList a).mem_iff]
    exact (mem_liveList s i).mpr ⟨hi, hia⟩

/-- Witness of C12: three nodes, of which nodes `2` and `0` come up, with `Select`
calls in between. -/
theorem select_round_robin_witness :
    ∃ s, (InitFServers exampleConf).runOps
        [PoolOp.change 2 LIVE, PoolOp.select, PoolOp.change 0 LIVE, PoolOp.select] = some s ∧
      s.StorageNodes.length = exampleConf.length ∧
      ((∃ k, k < s.StorageNodes.length ∧ s.aliveAt k = true) →
        (∃ L, s.Select = some (L, { s with Next := L.NextAlive }) ∧ L.Alive = true ∧
          s.StorageNodes[L.ID]? = some L) ∧
        (∃ a Ls s1, s.selectMany s.liveList.length = some (Ls, s1) ∧
          s1.StorageNodes = s.StorageNodes ∧
          (∀ L ∈ Ls, L.Alive = true ∧ s.StorageNodes[L.ID]? = some L) ∧
          Ls.map (fun L => L.ID) = s.liveList.rotate a ∧
          (Ls.map (fun L => L.ID)).Nodup ∧
          ∀ i, i < s.StorageNodes.length → s.aliveAt i = true →
            i ∈ Ls.map (fun L => L.ID))) :=
  select_round_robin exampleConf
    [PoolOp.change 2 LIVE, PoolOp.select, PoolOp.change 0 LIVE, PoolOp.select]
    (by decide) (by decide)

/-- The pool of the witness of C12, computed: the nodes `0` and `2` are live, the
cursor is at node `0`, and two `Select()` calls return node `0` and then node `2`. -/
theorem select_round_robin_example :
    ((InitFServers exampleConf).runOps
        [PoolOp.change 2 LIVE, PoolOp.select, PoolOp.change 0 LIVE, PoolOp.select]).map
      (fun s => (s.liveList, s.Next, (s.selectMany 2).map (fun p => p.1.map (fun L => L.ID))))
      = some ([0, 2], 0, some [0, 2]) := by
  decide

/-- C20, the failing input. On the pool of three live nodes, which satisfies the
ring invariant and has `Alive` equal to the number of its live nodes,
`SelectSeveralExcept(["a"], 2)` returns the node of host `a` twice: the loop walks
round the ring and appends the node again each time it comes by. -/
theorem selectSeveralExcept_repeats_node :
    RingInv examplePool3 ∧ examplePool3.Alive = (examplePool3.liveList.length : Int) ∧
    examplePool3.SelectSeveralExcept ["a"] 2 8
      = Outcome.done [⟨"a", 7070, true, 2, 1, 0⟩, ⟨"a", 7070, true, 2, 1, 0⟩] ∧
    ¬ ([⟨"a", 7070, true, 2, 1, 0⟩, ⟨"a", 7070, true, 2, 1, 0⟩] : List FileServerInfo).Nodup :=
  ⟨examplePool3_ringInv, by decide, by decide, by decide⟩


/-! ## The field `Alive` of the pool, and termination of the selection -/

/-- C22, the failing input. After `InitFServers` on three storage nodes and
`ChangeStatus(0, LIVE)` one node has the status `LIVE` (and its flag `Alive` set), but
the field `Alive` of the pool is 0: `ChangeStatus` does not write it. -/
theorem pool_alive_not_counted :
    ((InitFServers exampleConf).changeAll [(0, LIVE)]).map
      (fun s => (s.Alive, s.statusLiveCount, s.StorageNodes.map (fun nd => (nd.Status, nd.Alive))))
      = some (0, 1, [(2, true), (0, false), (0, false)]) := by
  decide

/-- C27, the failing input. The pool has three live nodes, satisfies the ring
invariant and has `Alive` equal to the number of its live nodes; with the empty host
list, `SelectSeveralExcept([], 1)` is still in its loop after any number of
iterations: no node has its host in `exceptMap`, so the counter `i` never moves. -/
theorem selectSeveralExcept_loops_forever :
    RingInv examplePool3 ∧ examplePool3.Alive = (examplePool3.liveList.length : Int) ∧
    0 < examplePool3.liveList.length ∧
    ∀ fuel, examplePool3.SelectSeveralExcept [] 1 fuel = Outcome.timeout :=
  ⟨examplePool3_ringInv, by decide, by decide, fun fuel =>
    selectSeveralExcept_never examplePool3 [] 1 examplePool3_bound
      (fun _ nd _ _ => exceptCount_nil nd.Host) (by decide) (by decide) fuel⟩


/-! ## The heart, and the replica counters -/

/-- C25. For every `count ≥ 0`, `Heart.Poll(count)` returns (any fuel of at least
`count` iterations is enough), and the calls it made are poll, sleep, poll, sleep, ...
with `count` polls: one sleep after each poll, so exactly one between two consecutive
polls. `Poll(0)` makes no call. -/
theorem heart_poll_count (count : Int) (fuel : Nat) (hc : 0 ≤ count)
    (hf : count.toNat ≤ fuel) :
    Heart.Poll count fuel [] = Outcome.done (beats count.toNat) ∧
    (beats count.toNat).count Beat.poll = count.toNat ∧
    (beats count.toNat).count Beat.sleep = count.toNat ∧
    Heart.Poll 0 fuel [] = Outcome.done [] := by
  have hne : count ≠ -1 := by omega
  refine ⟨?_, count_poll_beats _, count_sleep_beats _, ?_⟩
  · simp only [Heart.Poll, hne, ne_eq, not_false_eq_true, if_true]
    rw [pollLoop_spec count count.toNat fuel 0 [] (by omega) hf]
    rfl
  · have := pollLoop_spec 0 0 fuel 0 [] (by omega) (Nat.zero_le _)
    simpa [Heart.Poll, beats] using this

/-- Witness of C25: three polls. -/
theorem heart_poll_count_witness :
    Heart.Poll 3 3 [] = Outcome.done [Beat.poll, Beat.sleep, Beat.poll, Beat.sleep,
      Beat.poll, Beat.sleep] :=
  (heart_poll_count 3 3 (by decide) (by decide)).1

/-- C21, the failing input. The chunk record has one replica, on `fs1`; after two
confirmations from `fs1` (file found, one replica configured, no receiver selected)
`ReadyReplicas` is 2, while one entry of `Statuses` is `OK` and `AllReplicas` is 1:
`confirmChunk` increments `ReadyReplicas` whatever the status of the sender was. -/
theorem confirmChunk_repeated_confirmation :
    (confirmChunk exampleChunk "fs1" true 1 []).map
      (fun c => (c.ReadyReplicas, c.okCount, c.AllReplicas)) = some (1, 1, 1) ∧
    ((confirmChunk exampleChunk "fs1" true 1 []).bind
      (fun c => confirmChunk c "fs1" true 1 [])).map
      (fun c => (c.ReadyReplicas, c.okCount, c.AllReplicas)) = some (2, 1, 1) := by
  decide

/-! ## Lazy removal of a directory -/

/-- C29, the failing input. On the initial tree, `CreateDirectory("d")`,
`CreateFile("d/f")`, `CreateDirectory("d/sub")`, `CreateFile("d/sub/g")` and
`RemoveDirectory("d")` all succeed. Afterwards `PathExists`, `FileExists` and
`DirectoryExists` of `d/f` panic, and `PathExists` of `d/sub/g` panics, whatever the
fuel: `ParentsExist` looks the parent `d` up in the map, from which `RemoveDirectory`
deleted it, and reads `parent.Removed` through the nil pointer. -/
theorem removeDirectory_children_panic :
    exampleRemoval = Outcome.done (none, exampleRemovedTree) ∧
    (∀ fuel, exampleRemovedTree.PathExists "d/f" (fuel + 1) = Outcome.panic) ∧
    (∀ fuel, exampleRemovedTree.FileExists "d/f" (fuel + 1) = Outcome.panic) ∧
    (∀ fuel, exampleRemovedTree.DirectoryExists "d/f" (fuel + 1) = Outcome.panic) ∧
    (∀ fuel, exampleRemovedTree.PathExists "d/sub/g" (fuel + 2) = Outcome.panic) := by
  have hf := pathExists_missing_parent exampleRemovedTree "d/f" 2
    ⟨"d/f", false, [], "d", false⟩ (by decide) (by decide) (by decide) (by decide) (by decide)
  refine ⟨by decide, fun fuel => (hf fuel).1, fun fuel => (hf fuel).2.1,
    fun fuel => (hf fuel).2.2, fun fuel => ?_⟩
  have hsub : exampleRemovedTree.ParentsExist (fuel + 1) 3 = Outcome.panic := by
    have h2 : exampleRemovedTree.heap[3]? = some ⟨"d/sub", true, [4], "d", false⟩ := by decide
    have h4 : ¬ ("d/sub" : String) = "." := by decide
    have h5 : exampleRemovedTree.GetNodeByAddress "d" = none := by decide
    simp only [Tree.ParentsExist, h2, h4, if_false, h5]
  have h1 : mapGet exampleRemovedTree.Nodes (CleanAddress "d/sub/g").1 = some 4 := by decide
  have h2 : exampleRemovedTree.heap[4]? = some ⟨"d/sub/g", false, [], "d/sub", false⟩ := by
    decide
  have h4 : ¬ ("d/sub/g" : String) = "." := by decide
  have h5 : exampleRemovedTree.GetNodeByAddress "d/sub" = some 3 := by decide
  have h6 : exampleRemovedTree.heap[3]? = some ⟨"d/sub", true, [4], "d", false⟩ := by decide
  have hg : exampleRemovedTree.ParentsExist (fuel + 2) 4 = Outcome.panic := by
    rw [Tree.ParentsExist]
    simp only [h2, h4, if_false, h5, h6, hsub]
    rfl
  simp only [Tree.PathExists, h1, h2, hg]
  rfl

end Tsuki
